import Mathlib

/-!
# Clipboard whitespace trimmer (`src/cliptrim.c`)

A shallow embedding of the line trim engine `trim_lines_preserving_breaks` and of
the watcher cycle `handle_clipboard_update` with the clipboard access layer
(`try_open_clipboard`, `fetch_clipboard_text`, `set_clipboard_text`).

Conventions of the embedding:

* a `wchar_t` is a natural number (its code unit); `L'\r'` is `13`, `L'\n'` is `10`;
* a buffer `(const wchar_t *p, size_t length)` is the list of its `length`
  characters, a null pointer is `none`; `input[i]` is `input.getD i 0`;
* `size_t` counters are natural numbers: every counter of the engine is bounded
  by `length`, and every subtraction has a left operand at least as large as the
  right one, so no wrap-around occurs;
* a C loop is a function recursing on a fuel argument that the caller sets to a
  bound on the number of iterations; the loop condition is the source's.
-/

namespace ClipTrim

/-! ## The line trim engine -/

/-- A `wchar_t` code unit. -/
abbrev WChar := Nat

/-- The character `L'\r'`. -/
def CR : WChar := 13

/-- The character `L'\n'`. -/
def LF : WChar := 10

/-- The struct `TrimmedBuffer`; `text` is the buffer content before the terminating
NUL, `none` for a null pointer. -/
structure TrimmedBuffer where
  text : Option (List WChar)
  length : Nat
  whitespaceRemoved : Nat
  linesTouched : Nat
  lineCount : Nat
deriving DecidableEq, Repr

/-- The output buffer together with its write cursor: `cells` are the characters
stored so far, in the order of the stores. -/
structure OutBuf where
  cells : List WChar
  writePos : Nat
deriving DecidableEq, Repr

/-- The store `output[writePos++] = ch`. -/
def OutBuf.put (o : OutBuf) (ch : WChar) : OutBuf :=
  { cells := o.cells ++ [ch], writePos := o.writePos + 1 }

/-- The loop
`while (lineEnd < length && input[lineEnd] != L'\r' && input[lineEnd] != L'\n') lineEnd++;`
(arguments: fuel, `lineEnd`). -/
def scanLineEnd (input : List WChar) (length : Nat) : Nat → Nat → Nat
  | 0, lineEnd => lineEnd
  | fuel + 1, lineEnd =>
    if lineEnd < length && input.getD lineEnd 0 != CR && input.getD lineEnd 0 != LF then
      scanLineEnd input length fuel (lineEnd + 1)
    else lineEnd

/-- The loop `while (trimStart < lineEnd && iswspace(input[trimStart]) &&
input[trimStart] != L'\r' && input[trimStart] != L'\n') trimStart++;`
(arguments: fuel, `trimStart`). -/
def scanTrimStart (iswspace : WChar → Bool) (input : List WChar) (lineEnd : Nat) :
    Nat → Nat → Nat
  | 0, trimStart => trimStart
  | fuel + 1, trimStart =>
    if trimStart < lineEnd && iswspace (input.getD trimStart 0)
        && input.getD trimStart 0 != CR && input.getD trimStart 0 != LF then
      scanTrimStart iswspace input lineEnd fuel (trimStart + 1)
    else trimStart

/-- The loop `while (trimEnd > trimStart && iswspace(input[trimEnd - 1]) &&
input[trimEnd - 1] != L'\r' && input[trimEnd - 1] != L'\n') trimEnd--;`
(arguments: fuel, `trimEnd`). -/
def scanTrimEnd (iswspace : WChar → Bool) (input : List WChar) (trimStart : Nat) :
    Nat → Nat → Nat
  | 0, trimEnd => trimEnd
  | fuel + 1, trimEnd =>
    if trimEnd > trimStart && iswspace (input.getD (trimEnd - 1) 0)
        && input.getD (trimEnd - 1) 0 != CR && input.getD (trimEnd - 1) 0 != LF then
      scanTrimEnd iswspace input trimStart fuel (trimEnd - 1)
    else trimEnd

/-- The loop `for (size_t i = trimStart; i < trimEnd; ++i) output[writePos++] = input[i];`
(arguments: fuel, `i`, the output buffer). -/
def copyContent (input : List WChar) (trimEnd : Nat) : Nat → Nat → OutBuf → OutBuf
  | 0, _, out => out
  | fuel + 1, i, out =>
    if i < trimEnd then copyContent input trimEnd fuel (i + 1) (out.put (input.getD i 0))
    else out

/-- The terminator loop `while (newlinePos < length) { ... }`: a `\r` is stored and, when
a `\n` follows at once, that `\n` is stored with it; a `\n` is stored; any other
character leaves the loop. Returns the final `newlinePos` and the output buffer
(arguments: fuel, `newlinePos`, the output buffer). -/
def copyTerminators (input : List WChar) (length : Nat) : Nat → Nat → OutBuf → Nat × OutBuf
  | 0, newlinePos, out => (newlinePos, out)
  | fuel + 1, newlinePos, out =>
    if newlinePos < length then
      let ch := input.getD newlinePos 0
      if ch == CR then
        if newlinePos + 1 < length && input.getD (newlinePos + 1) 0 == LF then
          copyTerminators input length fuel (newlinePos + 1 + 1)
            ((out.put ch).put (input.getD (newlinePos + 1) 0))
        else
          copyTerminators input length fuel (newlinePos + 1) (out.put ch)
      else if ch == LF then
        copyTerminators input length fuel (newlinePos + 1) (out.put ch)
      else (newlinePos, out)
    else (newlinePos, out)

/-- The local variables of `trim_lines_preserving_breaks` that live across iterations
of its outer loop. -/
structure TrimState where
  readPos : Nat
  out : OutBuf
  whitespaceRemoved : Nat
  linesTouched : Nat
  lineCount : Nat
deriving DecidableEq, Repr

/-- One iteration of the outer loop `while (readPos < length) { ... }` (its body). -/
def trimLine (iswspace : WChar → Bool) (input : List WChar) (length : Nat)
    (s : TrimState) : TrimState :=
  let lineStart := s.readPos
  let lineEnd := scanLineEnd input length (length - s.readPos) s.readPos
  let trimStart := scanTrimStart iswspace input lineEnd (lineEnd - lineStart) lineStart
  let trimEnd := scanTrimEnd iswspace input trimStart (lineEnd - trimStart) lineEnd
  let lineCount :=
    if lineEnd > lineStart then s.lineCount + 1
    else if lineEnd == lineStart && lineEnd < length then s.lineCount + 1
    else s.lineCount
  let removed := (trimStart - lineStart) + (lineEnd - trimEnd)
  let linesTouched := if removed > 0 then s.linesTouched + 1 else s.linesTouched
  let whitespaceRemoved :=
    if removed > 0 then s.whitespaceRemoved + removed else s.whitespaceRemoved
  let out := copyContent input trimEnd (trimEnd - trimStart) trimStart s.out
  let nl := copyTerminators input length (length - lineEnd) lineEnd out
  { readPos := nl.1, out := nl.2, whitespaceRemoved := whitespaceRemoved,
    linesTouched := linesTouched, lineCount := lineCount }

/-- The outer loop `while (readPos < length) { ... }` (arguments: fuel, the state). -/
def trimLoop (iswspace : WChar → Bool) (input : List WChar) (length : Nat) :
    Nat → TrimState → TrimState
  | 0, s => s
  | fuel + 1, s =>
    if s.readPos < length then trimLoop iswspace input length fuel (trimLine iswspace input length s)
    else s

/-- The value `TrimmedBuffer result = {0}`. -/
def TrimmedBuffer.zero : TrimmedBuffer :=
  { text := none, length := 0, whitespaceRemoved := 0, linesTouched := 0, lineCount := 0 }

/-- The function `trim_lines_preserving_breaks(input, length)`. `iswspace` is the runtime's
whitespace classifier and `mallocOk` tells whether the `malloc` of the output buffer
succeeds. -/
def trim_lines_preserving_breaks (iswspace : WChar → Bool) (mallocOk : Bool)
    (input : Option (List WChar)) : TrimmedBuffer :=
  match input with
  | none => TrimmedBuffer.zero
  | some input =>
    let length := input.length
    if !mallocOk then TrimmedBuffer.zero
    else
      let s := trimLoop iswspace input length length
        { readPos := 0, out := { cells := [], writePos := 0 }, whitespaceRemoved := 0,
          linesTouched := 0, lineCount := 0 }
      let lineCount := if length == 0 then 0 else s.lineCount
      { text := some s.out.cells, length := s.out.writePos,
        whitespaceRemoved := s.whitespaceRemoved, linesTouched := s.linesTouched,
        lineCount := lineCount }

/-- The C-locale whitespace classifier on ASCII: space, `\t`, `\n`, `\v`, `\f`, `\r`. -/
def iswspaceAscii (c : WChar) : Bool :=
  c == 32 || (9 ≤ c && c ≤ 13)

/-! ## Notions used to state and prove the properties of the engine -/

/-- A line terminator character: `\r` or `\n`. -/
def isBreak (c : WChar) : Bool := c == CR || c == LF

/-- A character that the trim cursors step over: whitespace for the classifier, and
neither `\r` nor `\n`. -/
def isTrimWs (iswspace : WChar → Bool) (c : WChar) : Bool :=
  iswspace c && c != CR && c != LF

/-- The content of the logical line at the head of `suf`: its longest terminator-free
prefix. -/
def lineOf (suf : List WChar) : List WChar := suf.takeWhile (fun c => !isBreak c)

/-- What follows the content of the first logical line of `suf`. -/
def afterLine (suf : List WChar) : List WChar := suf.dropWhile (fun c => !isBreak c)

/-- The leading whitespace of a line. -/
def leadWs (iswspace : WChar → Bool) (line : List WChar) : List WChar :=
  line.takeWhile (isTrimWs iswspace)

/-- A line without its leading and trailing whitespace. -/
def keptOf (iswspace : WChar → Bool) (line : List WChar) : List WChar :=
  (line.dropWhile (isTrimWs iswspace)).rdropWhile (isTrimWs iswspace)

/-- The trailing whitespace of a line (empty when the whole line is whitespace, which
then counts as leading). -/
def trailWs (iswspace : WChar → Bool) (line : List WChar) : List WChar :=
  (line.dropWhile (isTrimWs iswspace)).rtakeWhile (isTrimWs iswspace)

/-- The run of terminator characters that follows the first line of `suf`. -/
def breaksOf (suf : List WChar) : List WChar := (afterLine suf).takeWhile isBreak

/-- The part of `suf` after its first line and the terminator run that follows it. -/
def nextSuf (suf : List WChar) : List WChar := (afterLine suf).dropWhile isBreak

/-- The number of characters that one iteration removes from the line at the head of
`suf`. -/
def removedOf (iswspace : WChar → Bool) (suf : List WChar) : Nat :=
  (lineOf suf).length - (keptOf iswspace (lineOf suf)).length

/-- One iteration of the outer loop on the unread part `suf` of the input, in terms of
lists (see `trimLine_eq_lineStep`). -/
def lineStep (iswspace : WChar → Bool) (suf : List WChar) (s : TrimState) : TrimState :=
  { readPos := s.readPos + (lineOf suf).length + (breaksOf suf).length,
    out := { cells := s.out.cells ++ keptOf iswspace (lineOf suf) ++ breaksOf suf,
             writePos := s.out.writePos + (keptOf iswspace (lineOf suf)).length
                + (breaksOf suf).length },
    whitespaceRemoved := s.whitespaceRemoved + removedOf iswspace suf,
    linesTouched := if removedOf iswspace suf > 0 then s.linesTouched + 1 else s.linesTouched,
    lineCount := s.lineCount + 1 }

/-- The initial values of the local variables of `trim_lines_preserving_breaks`. -/
def TrimState.init : TrimState :=
  { readPos := 0, out := { cells := [], writePos := 0 }, whitespaceRemoved := 0,
    linesTouched := 0, lineCount := 0 }

/-- A character that the engine never deletes: not whitespace for the classifier, or a
`\r`, or a `\n`. -/
def keepChar (iswspace : WChar → Bool) (c : WChar) : Bool :=
  !iswspace c || c == CR || c == LF

/-- Every whitespace character of `o` other than `\r` and `\n` has a character before it and
a character after it in `o`, neither of which is `\r` or `\n`. -/
def NoEdgeWs (iswspace : WChar → Bool) (o : List WChar) : Prop :=
  ∀ a c b, o = a ++ c :: b → isTrimWs iswspace c = true →
    (∃ a1 p, a = a1 ++ [p] ∧ isBreak p = false) ∧ (∃ n b1, b = n :: b1 ∧ isBreak n = false)

/-- The last character before the read position, when there is one and input remains, is a
terminator. -/
def AtLineStart (pre suf : List WChar) : Prop :=
  suf = [] ∨ pre = [] ∨ ∃ p1 b, pre = p1 ++ [b] ∧ isBreak b = true

/-- The kind of a line terminator. -/
inductive Terminator where
  | cr
  | lf
  | crlf
deriving DecidableEq, Repr

/-- The terminators of a text, in order and by kind: a `\r` immediately followed by a `\n`
is one `crlf`, any other `\r` is a lone `cr` and any other `\n` a lone `lf`. -/
def terminators : List WChar → List Terminator
  | [] => []
  | [c] => if c = CR then [Terminator.cr] else if c = LF then [Terminator.lf] else []
  | c :: d :: rest =>
    if c = CR then
      if d = LF then Terminator.crlf :: terminators rest
      else Terminator.cr :: terminators (d :: rest)
    else if c = LF then Terminator.lf :: terminators (d :: rest)
    else terminators (d :: rest)

/-- Whether the text starts with one or more trimmable whitespace characters followed at once
by a `\n`. -/
def wsThenLF (iswspace : WChar → Bool) : List WChar → Bool
  | [] => false
  | [_] => false
  | c :: d :: rest => isTrimWs iswspace c && (d == LF || wsThenLF iswspace (d :: rest))

/-- Whether somewhere in the text a `\r` is separated from a following `\n` by one or more
characters that are all trimmable whitespace (a whitespace-only line between a `\r` and a
`\n`). -/
def crWsLf (iswspace : WChar → Bool) : List WChar → Bool
  | [] => false
  | c :: rest => (c == CR && wsThenLF iswspace rest) || crWsLf iswspace rest

/-- The invariant of the outer loop behind the preservation of terminator kinds. -/
def TermInv (pre suf : List WChar) (s : TrimState) : Prop :=
  terminators s.out.cells = terminators pre ∧
  (pre = [] → s.out.cells = []) ∧
  (∀ c t, suf = c :: t → pre ≠ [] → isBreak c = false) ∧
  (suf ≠ [] → ∀ c1, s.out.cells = c1 ++ [CR] → ∃ p1, pre = p1 ++ [CR])

/-- The text that the outer loop writes for the unread part `suf` of the input, iteration by
iteration (see `trim_text_inv`): the line without its leading and trailing whitespace, then
the terminator run that follows it. The fuel bounds the number of iterations. -/
def trimText (iswspace : WChar → Bool) : Nat → List WChar → List WChar
  | 0, _ => []
  | fuel + 1, suf =>
    if suf = [] then []
    else keptOf iswspace (lineOf suf) ++ breaksOf suf ++ trimText iswspace fuel (nextSuf suf)

/-! ## The clipboard access layer and the watcher cycle

The host is a state `World`: the clipboard content (the payload of the wide-character
format and of the single-byte format, each a C string given by its characters before
the terminating NUL), the process-wide flag `g_isUpdatingClipboard`, the outcomes that
the fallible host calls to come will have (`outcomes`, consumed in call order; a call
made when the list is exhausted fails), and the record of what the program did: the host
calls, each with the value of the flag at the time of the call, and the log entries. -/

/-- The two clipboard formats the program asks for. -/
inductive Format where
  | CF_UNICODETEXT
  | CF_TEXT
deriving DecidableEq, Repr

/-- A call of a host function, with its outcome where it can fail. -/
inductive HostCall where
  | OpenClipboard (ok : Bool)
  | Sleep (ms : Nat)
  | GetClipboardData (format : Format) (found : Bool)
  | GlobalLock (ok : Bool)
  | GlobalUnlock
  | CloseClipboard
  | EmptyClipboard (ok : Bool)
  | GlobalAlloc (ok : Bool)
  | GlobalFree
  | SetClipboardData (ok : Bool)
  | MultiByteToWideChar (ok : Bool)
  | malloc (ok : Bool)
  | free
deriving DecidableEq, Repr

/-- An entry of the record of host calls: the call, the value of `g_isUpdatingClipboard`
when it was made, and whether it was made inside `set_clipboard_text`. -/
structure TraceEntry where
  flag : Bool
  inSet : Bool
  call : HostCall
deriving DecidableEq, Repr

/-- The messages passed to `log_info`. -/
inductive LogEntry where
  | unableToOpenForReading
  | failedToLockUnicode
  | outOfMemoryCopying
  | failedToLockAnsi
  | failedToConvertAnsi
  | outOfMemoryConverting
  | unableToOpenForWriting
  | failedToEmpty
  | failedToAllocateGlobal
  | failedToLockGlobal
  | setClipboardDataFailed
  | noCompatibleText
  | failedToAllocateTrimming
  | alreadyTrimmed (lineCount : Nat)
  | trimmed (whitespaceRemoved linesTouched : Nat)
  | failedToSetBack
deriving DecidableEq, Repr

/-- The state of the host and of the process. -/
structure World where
  g_isUpdatingClipboard : Bool
  unicodeText : Option (List WChar)
  ansiText : Option (List Nat)
  clipboardOpen : Bool
  outcomes : List Bool
  trace : List TraceEntry
  log : List LogEntry
  inSetClipboardText : Bool
  setClipboardTextCalls : Nat
deriving DecidableEq, Repr

/-- Record a host call. -/
def World.record (w : World) (c : HostCall) : World :=
  { w with trace := w.trace ++ [⟨w.g_isUpdatingClipboard, w.inSetClipboardText, c⟩] }

/-- The outcome of the next fallible host call. -/
def World.nextOutcome (w : World) : Bool × World :=
  (w.outcomes.headD false, { w with outcomes := w.outcomes.tail })

/-- The function `log_info`. -/
def log_info (e : LogEntry) (w : World) : World :=
  { w with log := w.log ++ [e] }

/-- The host call `OpenClipboard(hwnd)`. -/
def OpenClipboard (w : World) : Bool × World :=
  let r := w.nextOutcome
  (r.1, { (r.2.record (HostCall.OpenClipboard r.1)) with
            clipboardOpen := r.2.clipboardOpen || r.1 })

/-- The host call `Sleep(ms)`. -/
def Sleep (ms : Nat) (w : World) : World := w.record (HostCall.Sleep ms)

/-- The host call `CloseClipboard()`. -/
def CloseClipboard (w : World) : World :=
  { (w.record HostCall.CloseClipboard) with clipboardOpen := false }

/-- The host call `GetClipboardData(CF_UNICODETEXT)`: the payload, when the clipboard holds
one in this format. -/
def GetClipboardDataUnicode (w : World) : Option (List WChar) × World :=
  (w.unicodeText,
    w.record (HostCall.GetClipboardData Format.CF_UNICODETEXT w.unicodeText.isSome))

/-- The host call `GetClipboardData(CF_TEXT)`. -/
def GetClipboardDataAnsi (w : World) : Option (List Nat) × World :=
  (w.ansiText, w.record (HostCall.GetClipboardData Format.CF_TEXT w.ansiText.isSome))

/-- The host call `GlobalLock(h)`. -/
def GlobalLock (w : World) : Bool × World :=
  let r := w.nextOutcome
  (r.1, r.2.record (HostCall.GlobalLock r.1))

/-- The host call `GlobalUnlock(h)`. -/
def GlobalUnlock (w : World) : World := w.record HostCall.GlobalUnlock

/-- The host call `GlobalAlloc(GMEM_MOVEABLE, bytes)`. -/
def GlobalAlloc (w : World) : Bool × World :=
  let r := w.nextOutcome
  (r.1, r.2.record (HostCall.GlobalAlloc r.1))

/-- The host call `GlobalFree(h)`. -/
def GlobalFree (w : World) : World := w.record HostCall.GlobalFree

/-- The host call `EmptyClipboard()`: on success the clipboard holds no format any more. -/
def EmptyClipboard (w : World) : Bool × World :=
  let r := w.nextOutcome
  let w1 := r.2.record (HostCall.EmptyClipboard r.1)
  (r.1, if r.1 then { w1 with unicodeText := none, ansiText := none } else w1)

/-- The host call `SetClipboardData(CF_UNICODETEXT, hMem)`: on success the wide-character
payload of the clipboard is the content of `hMem`. -/
def SetClipboardData (payload : List WChar) (w : World) : Bool × World :=
  let r := w.nextOutcome
  let w1 := r.2.record (HostCall.SetClipboardData r.1)
  (r.1, if r.1 then { w1 with unicodeText := some payload } else w1)

/-- The library call `malloc`. -/
def malloc (w : World) : Bool × World :=
  let r := w.nextOutcome
  (r.1, r.2.record (HostCall.malloc r.1))

/-- The library call `free`. -/
def free (w : World) : World := w.record HostCall.free

/-- The library call `wcslen` on a C string given by its characters. -/
def wcslen (s : List WChar) : Nat := s.length

/-- The library call `wcsncmp(a, b, n)` on C strings given by their characters: the
character read at the end of a string is its terminating NUL. -/
def wcsncmp : List WChar → List WChar → Nat → Int
  | _, _, 0 => 0
  | a, b, n + 1 =>
    if a.headD 0 < b.headD 0 then -1
    else if a.headD 0 > b.headD 0 then 1
    else if a.headD 0 = 0 then 0
    else wcsncmp a.tail b.tail n

/-- The loop `for (int i = 0; i < kRetries; ++i)` of `try_open_clipboard`; the argument is the
number `kRetries - i` of attempts left. -/
def try_open_clipboard_loop : Nat → World → Bool × World
  | 0, w => (false, w)
  | left + 1, w =>
    let r := OpenClipboard w
    if r.1 then (true, r.2)
    else try_open_clipboard_loop left (Sleep 10 r.2)

/-- The constant `kRetries`. -/
def kRetries : Nat := 5

/-- The function `try_open_clipboard(hwnd)`. -/
def try_open_clipboard (w : World) : Bool × World :=
  try_open_clipboard_loop kRetries w

/-- The struct `ClipboardBuffer`. -/
structure ClipboardBuffer where
  text : Option (List WChar)
  length : Nat
deriving DecidableEq, Repr

/-- The result of `fetch_clipboard_text`: the returned `bool`, `*outBuffer` and
`*outWasUnicode`. -/
structure FetchResult where
  ok : Bool
  outBuffer : ClipboardBuffer
  outWasUnicode : Bool
deriving DecidableEq, Repr

/-- The function `fetch_clipboard_text(hwnd, outBuffer, outWasUnicode)`, called with non-null
`outBuffer` and `outWasUnicode` as its only caller does. `MultiByteToWideChar` is the host's
conversion from the active code page: the converted string, or `none` when the host reports
a required size that is not positive. -/
def fetch_clipboard_text (MultiByteToWideChar : List Nat → Option (List WChar)) (w : World) :
    FetchResult × World :=
  let failed : FetchResult := ⟨false, ⟨none, 0⟩, false⟩
  let o := try_open_clipboard w
  if !o.1 then (failed, log_info LogEntry.unableToOpenForReading o.2)
  else
    let hData := GetClipboardDataUnicode o.2
    match hData.1 with
    | some locked =>
      let l := GlobalLock hData.2
      if !l.1 then (failed, log_info LogEntry.failedToLockUnicode (CloseClipboard l.2))
      else
        let len := wcslen locked
        let m := malloc l.2
        if !m.1 then
          (failed, log_info LogEntry.outOfMemoryCopying (CloseClipboard (GlobalUnlock m.2)))
        else
          (⟨true, ⟨some locked, len⟩, true⟩, CloseClipboard (GlobalUnlock m.2))
    | none =>
      let hAnsi := GetClipboardDataAnsi hData.2
      match hAnsi.1 with
      | none => (failed, CloseClipboard hAnsi.2)
      | some lockedAnsi =>
        let l := GlobalLock hAnsi.2
        if !l.1 then (failed, log_info LogEntry.failedToLockAnsi (CloseClipboard l.2))
        else
          let w1 := l.2.record (HostCall.MultiByteToWideChar (MultiByteToWideChar lockedAnsi).isSome)
          match MultiByteToWideChar lockedAnsi with
          | none =>
            (failed, log_info LogEntry.failedToConvertAnsi (CloseClipboard (GlobalUnlock w1)))
          | some converted =>
            let m := malloc w1
            if !m.1 then
              (failed,
                log_info LogEntry.outOfMemoryConverting (CloseClipboard (GlobalUnlock m.2)))
            else
              let w2 := m.2.record (HostCall.MultiByteToWideChar true)
              (⟨true, ⟨some converted, wcslen converted⟩, false⟩,
                CloseClipboard (GlobalUnlock w2))

/-- The body of `set_clipboard_text(hwnd, text, length)`. -/
def set_clipboard_text_body (text : Option (List WChar)) (length : Nat) (w : World) :
    Bool × World :=
  match text with
  | none => (false, w)
  | some text =>
    let o := try_open_clipboard w
    if !o.1 then (false, log_info LogEntry.unableToOpenForWriting o.2)
    else
      let e := EmptyClipboard o.2
      if !e.1 then (false, log_info LogEntry.failedToEmpty (CloseClipboard e.2))
      else
        let hMem := GlobalAlloc e.2
        if !hMem.1 then
          (false, log_info LogEntry.failedToAllocateGlobal (CloseClipboard hMem.2))
        else
          let dest := GlobalLock hMem.2
          if !dest.1 then
            (false, log_info LogEntry.failedToLockGlobal (CloseClipboard (GlobalFree dest.2)))
          else
            let w1 := GlobalUnlock dest.2
            let sd := SetClipboardData (text.take length) w1
            if !sd.1 then
              (false,
                log_info LogEntry.setClipboardDataFailed (CloseClipboard (GlobalFree sd.2)))
            else (true, CloseClipboard sd.2)

/-- Bookkeeping on entry to `set_clipboard_text`: the call is counted and the host calls to
come are marked as made inside it. -/
def World.enterSet (w : World) : World :=
  { w with inSetClipboardText := true, setClipboardTextCalls := w.setClipboardTextCalls + 1 }

/-- The function `set_clipboard_text(hwnd, text, length)`: its body, bracketed by the
bookkeeping of the record (the call is counted, and the host calls of the body are marked
as made inside it). -/
def set_clipboard_text (text : Option (List WChar)) (length : Nat) (w : World) :
    Bool × World :=
  let r := set_clipboard_text_body text length w.enterSet
  (r.1, { r.2 with inSetClipboardText := w.inSetClipboardText })

/-- The function `free_clipboard_buffer(buffer)`. -/
def free_clipboard_buffer (buffer : ClipboardBuffer) (w : World) : World :=
  match buffer.text with
  | some _ => free w
  | none => w

/-- The local variable `changed` of `handle_clipboard_update`: the lengths differ, or
`wcsncmp` over the trimmed length finds a difference. -/
def textChanged (trimmed : TrimmedBuffer) (original : ClipboardBuffer) : Bool :=
  if trimmed.length != original.length then true
  else if wcsncmp (trimmed.text.getD []) (original.text.getD []) trimmed.length != 0 then true
  else false

/-- The write-back at the end of `handle_clipboard_update`, from `g_isUpdatingClipboard = true;`
to the end of the function. -/
def write_back (trimmed : TrimmedBuffer) (original : ClipboardBuffer) (w : World) : World :=
  let w1 := { w with g_isUpdatingClipboard := true }
  let sc := set_clipboard_text trimmed.text trimmed.length w1
  let w2 :=
    if sc.1 then
      log_info (LogEntry.trimmed trimmed.whitespaceRemoved trimmed.linesTouched) sc.2
    else log_info LogEntry.failedToSetBack sc.2
  let w3 := { w2 with g_isUpdatingClipboard := false }
  free_clipboard_buffer original (free w3)

/-- The function `handle_clipboard_update(hwnd)`. The trim engine is called with the buffer
and the length that `fetch_clipboard_text` returned; the outcome of its `malloc` is the next
outcome of the host. -/
def handle_clipboard_update (iswspace : WChar → Bool)
    (MultiByteToWideChar : List Nat → Option (List WChar)) (w : World) : World :=
  if w.g_isUpdatingClipboard then w
  else
    let f := fetch_clipboard_text MultiByteToWideChar w
    let original := f.1.outBuffer
    if !f.1.ok then log_info LogEntry.noCompatibleText f.2
    else
      let m := malloc f.2
      let trimmed := trim_lines_preserving_breaks iswspace m.1 original.text
      if trimmed.text.isNone then
        free_clipboard_buffer original (log_info LogEntry.failedToAllocateTrimming m.2)
      else if !textChanged trimmed original then
        free_clipboard_buffer original
          (free (log_info (LogEntry.alreadyTrimmed trimmed.lineCount) m.2))
      else write_back trimmed original m.2

/-! ## Notions used to state and prove the properties of the watcher cycle -/

/-- A host call that changes the clipboard content. -/
def HostCall.isWrite : HostCall → Bool
  | HostCall.EmptyClipboard _ => true
  | HostCall.SetClipboardData _ => true
  | _ => false

/-- A host call that reads the clipboard content. -/
def HostCall.isRead : HostCall → Bool
  | HostCall.GetClipboardData _ _ => true
  | _ => false

/-- The clipboard content is the same in both states. -/
def SameContent (w1 w2 : World) : Prop :=
  w2.unicodeText = w1.unicodeText ∧ w2.ansiText = w1.ansiText

/-- From `w1` to `w2` the program made host calls whose kinds all satisfy `Q`, each with the
flag and the bookkeeping as they are in `w1`, and left the flag and the bookkeeping
unchanged; and when `Q` admits no call that changes the clipboard content, the content is
unchanged. -/
def Calls (Q : HostCall → Prop) (w1 w2 : World) : Prop :=
  w2.g_isUpdatingClipboard = w1.g_isUpdatingClipboard ∧
  w2.inSetClipboardText = w1.inSetClipboardText ∧
  w2.setClipboardTextCalls = w1.setClipboardTextCalls ∧
  ((∀ c, Q c → c.isWrite = false) → SameContent w1 w2) ∧
  ∃ t, w2.trace = w1.trace ++ t ∧
    ∀ e ∈ t, e.flag = w1.g_isUpdatingClipboard ∧ e.inSet = w1.inSetClipboardText ∧ Q e.call

/-- A host call that does not change the clipboard content. -/
def NotWrite (c : HostCall) : Prop := c.isWrite = false

/-- A host call that does not read the clipboard content. -/
def NotRead (c : HostCall) : Prop := c.isRead = false

/-- The library call `free`. -/
def IsFree (c : HostCall) : Prop := c = HostCall.free

/-- From `w1` to `w2` the record of host calls grew by entries that all satisfy `P`. -/
def Seg (P : TraceEntry → Prop) (w1 w2 : World) : Prop :=
  ∃ t, w2.trace = w1.trace ++ t ∧ ∀ e ∈ t, P e

/-- The discipline of the guard at a recorded host call: the flag is set exactly inside
`set_clipboard_text`; a call that changes the clipboard content is made with the flag set and
a call that reads it with the flag clear. -/
def GuardDiscipline (e : TraceEntry) : Prop :=
  e.flag = e.inSet ∧ (e.call.isWrite = true → e.flag = true) ∧
    (e.call.isRead = true → e.flag = false)

/-! ## Example states -/

/-- A host state whose clipboard holds the already trimmed text "foo\r\nbar\n" and in which
the next four fallible host calls succeed. -/
def exampleTrimmedWorld : World :=
  { g_isUpdatingClipboard := false,
    unicodeText := some [102, 111, 111, 13, 10, 98, 97, 114, 10],
    ansiText := none, clipboardOpen := false, outcomes := [true, true, true, true],
    trace := [], log := [], inSetClipboardText := false, setClipboardTextCalls := 0 }

/-- A host state whose clipboard holds the text "  foo \r\nbar\t\n" and in which the next
nine fallible host calls succeed. -/
def exampleUntrimmedWorld : World :=
  { g_isUpdatingClipboard := false,
    unicodeText := some [32, 32, 102, 111, 111, 32, 13, 10, 98, 97, 114, 9, 10],
    ansiText := none, clipboardOpen := false,
    outcomes := [true, true, true, true, true, true, true, true, true],
    trace := [], log := [], inSetClipboardText := false, setClipboardTextCalls := 0 }

/-- The state `exampleUntrimmedWorld` during a write-back: the flag is set. -/
def exampleBusyWorld : World :=
  { exampleUntrimmedWorld with g_isUpdatingClipboard := true }

/-- The number of iterations that the outer loop `while (readPos < length) { ... }` makes
from the state `s` (arguments: fuel, the state); it follows `trimLoop`. -/
def trimLoopIterations (iswspace : WChar → Bool) (input : List WChar) (length : Nat) :
    Nat → TrimState → Nat
  | 0, _ => 0
  | fuel + 1, s =>
    if s.readPos < length then
      trimLoopIterations iswspace input length fuel (trimLine iswspace input length s) + 1
    else 0

/-- The number of maximal runs of non-terminator characters of a text: a run starts at every
character that is not a terminator and stands after a terminator or at the start of the text
(`prevBreak` tells whether the position before the text counts as such). -/
def contentRuns (prevBreak : Bool) : List WChar → Nat
  | [] => 0
  | c :: rest => (if !isBreak c && prevBreak then 1 else 0) + contentRuns (isBreak c) rest

/-- The number of maximal runs of non-terminator characters, plus one when the text begins
with a terminator. -/
def expectedLineCount (input : List WChar) : Nat :=
  contentRuns true input + (if isBreak (input.headD 0) then 1 else 0)

/-- The invariant of the outer loop behind the line count. -/
def CountInv (input pre suf : List WChar) (s : TrimState) : Prop :=
  (pre = [] → s.lineCount = 0) ∧
  (pre ≠ [] → s.lineCount + contentRuns true suf = expectedLineCount input ∧
      ∀ c t, suf = c :: t → isBreak c = false) ∧
  s.linesTouched ≤ s.lineCount

/-- The invariant of the outer loop behind the change detector. -/
def ChangeInv (pre : List WChar) (s : TrimState) : Prop :=
  s.out.cells.Sublist pre ∧ s.out.writePos = s.out.cells.length ∧
  s.out.writePos + s.whitespaceRemoved = pre.length ∧
  (s.linesTouched = 0 ↔ s.whitespaceRemoved = 0)

/-- From `w1` to `w2` the log grew by entries that all satisfy `P`. -/
def Logs (P : LogEntry → Prop) (w1 w2 : World) : Prop :=
  ∃ l, w2.log = w1.log ++ l ∧ ∀ e ∈ l, P e

/-- A log entry that, when it reports a write-back, reports at least one character removed and
at least one line touched. -/
def TrimmedPositive (e : LogEntry) : Prop :=
  ∀ a b, e = LogEntry.trimmed a b → 0 < a ∧ 0 < b

/-- The number of attempts that fail before the first success, among `retries` attempts of
which attempt `i` has the outcome `outcomes[i]` (an attempt beyond the end of the list
fails). -/
def failedAttempts (retries : Nat) (outcomes : List Bool) : Nat :=
  ((List.range retries).takeWhile (fun i => !(outcomes.getD i false))).length

/-- The host calls of `k` failed attempts to open the clipboard, each followed by
`Sleep(10)`. -/
def failedOpenCalls : Nat → List HostCall
  | 0 => []
  | k + 1 => HostCall.OpenClipboard false :: HostCall.Sleep 10 :: failedOpenCalls k

/-- The host calls of `try_open_clipboard` when `k` attempts fail before the first success:
the failed attempts and, when fewer than `retries` attempts failed, the successful one. -/
def openCalls (retries k : Nat) : List HostCall :=
  failedOpenCalls k ++ (if k < retries then [HostCall.OpenClipboard true] else [])

/-- An attempt to open the clipboard. -/
def HostCall.isOpenAttempt : HostCall → Bool
  | HostCall.OpenClipboard _ => true
  | _ => false

/-- A host call other than an attempt to open the clipboard and other than
`CloseClipboard`. -/
def HostCall.isHeld : HostCall → Bool
  | HostCall.OpenClipboard _ => false
  | HostCall.CloseClipboard => false
  | _ => true

/-- A host call made while the clipboard is held open. -/
def HeldCall (c : HostCall) : Prop := c.isHeld = true

/-- From `w` to `w2` the program released the clipboard before returning: when the clipboard
was opened, the last host call is `CloseClipboard`, it is the only `CloseClipboard`, and the
clipboard is closed in `w2`; when it was not opened, no `CloseClipboard` was made and the
only host calls are the failed attempts to open and the waits between them. -/
def ReleasesAccess (w w2 : World) : Prop :=
  ∃ t, w2.trace = w.trace ++ t ∧
    (HostCall.OpenClipboard true ∈ t.map TraceEntry.call →
      (t.map TraceEntry.call).getLast? = some HostCall.CloseClipboard ∧
      (t.map TraceEntry.call).count HostCall.CloseClipboard = 1 ∧
      w2.clipboardOpen = false) ∧
    (HostCall.OpenClipboard true ∉ t.map TraceEntry.call →
      HostCall.CloseClipboard ∉ t.map TraceEntry.call ∧
      ∀ c ∈ t.map TraceEntry.call, c = HostCall.OpenClipboard false ∨ c = HostCall.Sleep 10)

/-- The record entries of the host calls `cs` made in the state `v`. -/
def entriesOf (v : World) (cs : List HostCall) : List TraceEntry :=
  cs.map (fun c => ⟨v.g_isUpdatingClipboard, v.inSetClipboardText, c⟩)

/-- The ways in which `set_clipboard_text` goes on once `try_open_clipboard` has returned:
the host calls it makes then, the value it returns, and the clipboard content it leaves,
given the content `(u, a)` before the call. -/
def SetOutcome (payload : List WChar) (u : Option (List WChar)) (a : Option (List Nat))
    (tail : List HostCall) (result : Bool) (w2 : World) : Prop :=
  (tail = [] ∧ result = false ∧ w2.unicodeText = u ∧ w2.ansiText = a) ∨
  (tail = [HostCall.EmptyClipboard false, HostCall.CloseClipboard] ∧ result = false ∧
    w2.unicodeText = u ∧ w2.ansiText = a) ∨
  (tail = [HostCall.EmptyClipboard true, HostCall.GlobalAlloc false, HostCall.CloseClipboard] ∧
    result = false ∧ w2.unicodeText = none ∧ w2.ansiText = none) ∨
  (tail = [HostCall.EmptyClipboard true, HostCall.GlobalAlloc true, HostCall.GlobalLock false,
      HostCall.GlobalFree, HostCall.CloseClipboard] ∧
    result = false ∧ w2.unicodeText = none ∧ w2.ansiText = none) ∨
  (tail = [HostCall.EmptyClipboard true, HostCall.GlobalAlloc true, HostCall.GlobalLock true,
      HostCall.GlobalUnlock, HostCall.SetClipboardData false, HostCall.GlobalFree,
      HostCall.CloseClipboard] ∧
    result = false ∧ w2.unicodeText = none ∧ w2.ansiText = none) ∨
  (tail = [HostCall.EmptyClipboard true, HostCall.GlobalAlloc true, HostCall.GlobalLock true,
      HostCall.GlobalUnlock, HostCall.SetClipboardData true, HostCall.CloseClipboard] ∧
    result = true ∧ w2.unicodeText = some payload ∧ w2.ansiText = none)

/-- A host state whose clipboard holds "  foo \r\nbar\t\n" and in which the clipboard can be
opened and cleared, and the allocation of the shared memory fails. -/
def exampleAllocFailWorld : World :=
  { exampleUntrimmedWorld with outcomes := [true, true, false] }

/-- A host state whose clipboard holds "  foo \r\nbar\t\n" and in which five attempts to open
the clipboard fail (a sixth would succeed). -/
def exampleContendedWorld : World :=
  { exampleUntrimmedWorld with outcomes := [false, false, false, false, false, true] }

/-! ## The loops in terms of lists -/

theorem getD_append_cons (pre : List WChar) (c : WChar) (t : List WChar) :
    (pre ++ c :: t).getD pre.length 0 = c := by
  induction pre with
  | nil => rfl
  | cons a pre ih => simpa [List.getD_cons_succ] using ih

theorem isBreak_iff (c : WChar) : isBreak c = true ↔ (c = CR ∨ c = LF) := by
  simp [isBreak]

theorem isBreak_false_iff (c : WChar) : isBreak c = false ↔ (c ≠ CR ∧ c ≠ LF) := by
  simp [isBreak]

theorem scanLineEnd_eq (fuel : Nat) (pre suf : List WChar) (hf : suf.length ≤ fuel) :
    scanLineEnd (pre ++ suf) (pre ++ suf).length fuel pre.length
      = pre.length + (lineOf suf).length := by
  induction fuel generalizing pre suf with
  | zero =>
    have : suf = [] := List.length_eq_zero.mp (Nat.le_zero.mp hf)
    subst this
    simp [scanLineEnd, lineOf]
  | succ n ih =>
    cases suf with
    | nil => simp [scanLineEnd, lineOf]
    | cons c t =>
      rw [scanLineEnd, getD_append_cons]
      cases hc : isBreak c with
      | true =>
        have h1 : (c != CR && c != LF) = false := by
          rcases (isBreak_iff c).mp hc with h | h <;> simp [h]
        simp [lineOf, hc, h1, Bool.and_assoc]
      | false =>
        have h1 : (c != CR && c != LF) = true := by
          have := (isBreak_false_iff c).mp hc
          simp [this]
        have hrec := ih (pre ++ [c]) t (by simpa using hf)
        simp only [List.append_assoc, List.singleton_append, List.length_append,
          List.length_singleton, List.length_cons, List.length_nil, Nat.zero_add] at hrec
        simp only [List.length_append, List.length_cons, Bool.and_assoc, h1, Bool.and_true,
          decide_eq_true_eq]
        rw [if_pos (by omega), hrec]
        simp [lineOf, hc]
        omega

theorem isTrimWs_eq (iswspace : WChar → Bool) (c : WChar) :
    (iswspace c && c != CR && c != LF) = isTrimWs iswspace c := rfl

theorem scanTrimStart_eq (iswspace : WChar → Bool) (fuel : Nat) (pre line post : List WChar)
    (hf : line.length ≤ fuel) :
    scanTrimStart iswspace (pre ++ line ++ post) (pre.length + line.length) fuel pre.length
      = pre.length + (leadWs iswspace line).length := by
  induction fuel generalizing pre line with
  | zero =>
    have : line = [] := List.length_eq_zero.mp (Nat.le_zero.mp hf)
    subst this
    simp [scanTrimStart, leadWs]
  | succ n ih =>
    cases line with
    | nil => simp [scanTrimStart, leadWs]
    | cons c t =>
      have hget : (pre ++ c :: t ++ post).getD pre.length 0 = c := by
        rw [List.append_assoc, List.cons_append]
        exact getD_append_cons pre c (t ++ post)
      rw [scanTrimStart, hget]
      simp only [Bool.and_assoc]
      have hlt : decide (pre.length < pre.length + (c :: t).length) = true := by simp
      rw [hlt, Bool.true_and, ← Bool.and_assoc, isTrimWs_eq]
      cases hc : isTrimWs iswspace c with
      | true =>
        have hrec := ih (pre ++ [c]) t (by simpa using hf)
        simp only [List.append_assoc, List.singleton_append, List.length_append,
          List.length_singleton, List.length_cons, List.length_nil, Nat.zero_add,
          List.cons_append, List.nil_append] at hrec ⊢
        rw [if_pos trivial]
        have e : pre.length + (t.length + 1) = pre.length + 1 + t.length := by omega
        rw [e, hrec]
        simp [leadWs, hc]
        omega
      | false => simp [leadWs, hc]

theorem getD_append_mid (pre mid post : List WChar) (c : WChar) :
    (pre ++ (mid ++ [c]) ++ post).getD (pre.length + (mid ++ [c]).length - 1) 0 = c := by
  have h := getD_append_cons (pre ++ mid) c post
  simp only [List.length_append, List.length_singleton, List.append_assoc, List.singleton_append,
    Nat.add_sub_cancel] at h ⊢
  rw [← Nat.add_assoc, Nat.add_sub_cancel]
  exact h

theorem scanTrimEnd_eq (iswspace : WChar → Bool) (fuel : Nat) (pre mid post : List WChar)
    (hf : mid.length ≤ fuel) :
    scanTrimEnd iswspace (pre ++ mid ++ post) pre.length fuel (pre.length + mid.length)
      = pre.length + (mid.rdropWhile (isTrimWs iswspace)).length := by
  induction fuel generalizing mid post with
  | zero =>
    have : mid = [] := List.length_eq_zero.mp (Nat.le_zero.mp hf)
    subst this
    simp [scanTrimEnd]
  | succ n ih =>
    rcases List.eq_nil_or_concat mid with rfl | ⟨m, c, rfl⟩
    · simp [scanTrimEnd]
    · rw [List.concat_eq_append] at hf ⊢
      rw [scanTrimEnd, getD_append_mid]
      simp only [Bool.and_assoc]
      have hlt : decide (pre.length + (m ++ [c]).length > pre.length) = true := by simp
      rw [hlt, Bool.true_and, ← Bool.and_assoc, isTrimWs_eq]
      cases hc : isTrimWs iswspace c with
      | true =>
        have hrec := ih m ([c] ++ post) (by simpa using hf)
        rw [if_pos rfl]
        have e1 : pre ++ (m ++ [c]) ++ post = pre ++ m ++ ([c] ++ post) := by simp
        have e2 : pre.length + (m ++ [c]).length - 1 = pre.length + m.length := by simp
        rw [e1, e2, hrec, List.rdropWhile_concat_pos _ _ _ hc]
      | false =>
        rw [List.rdropWhile_concat_neg _ _ _ (by simp [hc])]
        simp

theorem copyContent_eq (fuel : Nat) (pre mid post : List WChar) (out : OutBuf)
    (hf : mid.length ≤ fuel) :
    copyContent (pre ++ mid ++ post) (pre.length + mid.length) fuel pre.length out
      = { cells := out.cells ++ mid, writePos := out.writePos + mid.length } := by
  induction fuel generalizing pre mid out with
  | zero =>
    have : mid = [] := List.length_eq_zero.mp (Nat.le_zero.mp hf)
    subst this
    simp [copyContent]
  | succ n ih =>
    cases mid with
    | nil => simp [copyContent]
    | cons c t =>
      have hget : (pre ++ c :: t ++ post).getD pre.length 0 = c := by
        rw [List.append_assoc, List.cons_append]
        exact getD_append_cons pre c (t ++ post)
      rw [copyContent, hget, if_pos (by simp)]
      have hrec := ih (pre ++ [c]) t (out.put c) (by simpa using hf)
      simp only [List.append_assoc, List.singleton_append, List.length_append,
        List.length_singleton, List.length_cons, List.length_nil, Nat.zero_add,
        List.cons_append, List.nil_append] at hrec ⊢
      have e : pre.length + (t.length + 1) = pre.length + 1 + t.length := by omega
      rw [e, hrec]
      simp [OutBuf.put]
      omega

theorem getD_append_cons_succ (pre : List WChar) (c d : WChar) (t : List WChar) :
    (pre ++ c :: d :: t).getD (pre.length + 1) 0 = d := by
  have h := getD_append_cons (pre ++ [c]) d t
  simpa using h

theorem copyTerminators_eq (fuel : Nat) (pre suf : List WChar) (out : OutBuf)
    (hf : suf.length ≤ fuel) :
    copyTerminators (pre ++ suf) (pre ++ suf).length fuel pre.length out
      = (pre.length + (suf.takeWhile isBreak).length,
          { cells := out.cells ++ suf.takeWhile isBreak,
            writePos := out.writePos + (suf.takeWhile isBreak).length }) := by
  induction fuel generalizing pre suf out with
  | zero =>
    have : suf = [] := List.length_eq_zero.mp (Nat.le_zero.mp hf)
    subst this
    simp [copyTerminators]
  | succ n ih =>
    cases suf with
    | nil => simp [copyTerminators]
    | cons c t =>
      rw [copyTerminators, if_pos (by simp)]
      simp only [getD_append_cons]
      by_cases hcr : c = CR
      · subst hcr
        have hb : isBreak CR = true := by decide
        rw [if_pos (by simp)]
        cases t with
        | nil =>
          rw [if_neg (by simp)]
          have hrec := ih (pre ++ [CR]) [] (out.put CR) (by simp)
          simp only [List.append_assoc, List.singleton_append, List.length_append,
            List.length_singleton, List.append_nil] at hrec
          simp only [List.length_append, List.length_singleton] at hrec ⊢
          rw [hrec]
          simp [hb, OutBuf.put]
        | cons d t2 =>
          rw [getD_append_cons_succ]
          by_cases hd : d = LF
          · subst hd
            have hb2 : isBreak LF = true := by decide
            rw [if_pos (by simp)]
            have hrec := ih (pre ++ [CR, LF]) t2 ((out.put CR).put LF)
              (by simp at hf; omega)
            simp only [List.append_assoc, List.cons_append, List.nil_append,
              List.length_append, List.length_cons, List.length_nil, Nat.zero_add] at hrec ⊢
            have e2 : pre.length + 1 + 1 = pre.length + (1 + 1) := by omega
            rw [e2, hrec]
            simp [hb, hb2, OutBuf.put]
            omega
          · rw [if_neg (by simp [hd])]
            have hrec := ih (pre ++ [CR]) (d :: t2) (out.put CR) (by simpa using hf)
            simp only [List.append_assoc, List.cons_append, List.nil_append,
              List.length_append, List.length_cons, List.length_nil, Nat.zero_add] at hrec ⊢
            rw [hrec]
            simp [hb, OutBuf.put]
            omega
      · rw [if_neg (by simp [hcr])]
        by_cases hlf : c = LF
        · subst hlf
          have hb : isBreak LF = true := by decide
          rw [if_pos (by simp)]
          have hrec := ih (pre ++ [LF]) t (out.put LF) (by simpa using hf)
          simp only [List.append_assoc, List.cons_append, List.nil_append,
            List.length_append, List.length_cons, List.length_nil, Nat.zero_add] at hrec ⊢
          rw [hrec]
          simp [hb, OutBuf.put]
          omega
        · rw [if_neg (by simp [hlf])]
          have hb : isBreak c = false := by simp [isBreak, hcr, hlf]
          simp [hb]

/-! ## One iteration of the outer loop in terms of lists -/

theorem rdropWhile_append_rtakeWhile (p : WChar → Bool) (l : List WChar) :
    l.rdropWhile p ++ l.rtakeWhile p = l := by
  unfold List.rdropWhile List.rtakeWhile
  rw [← List.reverse_append, List.takeWhile_append_dropWhile, List.reverse_reverse]

theorem lineOf_append_afterLine (suf : List WChar) : lineOf suf ++ afterLine suf = suf :=
  List.takeWhile_append_dropWhile _ suf

theorem breaksOf_append_nextSuf (suf : List WChar) :
    breaksOf suf ++ nextSuf suf = afterLine suf :=
  List.takeWhile_append_dropWhile _ (afterLine suf)

theorem line_split (iswspace : WChar → Bool) (line : List WChar) :
    leadWs iswspace line ++ (keptOf iswspace line ++ trailWs iswspace line) = line := by
  unfold leadWs keptOf trailWs
  rw [rdropWhile_append_rtakeWhile, List.takeWhile_append_dropWhile]

theorem suf_split (suf : List WChar) :
    lineOf suf ++ (breaksOf suf ++ nextSuf suf) = suf := by
  rw [breaksOf_append_nextSuf, lineOf_append_afterLine]

theorem trimLine_eq (iswspace : WChar → Bool) (pre suf : List WChar) (s : TrimState)
    (hs : s.readPos = pre.length) (hne : suf ≠ []) :
    trimLine iswspace (pre ++ suf) (pre ++ suf).length s =
      { readPos := pre.length + (lineOf suf).length + (breaksOf suf).length,
        out := { cells := s.out.cells ++ keptOf iswspace (lineOf suf) ++ breaksOf suf,
                 writePos := s.out.writePos + (keptOf iswspace (lineOf suf)).length
                    + (breaksOf suf).length },
        whitespaceRemoved := s.whitespaceRemoved + removedOf iswspace suf,
        linesTouched :=
          if removedOf iswspace suf > 0 then s.linesTouched + 1 else s.linesTouched,
        lineCount := s.lineCount + 1 } := by
  obtain ⟨input, hin⟩ : ∃ input, input = pre ++ suf := ⟨_, rfl⟩
  obtain ⟨line, hl⟩ : ∃ line, line = lineOf suf := ⟨_, rfl⟩
  obtain ⟨rest, hr⟩ : ∃ rest, rest = afterLine suf := ⟨_, rfl⟩
  obtain ⟨lead, hld⟩ : ∃ lead, lead = leadWs iswspace line := ⟨_, rfl⟩
  obtain ⟨kept, hk⟩ : ∃ kept, kept = keptOf iswspace line := ⟨_, rfl⟩
  obtain ⟨trail, ht⟩ : ∃ trail, trail = trailWs iswspace line := ⟨_, rfl⟩
  obtain ⟨B, hB⟩ : ∃ B, B = breaksOf suf := ⟨_, rfl⟩
  have hsuf : suf = line ++ rest := by rw [hl, hr, lineOf_append_afterLine]
  have hline : line = lead ++ (kept ++ trail) := by rw [hld, hk, ht, line_split]
  have hlen : input.length = pre.length + line.length + rest.length := by
    rw [hin, hsuf]; simp; omega
  have hllen : line.length = lead.length + kept.length + trail.length := by
    rw [hline]; simp; omega
  have h1 : scanLineEnd input input.length (input.length - pre.length) pre.length
      = pre.length + line.length := by
    rw [hin, hl]
    exact scanLineEnd_eq _ pre suf (by simp)
  have h2 : ∀ f, line.length ≤ f →
      scanTrimStart iswspace input (pre.length + line.length) f pre.length
        = pre.length + lead.length := by
    intro f hf
    rw [hin, hsuf, ← List.append_assoc, hld]
    exact scanTrimStart_eq iswspace f pre line rest hf
  have h3 : ∀ f, kept.length + trail.length ≤ f →
      scanTrimEnd iswspace input (pre.length + lead.length) f (pre.length + line.length)
        = pre.length + lead.length + kept.length := by
    intro f hf
    have e : input = (pre ++ lead) ++ (kept ++ trail) ++ rest := by
      rw [hin, hsuf, hline]; simp
    have := scanTrimEnd_eq iswspace f (pre ++ lead) (kept ++ trail) rest (by simpa using hf)
    rw [← e] at this
    have e2 : kept ++ trail = line.dropWhile (isTrimWs iswspace) := by
      rw [hk, ht]; exact rdropWhile_append_rtakeWhile _ _
    have e3 : (kept ++ trail).rdropWhile (isTrimWs iswspace) = kept := by
      rw [e2, hk]; rfl
    rw [e3] at this
    simp only [List.length_append] at this
    have e4 : pre.length + lead.length + (kept.length + trail.length)
        = pre.length + line.length := by omega
    rw [e4] at this
    exact this
  have h4 : ∀ f out, kept.length ≤ f →
      copyContent input (pre.length + lead.length + kept.length) f (pre.length + lead.length) out
        = { cells := out.cells ++ kept, writePos := out.writePos + kept.length } := by
    intro f out hf
    have e : input = (pre ++ lead) ++ kept ++ (trail ++ rest) := by
      rw [hin, hsuf, hline]; simp
    have := copyContent_eq f (pre ++ lead) kept (trail ++ rest) out hf
    rw [← e] at this
    simpa using this
  have h5 : ∀ out, copyTerminators input input.length (input.length - (pre.length + line.length))
      (pre.length + line.length) out
        = (pre.length + line.length + B.length,
            { cells := out.cells ++ B, writePos := out.writePos + B.length }) := by
    intro out
    have e : input = (pre ++ line) ++ rest := by rw [hin, hsuf]; simp
    have := copyTerminators_eq (input.length - (pre.length + line.length)) (pre ++ line) rest out
      (by omega)
    rw [← e] at this
    have e2 : rest.takeWhile isBreak = B := by rw [hB, hr]; rfl
    rw [e2] at this
    simpa using this
  have hsne : 0 < line.length + rest.length := by
    have : suf.length ≠ 0 := fun h => hne (List.length_eq_zero.mp h)
    rw [hsuf] at this
    simp only [List.length_append] at this
    omega
  have hrem : removedOf iswspace suf = lead.length + trail.length := by
    unfold removedOf
    rw [← hl, ← hk]
    omega
  rw [← hin, ← hl, ← hk, ← hB, hrem]
  unfold trimLine
  simp only [hs]
  rw [h1, h2 _ (by omega), h3 _ (by omega), h4 _ _ (by omega), h5]
  have hrm : pre.length + lead.length - pre.length
      + (pre.length + line.length - (pre.length + lead.length + kept.length))
        = lead.length + trail.length := by omega
  rw [hrm]
  have hlc : (if pre.length + line.length > pre.length then s.lineCount + 1
      else if (pre.length + line.length == pre.length && decide (pre.length + line.length < input.length)) = true
        then s.lineCount + 1 else s.lineCount) = s.lineCount + 1 := by
    by_cases h : line.length = 0
    · have : pre.length < input.length := by omega
      simp [h, this]
    · have : pre.length + line.length > pre.length := by omega
      simp [this]
  rw [hlc]
  by_cases hz : lead.length + trail.length > 0
  · simp only [hz, if_true, List.append_assoc]
  · have : lead.length + trail.length = 0 := by omega
    simp only [this, List.append_assoc]
    simp

theorem trimLine_eq_lineStep (iswspace : WChar → Bool) (pre suf : List WChar) (s : TrimState)
    (hs : s.readPos = pre.length) (hne : suf ≠ []) :
    trimLine iswspace (pre ++ suf) (pre ++ suf).length s = lineStep iswspace suf s := by
  rw [trimLine_eq iswspace pre suf s hs hne, lineStep, hs]

theorem line_breaks_ne_nil (suf : List WChar) (hne : suf ≠ []) :
    0 < (lineOf suf).length + (breaksOf suf).length := by
  cases suf with
  | nil => exact absurd rfl hne
  | cons c t =>
    cases hc : isBreak c with
    | true => simp [lineOf, breaksOf, afterLine, hc]
    | false => simp [lineOf, hc]

theorem nextSuf_length (suf : List WChar) :
    (nextSuf suf).length + ((lineOf suf).length + (breaksOf suf).length) = suf.length := by
  have h := congrArg List.length (suf_split suf)
  simp only [List.length_append] at h
  omega

/-- Invariant rule for the outer loop: a property of (consumed input, unread input, state)
that every iteration preserves holds when the loop is left, and the loop is left with the
whole input consumed (the fuel does not run out before). -/
theorem trimLoop_rule (iswspace : WChar → Bool) (input : List WChar)
    (Inv : List WChar → List WChar → TrimState → Prop)
    (hstep : ∀ pre suf s, input = pre ++ suf → suf ≠ [] → s.readPos = pre.length →
      Inv pre suf s →
      Inv (pre ++ lineOf suf ++ breaksOf suf) (nextSuf suf) (lineStep iswspace suf s))
    (fuel : Nat) (pre suf : List WChar) (s : TrimState)
    (hin : input = pre ++ suf) (hs : s.readPos = pre.length) (hf : suf.length ≤ fuel)
    (h0 : Inv pre suf s) :
    (trimLoop iswspace input input.length fuel s).readPos = input.length ∧
      Inv input [] (trimLoop iswspace input input.length fuel s) := by
  induction fuel generalizing pre suf s with
  | zero =>
    have : suf = [] := List.length_eq_zero.mp (Nat.le_zero.mp hf)
    subst this
    simp only [List.append_nil] at hin
    subst hin
    exact ⟨hs, h0⟩
  | succ n ih =>
    by_cases hne : suf = []
    · subst hne
      simp only [List.append_nil] at hin
      subst hin
      rw [trimLoop, if_neg (by omega)]
      exact ⟨hs, h0⟩
    · have hlt : s.readPos < input.length := by
        have : 0 < suf.length := List.length_pos.mpr hne
        rw [hin, hs]; simp; omega
      rw [trimLoop, if_pos hlt]
      have hst : trimLine iswspace input input.length s = lineStep iswspace suf s := by
        rw [hin]; exact trimLine_eq_lineStep iswspace pre suf s hs hne
      rw [hst]
      refine ih (pre ++ lineOf suf ++ breaksOf suf) (nextSuf suf) _ ?_ ?_ ?_
        (hstep pre suf s hin hne hs h0)
      · rw [hin, List.append_assoc, List.append_assoc, suf_split]
      · simp [lineStep, hs]; omega
      · have h1 := line_breaks_ne_nil suf hne
        have h2 := nextSuf_length suf
        omega

/-- Invariant rule for `trim_lines_preserving_breaks` on a non-null input with a successful
allocation. -/
theorem trim_rule (iswspace : WChar → Bool) (input : List WChar)
    (Inv : List WChar → List WChar → TrimState → Prop)
    (h0 : Inv [] input TrimState.init)
    (hstep : ∀ pre suf s, input = pre ++ suf → suf ≠ [] → s.readPos = pre.length →
      Inv pre suf s →
      Inv (pre ++ lineOf suf ++ breaksOf suf) (nextSuf suf) (lineStep iswspace suf s)) :
    ∃ s, Inv input [] s ∧ s.readPos = input.length ∧
      trim_lines_preserving_breaks iswspace true (some input) =
        { text := some s.out.cells, length := s.out.writePos,
          whitespaceRemoved := s.whitespaceRemoved, linesTouched := s.linesTouched,
          lineCount := if input.length == 0 then 0 else s.lineCount } := by
  have h := trimLoop_rule iswspace input Inv hstep input.length [] input TrimState.init
    (by simp) rfl (Nat.le_refl _) h0
  exact ⟨_, h.2, h.1, rfl⟩

/-! ## Facts about the pieces of a line -/

theorem lineOf_not_break (suf : List WChar) (c : WChar) (h : c ∈ lineOf suf) :
    isBreak c = false := by
  have := List.mem_takeWhile_imp h
  simpa using this

theorem breaksOf_break (suf : List WChar) (c : WChar) (h : c ∈ breaksOf suf) :
    isBreak c = true :=
  List.mem_takeWhile_imp h

theorem leadWs_ws (iswspace : WChar → Bool) (line : List WChar) (c : WChar)
    (h : c ∈ leadWs iswspace line) : isTrimWs iswspace c = true :=
  List.mem_takeWhile_imp h

theorem trailWs_ws (iswspace : WChar → Bool) (line : List WChar) (c : WChar)
    (h : c ∈ trailWs iswspace line) : isTrimWs iswspace c = true :=
  List.mem_rtakeWhile_imp h

theorem keptOf_sublist (iswspace : WChar → Bool) (line : List WChar) :
    (keptOf iswspace line).Sublist line :=
  (( List.rdropWhile_prefix _ _).sublist).trans (List.dropWhile_sublist _)

theorem keptOf_length_le (iswspace : WChar → Bool) (line : List WChar) :
    (keptOf iswspace line).length ≤ line.length :=
  (keptOf_sublist iswspace line).length_le

theorem keepChar_eq_not_isTrimWs (iswspace : WChar → Bool) (c : WChar) :
    keepChar iswspace c = !isTrimWs iswspace c := by
  simp only [keepChar, isTrimWs, bne, Bool.not_and, Bool.not_not, Bool.or_assoc]

theorem filter_keep_ws (iswspace : WChar → Bool) (l : List WChar)
    (h : ∀ c ∈ l, isTrimWs iswspace c = true) : l.filter (keepChar iswspace) = [] := by
  rw [List.filter_eq_nil_iff]
  intro c hc
  simp [keepChar_eq_not_isTrimWs, h c hc]

theorem filter_keep_keptOf (iswspace : WChar → Bool) (line : List WChar) :
    (keptOf iswspace line).filter (keepChar iswspace) = line.filter (keepChar iswspace) := by
  conv_rhs => rw [← line_split iswspace line]
  rw [List.filter_append, List.filter_append, filter_keep_ws iswspace _ (leadWs_ws iswspace line),
    filter_keep_ws iswspace _ (trailWs_ws iswspace line)]
  simp

/-! ## Invariants of the outer loop -/

theorem trim_accounting_inv (iswspace : WChar → Bool) (input : List WChar) :
    ∃ s : TrimState, (s.out.writePos = s.out.cells.length ∧
        s.out.writePos + s.whitespaceRemoved = input.length) ∧
      s.readPos = input.length ∧
      trim_lines_preserving_breaks iswspace true (some input) =
        { text := some s.out.cells, length := s.out.writePos,
          whitespaceRemoved := s.whitespaceRemoved, linesTouched := s.linesTouched,
          lineCount := if input.length == 0 then 0 else s.lineCount } := by
  refine trim_rule iswspace input
    (fun pre _ s => s.out.writePos = s.out.cells.length ∧
      s.out.writePos + s.whitespaceRemoved = pre.length) ⟨rfl, rfl⟩ ?_
  intro pre suf s _ _ _ h
  obtain ⟨h1, h2⟩ := h
  have hk := keptOf_length_le iswspace (lineOf suf)
  simp only [lineStep, removedOf, List.length_append]
  omega

theorem trim_keep_inv (iswspace : WChar → Bool) (input : List WChar) :
    ∃ s : TrimState, (s.out.cells.Sublist input ∧
        s.out.cells.filter (keepChar iswspace) = input.filter (keepChar iswspace)) ∧
      s.readPos = input.length ∧
      trim_lines_preserving_breaks iswspace true (some input) =
        { text := some s.out.cells, length := s.out.writePos,
          whitespaceRemoved := s.whitespaceRemoved, linesTouched := s.linesTouched,
          lineCount := if input.length == 0 then 0 else s.lineCount } := by
  refine trim_rule iswspace input
    (fun pre _ s => s.out.cells.Sublist pre ∧
      s.out.cells.filter (keepChar iswspace) = pre.filter (keepChar iswspace))
    ⟨List.Sublist.refl _, rfl⟩ ?_
  intro pre suf s _ _ _ h
  obtain ⟨h1, h2⟩ := h
  constructor
  · exact (h1.append (keptOf_sublist iswspace (lineOf suf))).append (List.Sublist.refl _)
  · simp only [lineStep, List.filter_append, h2, filter_keep_keptOf]

theorem filter_isBreak_of_keep (iswspace : WChar → Bool) (l : List WChar) :
    (l.filter (keepChar iswspace)).filter isBreak = l.filter isBreak := by
  rw [List.filter_filter]
  congr 1
  funext c
  cases h : isBreak c with
  | false => simp
  | true =>
    have : keepChar iswspace c = true := by
      rcases (isBreak_iff c).mp h with h | h <;> simp [keepChar, h]
    simp [this]

theorem dropWhile_head_not (p : WChar → Bool) (l : List WChar) (c : WChar) (t : List WChar)
    (h : l.dropWhile p = c :: t) : p c = false := by
  induction l with
  | nil => simp at h
  | cons x l ih =>
    cases hx : p x with
    | true =>
      rw [List.dropWhile_cons_of_pos hx] at h
      exact ih h
    | false =>
      rw [List.dropWhile_cons_of_neg (by simp [hx])] at h
      injection h with h1 _
      rw [← h1]; exact hx

theorem rdropWhile_last_not_ws (p : WChar → Bool) (l a : List WChar) (c : WChar)
    (h : l.rdropWhile p = a ++ [c]) : p c = false := by
  unfold List.rdropWhile at h
  have h2 := congrArg List.reverse h
  rw [List.reverse_reverse] at h2
  simp only [List.reverse_append, List.reverse_singleton, List.singleton_append] at h2
  exact dropWhile_head_not p _ c _ h2

theorem noEdgeWs_nil (iswspace : WChar → Bool) : NoEdgeWs iswspace [] := by
  intro a c b h
  simp at h

theorem noEdgeWs_append (iswspace : WChar → Bool) (x y : List WChar)
    (hx : NoEdgeWs iswspace x) (hy : NoEdgeWs iswspace y) : NoEdgeWs iswspace (x ++ y) := by
  intro a c b h hc
  rcases List.append_eq_append_iff.mp h with ⟨a2, ha, hb⟩ | ⟨c2, ha, hb⟩
  · -- `a = x ++ a2`, `y = a2 ++ c :: b`
    obtain ⟨⟨a1, p, hp, hpb⟩, hn⟩ := hy a2 c b hb hc
    refine ⟨⟨x ++ a1, p, ?_, hpb⟩, hn⟩
    rw [ha, hp, List.append_assoc]
  · -- `x = a ++ c2`, `c :: b = c2 ++ y`
    cases c2 with
    | nil =>
      simp only [List.nil_append, List.append_nil] at ha hb
      obtain ⟨⟨a1, p, hp, hpb⟩, hn⟩ := hy [] c b hb.symm hc
      simp at hp
    | cons d c3 =>
      simp only [List.cons_append, List.cons.injEq] at hb
      obtain ⟨rfl, hb⟩ := hb
      obtain ⟨hp, ⟨n, b1, hn, hnb⟩⟩ := hx a c c3 ha hc
      refine ⟨hp, ⟨n, b1 ++ y, ?_, hnb⟩⟩
      rw [hb, hn, List.cons_append]

theorem noEdgeWs_of_breaks (iswspace : WChar → Bool) (l : List WChar)
    (h : ∀ c ∈ l, isBreak c = true) : NoEdgeWs iswspace l := by
  intro a c b hl hc
  have hm : c ∈ l := by rw [hl]; simp
  have hb := (isBreak_iff c).mp (h c hm)
  simp only [isTrimWs, Bool.and_eq_true, bne_iff_ne, ne_eq] at hc
  rcases hb with hb | hb
  · exact absurd hb hc.1.2
  · exact absurd hb hc.2

theorem noEdgeWs_keptOf (iswspace : WChar → Bool) (line : List WChar)
    (hline : ∀ c ∈ line, isBreak c = false) : NoEdgeWs iswspace (keptOf iswspace line) := by
  intro a c b hk hc
  have hsub := keptOf_sublist iswspace line
  have hmem : ∀ x ∈ a ++ c :: b, isBreak x = false := by
    intro x hx
    rw [← hk] at hx
    exact hline x (hsub.subset hx)
  constructor
  · rcases List.eq_nil_or_concat a with rfl | ⟨a1, p, rfl⟩
    · exfalso
      obtain ⟨t, ht⟩ : ∃ t, keptOf iswspace line ++ t = line.dropWhile (isTrimWs iswspace) :=
        List.rdropWhile_prefix _ _
      rw [hk] at ht
      have := dropWhile_head_not _ _ c _ ht.symm
      rw [hc] at this
      exact Bool.noConfusion this
    · rw [List.concat_eq_append]
      exact ⟨a1, p, rfl, hmem p (by simp)⟩
  · cases b with
    | nil =>
      exfalso
      have := rdropWhile_last_not_ws (isTrimWs iswspace) _ a c hk
      rw [hc] at this
      exact Bool.noConfusion this
    | cons n b1 => exact ⟨n, b1, rfl, hmem n (by simp)⟩

theorem trim_noEdge_inv (iswspace : WChar → Bool) (input : List WChar) :
    ∃ s : TrimState, (NoEdgeWs iswspace s.out.cells ∧ s.out.writePos = s.out.cells.length) ∧
      s.readPos = input.length ∧
      trim_lines_preserving_breaks iswspace true (some input) =
        { text := some s.out.cells, length := s.out.writePos,
          whitespaceRemoved := s.whitespaceRemoved, linesTouched := s.linesTouched,
          lineCount := if input.length == 0 then 0 else s.lineCount } := by
  refine trim_rule iswspace input
    (fun _ _ s => NoEdgeWs iswspace s.out.cells ∧ s.out.writePos = s.out.cells.length)
    ⟨noEdgeWs_nil iswspace, rfl⟩ ?_
  intro pre suf s _ _ _ h
  refine ⟨noEdgeWs_append iswspace _ _
    (noEdgeWs_append iswspace _ _ h.1 (noEdgeWs_keptOf iswspace _ (lineOf_not_break suf)))
    (noEdgeWs_of_breaks iswspace _ (breaksOf_break suf)), ?_⟩
  simp only [lineStep, List.length_append, h.2]

theorem afterLine_head_break (suf : List WChar) (n : WChar) (t : List WChar)
    (h : afterLine suf = n :: t) : isBreak n = true := by
  have := dropWhile_head_not _ _ n t h
  simpa using this

theorem nextSuf_head_not_break (suf : List WChar) (n : WChar) (t : List WChar)
    (h : nextSuf suf = n :: t) : isBreak n = false :=
  dropWhile_head_not _ _ n t h

theorem nextSuf_nil_of_breaksOf_nil (suf : List WChar) (h : breaksOf suf = []) :
    nextSuf suf = [] := by
  cases hn : nextSuf suf with
  | nil => rfl
  | cons n t =>
    have h1 := breaksOf_append_nextSuf suf
    rw [h, List.nil_append, hn] at h1
    have h2 := afterLine_head_break suf n t h1.symm
    have h3 := nextSuf_head_not_break suf n t hn
    rw [h2] at h3
    exact Bool.noConfusion h3

theorem keptOf_eq_self (iswspace : WChar → Bool) (line : List WChar)
    (hhead : ∀ c t, line = c :: t → isTrimWs iswspace c = false)
    (hlast : ∀ a c, line = a ++ [c] → isTrimWs iswspace c = false) :
    keptOf iswspace line = line := by
  have h1 : line.dropWhile (isTrimWs iswspace) = line := by
    cases line with
    | nil => rfl
    | cons c t => rw [List.dropWhile_cons_of_neg (by simp [hhead c t rfl])]
  unfold keptOf
  rw [h1]
  rcases List.eq_nil_or_concat line with h | ⟨a, c, h⟩
  · rw [h]; rfl
  · rw [List.concat_eq_append] at h
    rw [h, List.rdropWhile_concat_neg _ _ _ (by simp [hlast a c h])]

theorem atLineStart_step (pre suf : List WChar) :
    AtLineStart (pre ++ lineOf suf ++ breaksOf suf) (nextSuf suf) := by
  rcases List.eq_nil_or_concat (breaksOf suf) with h | ⟨B1, b, h⟩
  · exact Or.inl (nextSuf_nil_of_breaksOf_nil suf h)
  · rw [List.concat_eq_append] at h
    refine Or.inr (Or.inr ⟨pre ++ lineOf suf ++ B1, b, ?_, ?_⟩)
    · rw [h]; simp
    · exact breaksOf_break suf b (by rw [h]; simp)

theorem keptOf_lineOf_eq_self (iswspace : WChar → Bool) (pre suf : List WChar)
    (hclean : NoEdgeWs iswspace (pre ++ suf)) (hne : suf ≠ []) (hstart : AtLineStart pre suf) :
    keptOf iswspace (lineOf suf) = lineOf suf := by
  apply keptOf_eq_self
  · intro c t hl
    cases hc : isTrimWs iswspace c with
    | false => rfl
    | true =>
      exfalso
      have hs : pre ++ suf = pre ++ c :: (t ++ afterLine suf) := by
        conv_lhs => rw [← lineOf_append_afterLine suf, hl]
        simp
      obtain ⟨⟨a1, p, hp, hpb⟩, _⟩ := hclean pre c _ hs hc
      rcases hstart with h | h | ⟨p1, b, h, hb⟩
      · exact hne h
      · rw [h] at hp; simp at hp
      · rw [h] at hp
        have := List.append_inj_right' hp rfl
        simp only [List.cons.injEq, and_true] at this
        rw [this, hpb] at hb
        exact Bool.noConfusion hb
  · intro a c hl
    cases hc : isTrimWs iswspace c with
    | false => rfl
    | true =>
      exfalso
      have hs : pre ++ suf = (pre ++ a) ++ c :: afterLine suf := by
        conv_lhs => rw [← lineOf_append_afterLine suf, hl]
        simp
      obtain ⟨_, ⟨n, b1, hn, hnb⟩⟩ := hclean (pre ++ a) c _ hs hc
      have := afterLine_head_break suf n b1 hn
      rw [this] at hnb
      exact Bool.noConfusion hnb

theorem trim_fixed_point (iswspace : WChar → Bool) (input : List WChar)
    (hclean : NoEdgeWs iswspace input) :
    ∃ lc, trim_lines_preserving_breaks iswspace true (some input) =
      { text := some input, length := input.length, whitespaceRemoved := 0,
        linesTouched := 0, lineCount := lc } := by
  obtain ⟨s, hinv, _, hres⟩ := trim_rule iswspace input
    (fun pre suf s => s.out.cells = pre ∧ s.out.writePos = pre.length ∧
      s.whitespaceRemoved = 0 ∧ s.linesTouched = 0 ∧ AtLineStart pre suf)
    ⟨rfl, rfl, rfl, rfl, Or.inr (Or.inl rfl)⟩
    (by
      intro pre suf s hin hne _ h
      obtain ⟨h1, h2, h3, h4, h5⟩ := h
      have hk := keptOf_lineOf_eq_self iswspace pre suf (hin ▸ hclean) hne h5
      have hr : removedOf iswspace suf = 0 := by simp [removedOf, hk]
      refine ⟨?_, ?_, ?_, ?_, atLineStart_step pre suf⟩
      · simp [lineStep, hk, h1]
      · simp [lineStep, hk, h2]; omega
      · simp [lineStep, hr, h3]
      · simp [lineStep, hr, h4])
  obtain ⟨h1, h2, h3, h4, _⟩ := hinv
  refine ⟨if input.length == 0 then 0 else s.lineCount, ?_⟩
  rw [hres, h1, h2, h3, h4]

/-! ## Terminators by kind -/

theorem terminators_cons_not_break (c : WChar) (l : List WChar) (hc : isBreak c = false) :
    terminators (c :: l) = terminators l := by
  obtain ⟨h1, h2⟩ := (isBreak_false_iff c).mp hc
  cases l with
  | nil => simp [terminators, h1, h2]
  | cons d rest => simp [terminators, h1, h2]

theorem terminators_append_not_break (n y : List WChar) (hn : ∀ c ∈ n, isBreak c = false) :
    terminators (n ++ y) = terminators y := by
  induction n with
  | nil => rfl
  | cons c n ih =>
    rw [List.cons_append, terminators_cons_not_break c _ (hn c (by simp))]
    exact ih (fun x hx => hn x (by simp [hx]))

theorem terminators_cons_LF (l : List WChar) :
    terminators (LF :: l) = Terminator.lf :: terminators l := by
  have h : LF ≠ CR := by decide
  cases l with
  | nil => simp [terminators, h]
  | cons d rest => simp [terminators, h]

theorem terminators_cons_CR (l : List WChar) (h : ∀ t, l ≠ LF :: t) :
    terminators (CR :: l) = Terminator.cr :: terminators l := by
  cases l with
  | nil => simp [terminators]
  | cons d rest =>
    have hd : d ≠ LF := fun e => h rest (by rw [e])
    simp [terminators, hd]

theorem terminators_cons_CRLF (l : List WChar) :
    terminators (CR :: LF :: l) = Terminator.crlf :: terminators l := by
  simp [terminators]

theorem terminators_append (x y : List WChar)
    (h : ∀ x1 y1, x = x1 ++ [CR] → y = LF :: y1 → False) :
    terminators (x ++ y) = terminators x ++ terminators y := by
  generalize hlen : x.length = k
  induction k using Nat.strong_induction_on generalizing x with
  | _ k ih =>
    cases x with
    | nil => rfl
    | cons c x1 =>
      have hx1 : ∀ a y1, x1 = a ++ [CR] → y = LF :: y1 → False := by
        intro a y1 ha hy
        exact h (c :: a) y1 (by rw [ha]; rfl) hy
      have ih1 := ih x1.length (by rw [← hlen]; simp) x1 hx1 rfl
      by_cases hcr : c = CR
      · subst hcr
        cases x1 with
        | nil =>
          have hy : ∀ t, y ≠ LF :: t := fun t e => h [] t rfl e
          simp only [List.cons_append, List.nil_append]
          rw [terminators_cons_CR y hy]
          simp [terminators]
        | cons d x2 =>
          by_cases hd : d = LF
          · subst hd
            have hx2 : ∀ a y1, x2 = a ++ [CR] → y = LF :: y1 → False := by
              intro a y1 ha hy
              exact h (CR :: LF :: a) y1 (by rw [ha]; rfl) hy
            have ih2 := ih x2.length (by rw [← hlen]; simp; omega) x2 hx2 rfl
            rw [List.cons_append, List.cons_append, terminators_cons_CRLF,
              terminators_cons_CRLF, ih2]
            rfl
          · have e1 : ∀ t, d :: x2 ++ y ≠ LF :: t := by
              intro t e
              simp only [List.cons_append, List.cons.injEq] at e
              exact hd e.1
            have e2 : ∀ t, d :: x2 ≠ LF :: t := by
              intro t e
              simp only [List.cons.injEq] at e
              exact hd e.1
            rw [List.cons_append, terminators_cons_CR _ e1, terminators_cons_CR _ e2, ih1]
            rfl
      · by_cases hlf : c = LF
        · subst hlf
          rw [List.cons_append, terminators_cons_LF, terminators_cons_LF, ih1]
          rfl
        · have hb : isBreak c = false := (isBreak_false_iff c).mpr ⟨hcr, hlf⟩
          rw [List.cons_append, terminators_cons_not_break c _ hb,
            terminators_cons_not_break c _ hb, ih1]

theorem wsThenLF_of_ws (iswspace : WChar → Bool) (w b : List WChar) (hne : w ≠ [])
    (hw : ∀ c ∈ w, isTrimWs iswspace c = true) : wsThenLF iswspace (w ++ LF :: b) = true := by
  induction w with
  | nil => exact absurd rfl hne
  | cons c w ih =>
    have hc := hw c (by simp)
    cases w with
    | nil => simp [wsThenLF, hc]
    | cons d w2 =>
      have := ih (by simp) (fun x hx => hw x (by simp [hx]))
      simp only [List.cons_append] at this ⊢
      simp [wsThenLF, hc, this]

theorem crWsLf_of_wsThenLF (iswspace : WChar → Bool) (a r : List WChar)
    (h : wsThenLF iswspace r = true) : crWsLf iswspace (a ++ CR :: r) = true := by
  induction a with
  | nil => simp [crWsLf, h]
  | cons c a ih => simp [crWsLf, ih]

theorem keptOf_eq_nil (iswspace : WChar → Bool) (line : List WChar)
    (h : keptOf iswspace line = []) : ∀ c ∈ line, isTrimWs iswspace c = true := by
  unfold keptOf at h
  rw [List.rdropWhile_eq_nil_iff] at h
  have hd : line.dropWhile (isTrimWs iswspace) = [] := by
    cases hdl : line.dropWhile (isTrimWs iswspace) with
    | nil => rfl
    | cons c t =>
      have h1 := dropWhile_head_not _ _ c t hdl
      have h2 := h c (by rw [hdl]; simp)
      rw [h1] at h2
      exact Bool.noConfusion h2
  intro c hc
  exact List.dropWhile_eq_nil_iff.mp hd c hc

theorem keptOf_not_break (iswspace : WChar → Bool) (suf : List WChar) (c : WChar)
    (h : c ∈ keptOf iswspace (lineOf suf)) : isBreak c = false :=
  lineOf_not_break suf c ((keptOf_sublist iswspace (lineOf suf)).subset h)

theorem lineOf_cons_of_not_break (c : WChar) (t : List WChar) (hc : isBreak c = false) :
    lineOf (c :: t) = c :: lineOf t := by
  simp [lineOf, hc]

theorem termInv_step (iswspace : WChar → Bool) (input : List WChar)
    (hH : crWsLf iswspace input = false) (pre suf : List WChar) (s : TrimState)
    (hin : input = pre ++ suf) (hne : suf ≠ []) (h : TermInv pre suf s) :
    TermInv (pre ++ lineOf suf ++ breaksOf suf) (nextSuf suf) (lineStep iswspace suf s) := by
  obtain ⟨h1, h2, h3, h4⟩ := h
  have hnb := line_breaks_ne_nil suf hne
  -- when something was consumed before, the line is not empty
  have hline : pre ≠ [] → ∀ y1, lineOf suf ++ breaksOf suf ≠ LF :: y1 := by
    intro hp y1 e
    cases suf with
    | nil => exact hne rfl
    | cons c t =>
      have hc := h3 c t rfl hp
      rw [lineOf_cons_of_not_break c t hc] at e
      simp only [List.cons_append, List.cons.injEq] at e
      rw [e.1] at hc
      exact absurd hc (by decide)
  refine ⟨?_, ?_, ?_, ?_⟩
  · have hR : terminators (pre ++ lineOf suf ++ breaksOf suf)
        = terminators pre ++ terminators (breaksOf suf) := by
      rw [List.append_assoc, terminators_append pre _ ?_,
        terminators_append_not_break _ _ (lineOf_not_break suf)]
      intro x1 y1 hx hy
      exact hline (by rw [hx]; simp) y1 hy
    have hL : terminators (s.out.cells ++ keptOf iswspace (lineOf suf) ++ breaksOf suf)
        = terminators s.out.cells ++ terminators (breaksOf suf) := by
      rw [List.append_assoc, terminators_append s.out.cells _ ?_,
        terminators_append_not_break _ _ (keptOf_not_break iswspace suf)]
      intro c1 y1 hc hy
      have hp : pre ≠ [] := by
        intro hp
        have := h2 hp
        rw [this] at hc
        simp at hc
      obtain ⟨p1, hp1⟩ := h4 hne c1 hc
      -- the kept part is empty, so the line is whitespace only
      have hk : keptOf iswspace (lineOf suf) = [] := by
        cases hk : keptOf iswspace (lineOf suf) with
        | nil => rfl
        | cons k kt =>
          rw [hk] at hy
          simp only [List.cons_append, List.cons.injEq] at hy
          have := keptOf_not_break iswspace suf k (by rw [hk]; simp)
          rw [hy.1] at this
          exact absurd this (by decide)
      rw [hk, List.nil_append] at hy
      have hws := keptOf_eq_nil iswspace _ hk
      have hlne : lineOf suf ≠ [] := by
        intro e
        exact hline hp y1 (by rw [e, List.nil_append, hy])
      have hsplit : input = p1 ++ CR :: (lineOf suf ++ LF :: (y1 ++ nextSuf suf)) := by
        rw [hin, hp1]
        conv_lhs => rw [← suf_split suf, hy]
        simp
      have := crWsLf_of_wsThenLF iswspace p1 _
        (wsThenLF_of_ws iswspace (lineOf suf) (y1 ++ nextSuf suf) hlne hws)
      rw [← hsplit, hH] at this
      exact Bool.noConfusion this
    simp only [lineStep]
    rw [hL, hR, h1]
  · intro e
    have := congrArg List.length e
    simp only [List.length_append, List.length_nil] at this
    omega
  · intro c t hc _
    exact nextSuf_head_not_break suf c t hc
  · intro hn c1 hc
    have hB : breaksOf suf ≠ [] := fun e => hn (nextSuf_nil_of_breaksOf_nil suf e)
    rcases List.eq_nil_or_concat (breaksOf suf) with e | ⟨B1, b, e⟩
    · exact absurd e hB
    · rw [List.concat_eq_append] at e
      simp only [lineStep] at hc
      rw [e, ← List.append_assoc] at hc
      have hb := List.append_inj_right' hc rfl
      simp only [List.cons.injEq, and_true] at hb
      refine ⟨pre ++ lineOf suf ++ B1, ?_⟩
      rw [e, hb]
      simp

theorem trim_terminators_inv (iswspace : WChar → Bool) (input : List WChar)
    (hH : crWsLf iswspace input = false) :
    ∃ s : TrimState, terminators s.out.cells = terminators input ∧
      trim_lines_preserving_breaks iswspace true (some input) =
        { text := some s.out.cells, length := s.out.writePos,
          whitespaceRemoved := s.whitespaceRemoved, linesTouched := s.linesTouched,
          lineCount := if input.length == 0 then 0 else s.lineCount } := by
  obtain ⟨s, hinv, _, hres⟩ := trim_rule iswspace input TermInv
    ⟨rfl, fun _ => rfl, fun _ _ _ h => absurd rfl h, fun _ c1 h => by simp [TrimState.init] at h⟩
    (fun pre suf s hin hne _ h => termInv_step iswspace input hH pre suf s hin hne h)
  exact ⟨s, hinv.1, hres⟩

/-! ## Host calls of the access layer and of the watcher cycle -/

theorem calls_refl (Q : HostCall → Prop) (w : World) : Calls Q w w :=
  ⟨rfl, rfl, rfl, fun _ => ⟨rfl, rfl⟩, [], by simp, by simp⟩

theorem calls_trans (Q : HostCall → Prop) (w1 w2 w3 : World)
    (h12 : Calls Q w1 w2) (h23 : Calls Q w2 w3) : Calls Q w1 w3 := by
  obtain ⟨a1, a2, a3, ac, t1, a4, a5⟩ := h12
  obtain ⟨b1, b2, b3, bc, t2, b4, b5⟩ := h23
  refine ⟨b1.trans a1, b2.trans a2, b3.trans a3, ?_, t1 ++ t2, ?_, ?_⟩
  · intro hq
    exact ⟨(bc hq).1.trans (ac hq).1, (bc hq).2.trans (ac hq).2⟩
  · rw [b4, a4, List.append_assoc]
  · intro e he
    rcases List.mem_append.mp he with h | h
    · exact a5 e h
    · have := b5 e h
      rw [a1, a2] at this
      exact this

theorem calls_record (Q : HostCall → Prop) (w : World) (c : HostCall) (hc : Q c) :
    Calls Q w (w.record c) := by
  refine ⟨rfl, rfl, rfl, fun _ => ⟨rfl, rfl⟩,
    [⟨w.g_isUpdatingClipboard, w.inSetClipboardText, c⟩], rfl, ?_⟩
  intro e he
  simp only [List.mem_singleton] at he
  subst he
  exact ⟨rfl, rfl, hc⟩

theorem calls_nextOutcome (Q : HostCall → Prop) (w : World) : Calls Q w w.nextOutcome.2 :=
  ⟨rfl, rfl, rfl, fun _ => ⟨rfl, rfl⟩, [], by simp [World.nextOutcome], by simp⟩

theorem calls_log_info (Q : HostCall → Prop) (w : World) (e : LogEntry) :
    Calls Q w (log_info e w) :=
  ⟨rfl, rfl, rfl, fun _ => ⟨rfl, rfl⟩, [], by simp [log_info], by simp⟩

theorem calls_fallible (Q : HostCall → Prop) (w : World) (c : Bool → HostCall)
    (hc : ∀ b, Q (c b)) : Calls Q w (w.nextOutcome.2.record (c w.nextOutcome.1)) :=
  calls_trans Q _ _ _ (calls_nextOutcome Q w) (calls_record Q _ _ (hc _))

theorem calls_OpenClipboard (Q : HostCall → Prop) (w : World)
    (hc : ∀ b, Q (HostCall.OpenClipboard b)) : Calls Q w (OpenClipboard w).2 := by
  have h := calls_fallible Q w HostCall.OpenClipboard hc
  exact ⟨h.1, h.2.1, h.2.2.1, h.2.2.2.1, h.2.2.2.2⟩

theorem calls_try_open_clipboard_loop (Q : HostCall → Prop)
    (hO : ∀ b, Q (HostCall.OpenClipboard b)) (hS : ∀ n, Q (HostCall.Sleep n))
    (left : Nat) (w : World) : Calls Q w (try_open_clipboard_loop left w).2 := by
  induction left generalizing w with
  | zero => exact calls_refl Q w
  | succ n ih =>
    rw [try_open_clipboard_loop]
    split
    · exact calls_OpenClipboard Q w hO
    · exact calls_trans Q _ _ _ (calls_OpenClipboard Q w hO)
        (calls_trans Q _ _ _ (calls_record Q _ _ (hS 10)) (ih _))

theorem calls_try_open_clipboard (Q : HostCall → Prop)
    (hO : ∀ b, Q (HostCall.OpenClipboard b)) (hS : ∀ n, Q (HostCall.Sleep n)) (w : World) :
    Calls Q w (try_open_clipboard w).2 :=
  calls_try_open_clipboard_loop Q hO hS kRetries w

theorem calls_CloseClipboard (Q : HostCall → Prop) (w : World)
    (hc : Q HostCall.CloseClipboard) : Calls Q w (CloseClipboard w) := by
  have h := calls_record Q w HostCall.CloseClipboard hc
  exact ⟨h.1, h.2.1, h.2.2.1, h.2.2.2.1, h.2.2.2.2⟩

theorem calls_GlobalLock (Q : HostCall → Prop) (w : World)
    (hc : ∀ b, Q (HostCall.GlobalLock b)) : Calls Q w (GlobalLock w).2 :=
  calls_fallible Q w HostCall.GlobalLock hc

theorem calls_GlobalAlloc (Q : HostCall → Prop) (w : World)
    (hc : ∀ b, Q (HostCall.GlobalAlloc b)) : Calls Q w (GlobalAlloc w).2 :=
  calls_fallible Q w HostCall.GlobalAlloc hc

theorem calls_malloc (Q : HostCall → Prop) (w : World)
    (hc : ∀ b, Q (HostCall.malloc b)) : Calls Q w (malloc w).2 :=
  calls_fallible Q w HostCall.malloc hc

theorem calls_EmptyClipboard (Q : HostCall → Prop) (w : World)
    (hc : ∀ b, Q (HostCall.EmptyClipboard b)) : Calls Q w (EmptyClipboard w).2 := by
  have h := calls_fallible Q w HostCall.EmptyClipboard hc
  unfold EmptyClipboard
  simp only
  split
  · refine ⟨h.1, h.2.1, h.2.2.1, ?_, h.2.2.2.2⟩
    intro hq
    have := hq _ (hc true)
    simp [HostCall.isWrite] at this
  · exact h

theorem calls_SetClipboardData (Q : HostCall → Prop) (payload : List WChar) (w : World)
    (hc : ∀ b, Q (HostCall.SetClipboardData b)) : Calls Q w (SetClipboardData payload w).2 := by
  have h := calls_fallible Q w HostCall.SetClipboardData hc
  unfold SetClipboardData
  simp only
  split
  · refine ⟨h.1, h.2.1, h.2.2.1, ?_, h.2.2.2.2⟩
    intro hq
    have := hq _ (hc true)
    simp [HostCall.isWrite] at this
  · exact h

theorem calls_fetch_clipboard_text (mb : List Nat → Option (List WChar)) (w : World) :
    Calls NotWrite w (fetch_clipboard_text mb w).2 := by
  have hO := calls_try_open_clipboard NotWrite (fun _ => rfl) (fun _ => rfl) w
  have T := calls_trans NotWrite
  have L := calls_log_info NotWrite
  have C := fun w => calls_CloseClipboard NotWrite w rfl
  have R := fun w c (h : NotWrite c) => calls_record NotWrite w c h
  have K := fun w => calls_GlobalLock NotWrite w (fun _ => rfl)
  have M := fun w => calls_malloc NotWrite w (fun _ => rfl)
  have U : ∀ w, Calls NotWrite w (GlobalUnlock w) :=
    fun w => calls_record NotWrite w HostCall.GlobalUnlock rfl
  unfold fetch_clipboard_text
  simp only
  split
  · exact T _ _ _ hO (L _ _)
  · have hU : Calls NotWrite w (GetClipboardDataUnicode (try_open_clipboard w).2).2 :=
      T _ _ _ hO (R _ _ rfl)
    split
    · have hL := T _ _ _ hU (K _)
      split
      · exact T _ _ _ hL (T _ _ _ (C _) (L _ _))
      · have hM := T _ _ _ hL (M _)
        split
        · exact T _ _ _ hM (T _ _ _ (U _) (T _ _ _ (C _) (L _ _)))
        · exact T _ _ _ hM (T _ _ _ (U _) (C _))
    · have hA : Calls NotWrite w
          (GetClipboardDataAnsi (GetClipboardDataUnicode (try_open_clipboard w).2).2).2 :=
        T _ _ _ hU (R _ _ rfl)
      split
      · exact T _ _ _ hA (C _)
      · have hL := T _ _ _ hA (K _)
        split
        · exact T _ _ _ hL (T _ _ _ (C _) (L _ _))
        · have hW := fun b => T _ _ _ hL (R _ (HostCall.MultiByteToWideChar b) rfl)
          split
          · exact T _ _ _ (hW _) (T _ _ _ (U _) (T _ _ _ (C _) (L _ _)))
          · split
            · exact T _ _ _ (hW _) (T _ _ _ (M _) (T _ _ _ (U _) (T _ _ _ (C _) (L _ _))))
            · exact T _ _ _ (hW _) (T _ _ _ (M _)
                (T _ _ _ (R _ (HostCall.MultiByteToWideChar true) rfl) (T _ _ _ (U _) (C _))))

theorem wcsncmp_self (a : List WChar) (n : Nat) : wcsncmp a a n = 0 := by
  induction n generalizing a with
  | zero => rfl
  | succ n ih =>
    rw [wcsncmp]
    simp only [lt_self_iff_false, if_false, gt_iff_lt]
    split
    · rfl
    · exact ih a.tail

theorem try_open_clipboard_content (w : World) :
    (try_open_clipboard w).2.unicodeText = w.unicodeText :=
  ((calls_try_open_clipboard NotWrite (fun _ => rfl) (fun _ => rfl) w).2.2.2.1
    (fun _ h => h)).1

theorem fetch_clipboard_text_unicode (mb : List Nat → Option (List WChar)) (w : World)
    (u : List WChar) (hu : w.unicodeText = some u)
    (hok : (fetch_clipboard_text mb w).1.ok = true) :
    (fetch_clipboard_text mb w).1.outBuffer = ⟨some u, u.length⟩ := by
  have hc := try_open_clipboard_content w
  rw [hu] at hc
  unfold fetch_clipboard_text at hok ⊢
  simp only [GetClipboardDataUnicode, hc] at hok ⊢
  split
  · rename_i h
    rw [if_pos h] at hok
    exact absurd hok (by simp)
  · split
    · rename_i h
      rw [if_neg (by assumption), if_pos h] at hok
      exact absurd hok (by simp)
    · split
      · rename_i h1 h2 h3
        rw [if_neg h1, if_neg h2, if_pos h3] at hok
        exact absurd hok (by simp)
      · rfl

/-- The host calls of `set_clipboard_text` are made with the flag as it is on entry and are
marked as made inside the call; none reads the clipboard; the call is counted. -/
theorem set_clipboard_text_calls (text : Option (List WChar)) (length : Nat) (w : World) :
    (set_clipboard_text text length w).2.g_isUpdatingClipboard = w.g_isUpdatingClipboard ∧
    (set_clipboard_text text length w).2.inSetClipboardText = w.inSetClipboardText ∧
    (set_clipboard_text text length w).2.setClipboardTextCalls = w.setClipboardTextCalls + 1 ∧
    ∃ t, (set_clipboard_text text length w).2.trace = w.trace ++ t ∧
      ∀ e ∈ t, e.flag = w.g_isUpdatingClipboard ∧ e.inSet = true ∧ NotRead e.call := by
  obtain ⟨w0, hw0⟩ : ∃ w0 : World, w0 = w.enterSet := ⟨_, rfl⟩
  have hbody : Calls NotRead w0 (set_clipboard_text_body text length w0).2 := by
    have hO := calls_try_open_clipboard NotRead (fun _ => rfl) (fun _ => rfl) w0
    have T := calls_trans NotRead
    have L := calls_log_info NotRead
    have C := fun w => calls_CloseClipboard NotRead w rfl
    have K := fun w => calls_GlobalLock NotRead w (fun _ => rfl)
    have A := fun w => calls_GlobalAlloc NotRead w (fun _ => rfl)
    have E := fun w => calls_EmptyClipboard NotRead w (fun _ => rfl)
    have S := fun p w => calls_SetClipboardData NotRead p w (fun _ => rfl)
    have U : ∀ w, Calls NotRead w (GlobalUnlock w) :=
      fun w => calls_record NotRead w HostCall.GlobalUnlock rfl
    have F : ∀ w, Calls NotRead w (GlobalFree w) :=
      fun w => calls_record NotRead w HostCall.GlobalFree rfl
    unfold set_clipboard_text_body
    split
    · exact calls_refl _ _
    · simp only
      split
      · exact T _ _ _ hO (L _ _)
      · have hE := T _ _ _ hO (E _)
        split
        · exact T _ _ _ hE (T _ _ _ (C _) (L _ _))
        · have hA := T _ _ _ hE (A _)
          split
          · exact T _ _ _ hA (T _ _ _ (C _) (L _ _))
          · have hK := T _ _ _ hA (K _)
            split
            · exact T _ _ _ hK (T _ _ _ (F _) (T _ _ _ (C _) (L _ _)))
            · have hS := fun p => T _ _ _ hK (T _ _ _ (U _) (S p _))
              split
              · exact T _ _ _ (hS _) (T _ _ _ (F _) (T _ _ _ (C _) (L _ _)))
              · exact T _ _ _ (hS _) (C _)
  obtain ⟨b1, _, b3, _, t, b4, b5⟩ := hbody
  have e : (set_clipboard_text text length w).2 =
      { (set_clipboard_text_body text length w0).2 with
          inSetClipboardText := w.inSetClipboardText } := by
    rw [hw0]; rfl
  rw [e]
  refine ⟨?_, rfl, ?_, t, ?_, ?_⟩
  · show (set_clipboard_text_body text length w0).2.g_isUpdatingClipboard = _
    rw [b1, hw0]; rfl
  · show (set_clipboard_text_body text length w0).2.setClipboardTextCalls = _
    rw [b3, hw0]; rfl
  · show (set_clipboard_text_body text length w0).2.trace = _
    rw [b4, hw0]; rfl
  · intro x hx
    have := b5 x hx
    rw [hw0] at this
    exact this

theorem seg_trans (P : TraceEntry → Prop) (w1 w2 w3 : World)
    (h12 : Seg P w1 w2) (h23 : Seg P w2 w3) : Seg P w1 w3 := by
  obtain ⟨t1, a1, a2⟩ := h12
  obtain ⟨t2, b1, b2⟩ := h23
  refine ⟨t1 ++ t2, by rw [b1, a1, List.append_assoc], ?_⟩
  intro e he
  rcases List.mem_append.mp he with h | h
  · exact a2 e h
  · exact b2 e h

theorem seg_of_trace_eq (P : TraceEntry → Prop) (w1 w2 : World) (h : w2.trace = w1.trace) :
    Seg P w1 w2 :=
  ⟨[], by simp [h], by simp⟩

theorem seg_of_calls (P : TraceEntry → Prop) (Q : HostCall → Prop) (w1 w2 : World)
    (h : Calls Q w1 w2)
    (hP : ∀ c, Q c → P ⟨w1.g_isUpdatingClipboard, w1.inSetClipboardText, c⟩) : Seg P w1 w2 := by
  obtain ⟨_, _, _, _, t, h1, h2⟩ := h
  refine ⟨t, h1, ?_⟩
  intro e he
  obtain ⟨e1, e2, e3⟩ := h2 e he
  have := hP e.call e3
  rw [← e1, ← e2] at this
  exact this

theorem calls_free (Q : HostCall → Prop) (hf : Q HostCall.free) (w : World) :
    Calls Q w (free w) :=
  calls_record Q w HostCall.free hf

theorem calls_free_clipboard_buffer (Q : HostCall → Prop) (hf : Q HostCall.free)
    (b : ClipboardBuffer) (w : World) : Calls Q w (free_clipboard_buffer b w) := by
  unfold free_clipboard_buffer
  split
  · exact calls_free Q hf w
  · exact calls_refl Q w

theorem write_back_guard (trimmed : TrimmedBuffer) (original : ClipboardBuffer) (w : World)
    (hin : w.inSetClipboardText = false) :
    (write_back trimmed original w).g_isUpdatingClipboard = false ∧
      (write_back trimmed original w).setClipboardTextCalls = w.setClipboardTextCalls + 1 ∧
      Seg GuardDiscipline w (write_back trimmed original w) := by
  obtain ⟨w1, hw1⟩ : ∃ w1 : World, w1 = { w with g_isUpdatingClipboard := true } := ⟨_, rfl⟩
  have hS := set_clipboard_text_calls trimmed.text trimmed.length w1
  obtain ⟨sc, hsc⟩ : ∃ sc, sc = set_clipboard_text trimmed.text trimmed.length w1 := ⟨_, rfl⟩
  rw [← hsc] at hS
  obtain ⟨_, s2, s3, t, s4, s5⟩ := hS
  have hw1in : w1.inSetClipboardText = false := by rw [hw1]; exact hin
  have hw1fl : w1.g_isUpdatingClipboard = true := by rw [hw1]
  have seg2 : Seg GuardDiscipline w sc.2 := by
    refine ⟨t, by rw [s4, hw1], ?_⟩
    intro e he
    obtain ⟨e1, e2, e3⟩ := s5 e he
    rw [hw1fl] at e1
    refine ⟨by rw [e1, e2], fun _ => e1, ?_⟩
    intro h
    rw [e3] at h
    exact Bool.noConfusion h
  obtain ⟨w2, hw2⟩ : ∃ w2 : World, w2 =
      (if sc.1 = true then
        log_info (LogEntry.trimmed trimmed.whitespaceRemoved trimmed.linesTouched) sc.2
      else log_info LogEntry.failedToSetBack sc.2) := ⟨_, rfl⟩
  obtain ⟨w3, hw3⟩ : ∃ w3 : World, w3 = { w2 with g_isUpdatingClipboard := false } := ⟨_, rfl⟩
  have hw2tr : w2.trace = sc.2.trace := by rw [hw2]; split <;> rfl
  have hw2in : w2.inSetClipboardText = sc.2.inSetClipboardText := by rw [hw2]; split <;> rfl
  have hw2ct : w2.setClipboardTextCalls = sc.2.setClipboardTextCalls := by
    rw [hw2]; split <;> rfl
  have hw3tr : w3.trace = sc.2.trace := by rw [hw3]; exact hw2tr
  have hw3in : w3.inSetClipboardText = false := by
    rw [hw3]; show w2.inSetClipboardText = false
    rw [hw2in, s2, hw1in]
  have hw3fl : w3.g_isUpdatingClipboard = false := by rw [hw3]
  have hw3ct : w3.setClipboardTextCalls = w.setClipboardTextCalls + 1 := by
    rw [hw3]; show w2.setClipboardTextCalls = _
    rw [hw2ct, s3, hw1]
  have hEnd : Calls IsFree w3 (free_clipboard_buffer original (free w3)) :=
    calls_trans IsFree _ _ _ (calls_free IsFree rfl _)
      (calls_free_clipboard_buffer IsFree rfl _ _)
  have seg3 : Seg GuardDiscipline w3 (free_clipboard_buffer original (free w3)) := by
    refine seg_of_calls _ _ _ _ hEnd ?_
    intro c hc
    rw [hw3fl, hw3in, show c = HostCall.free from hc]
    exact ⟨rfl, fun h => Bool.noConfusion h, fun _ => rfl⟩
  have e : write_back trimmed original w = free_clipboard_buffer original (free w3) := by
    rw [hw3, hw2, hsc, hw1]; rfl
  rw [e]
  exact ⟨hEnd.1.trans hw3fl, hEnd.2.2.1.trans hw3ct,
    seg_trans _ _ _ _ seg2 (seg_trans _ _ _ _ (seg_of_trace_eq _ _ _ hw3tr) seg3)⟩

theorem handle_guard_lifecycle (iswspace : WChar → Bool)
    (mb : List Nat → Option (List WChar)) (w : World)
    (hflag : w.g_isUpdatingClipboard = false) (hin : w.inSetClipboardText = false) :
    (handle_clipboard_update iswspace mb w).g_isUpdatingClipboard = false ∧
      Seg GuardDiscipline w (handle_clipboard_update iswspace mb w) := by
  have hF := calls_fetch_clipboard_text mb w
  have hM := calls_trans NotWrite _ _ _ hF
    (calls_malloc NotWrite (fetch_clipboard_text mb w).2 (fun _ => rfl))
  have T := calls_trans NotWrite
  have L := calls_log_info NotWrite
  have FB := calls_free_clipboard_buffer NotWrite rfl
  have hP : ∀ c, NotWrite c →
      GuardDiscipline ⟨w.g_isUpdatingClipboard, w.inSetClipboardText, c⟩ := by
    intro c hc
    rw [hflag, hin]
    refine ⟨rfl, ?_, fun _ => rfl⟩
    intro h
    rw [hc] at h
    exact Bool.noConfusion h
  have fin : ∀ w2, Calls NotWrite w w2 →
      w2.g_isUpdatingClipboard = false ∧ Seg GuardDiscipline w w2 :=
    fun w2 h => ⟨h.1.trans hflag, seg_of_calls _ _ _ _ h hP⟩
  unfold handle_clipboard_update
  rw [if_neg (by simp [hflag])]
  simp only
  split
  · exact fin _ (T _ _ _ hF (L _ _))
  · split
    · exact fin _ (T _ _ _ hM (T _ _ _ (L _ _) (FB _ _)))
    · split
      · exact fin _ (T _ _ _ hM (T _ _ _ (L _ _)
          (T _ _ _ (calls_free NotWrite rfl _) (FB _ _))))
      · have hwb := write_back_guard
          (trim_lines_preserving_breaks iswspace (malloc (fetch_clipboard_text mb w).2).1
            (fetch_clipboard_text mb w).1.outBuffer.text)
          (fetch_clipboard_text mb w).1.outBuffer (malloc (fetch_clipboard_text mb w).2).2
          (hM.2.1.trans hin)
        exact ⟨hwb.1, seg_trans _ _ _ _ (seg_of_calls _ _ _ _ hM hP) hwb.2.2⟩

theorem textChanged_fixed (iswspace : WChar → Bool) (u : List WChar)
    (hu : NoEdgeWs iswspace u) (ok : Bool)
    (hsome : (trim_lines_preserving_breaks iswspace ok (some u)).text ≠ none) :
    textChanged (trim_lines_preserving_breaks iswspace ok (some u)) ⟨some u, u.length⟩
      = false := by
  cases ok with
  | false => exact absurd rfl hsome
  | true =>
    obtain ⟨lc, h⟩ := trim_fixed_point iswspace u hu
    rw [h]
    simp [textChanged, wcsncmp_self]

theorem handle_trimmed_calls (iswspace : WChar → Bool)
    (mb : List Nat → Option (List WChar)) (w : World) (u : List WChar)
    (hu : NoEdgeWs iswspace u) (hpay : w.unicodeText = some u)
    (hflag : w.g_isUpdatingClipboard = false) :
    Calls NotWrite w (handle_clipboard_update iswspace mb w) := by
  have hF := calls_fetch_clipboard_text mb w
  have hM := calls_trans NotWrite _ _ _ hF
    (calls_malloc NotWrite (fetch_clipboard_text mb w).2 (fun _ => rfl))
  have T := calls_trans NotWrite
  have L := calls_log_info NotWrite
  have FB := calls_free_clipboard_buffer NotWrite rfl
  unfold handle_clipboard_update
  rw [if_neg (by simp [hflag])]
  simp only
  split
  · exact T _ _ _ hF (L _ _)
  · rename_i hok
    have hok2 : (fetch_clipboard_text mb w).1.ok = true := by simpa using hok
    have hbuf := fetch_clipboard_text_unicode mb w u hpay hok2
    split
    · exact T _ _ _ hM (T _ _ _ (L _ _) (FB _ _))
    · rename_i hsome
      split
      · exact T _ _ _ hM (T _ _ _ (L _ _) (T _ _ _ (calls_free NotWrite rfl _) (FB _ _)))
      · rename_i hch
        exfalso
        rw [hbuf] at hsome hch
        have := textChanged_fixed iswspace u hu _ (by simpa using hsome)
        rw [this] at hch
        exact hch rfl

/-! ## The line count -/

theorem scanLineEnd_ge (input : List WChar) (length fuel p : Nat) :
    p ≤ scanLineEnd input length fuel p := by
  induction fuel generalizing p with
  | zero => exact Nat.le_refl _
  | succ n ih =>
    rw [scanLineEnd]
    split
    · exact Nat.le_trans (Nat.le_succ p) (ih (p + 1))
    · exact Nat.le_refl _

theorem trimLine_lineCount (iswspace : WChar → Bool) (input : List WChar) (length : Nat)
    (s : TrimState) (h : s.readPos < length) :
    (trimLine iswspace input length s).lineCount = s.lineCount + 1 := by
  have hge := scanLineEnd_ge input length (length - s.readPos) s.readPos
  unfold trimLine
  simp only
  split
  · rfl
  · rename_i hgt
    have heq : scanLineEnd input length (length - s.readPos) s.readPos = s.readPos := by omega
    rw [heq]
    simp [h]

theorem trimLoop_lineCount (iswspace : WChar → Bool) (input : List WChar) (length fuel : Nat)
    (s : TrimState) :
    (trimLoop iswspace input length fuel s).lineCount
      = s.lineCount + trimLoopIterations iswspace input length fuel s := by
  induction fuel generalizing s with
  | zero => rfl
  | succ n ih =>
    rw [trimLoop, trimLoopIterations]
    split
    · rename_i h
      rw [ih, trimLine_lineCount iswspace input length s h]
      omega
    · rfl

theorem contentRuns_append_line (p : Bool) (line x : List WChar) (hne : line ≠ [])
    (hl : ∀ c ∈ line, isBreak c = false) :
    contentRuns p (line ++ x) = (if p then 1 else 0) + contentRuns false x := by
  induction line generalizing p with
  | nil => exact absurd rfl hne
  | cons c t ih =>
    have hc := hl c (by simp)
    cases t with
    | nil => simp [contentRuns, hc]
    | cons d t2 =>
      have := ih false (by simp) (fun y hy => hl y (by simp [hy]))
      simp only [List.cons_append] at this ⊢
      rw [contentRuns, hc, this]
      simp

theorem contentRuns_append_breaks (p : Bool) (b y : List WChar) (hne : b ≠ [])
    (hb : ∀ c ∈ b, isBreak c = true) :
    contentRuns p (b ++ y) = contentRuns true y := by
  induction b generalizing p with
  | nil => exact absurd rfl hne
  | cons c t ih =>
    have hc := hb c (by simp)
    cases t with
    | nil => simp [contentRuns, hc]
    | cons d t2 =>
      have := ih true (by simp) (fun z hz => hb z (by simp [hz]))
      simp only [List.cons_append] at this ⊢
      rw [contentRuns, hc, this]
      simp

theorem contentRuns_breaks_next (p : Bool) (suf : List WChar) :
    contentRuns p (breaksOf suf ++ nextSuf suf) = contentRuns true (nextSuf suf) := by
  by_cases h : breaksOf suf = []
  · rw [h, nextSuf_nil_of_breaksOf_nil suf h]
    rfl
  · exact contentRuns_append_breaks p _ _ h (breaksOf_break suf)

theorem contentRuns_suf (suf : List WChar) :
    contentRuns true suf
      = (if lineOf suf = [] then 0 else 1) + contentRuns true (nextSuf suf) := by
  conv_lhs => rw [← suf_split suf]
  by_cases h : lineOf suf = []
  · rw [h, List.nil_append, contentRuns_breaks_next, if_pos rfl, Nat.zero_add]
  · rw [contentRuns_append_line true _ _ h (lineOf_not_break suf), contentRuns_breaks_next,
      if_neg h]
    rfl

theorem lineOf_eq_nil_iff (suf : List WChar) (hne : suf ≠ []) :
    lineOf suf = [] ↔ isBreak (suf.headD 0) = true := by
  cases suf with
  | nil => exact absurd rfl hne
  | cons c t =>
    cases hc : isBreak c <;> simp [lineOf, hc]

theorem countInv_step (iswspace : WChar → Bool) (input pre suf : List WChar) (s : TrimState)
    (hin : input = pre ++ suf) (hne : suf ≠ []) (h : CountInv input pre suf s) :
    CountInv input (pre ++ lineOf suf ++ breaksOf suf) (nextSuf suf)
      (lineStep iswspace suf s) := by
  obtain ⟨h1, h2, h3⟩ := h
  have hnb := line_breaks_ne_nil suf hne
  have hpre : pre ++ lineOf suf ++ breaksOf suf ≠ [] := by
    intro e
    have := congrArg List.length e
    simp only [List.length_append, List.length_nil] at this
    omega
  refine ⟨fun e => absurd e hpre, fun _ => ⟨?_, fun c t hc => nextSuf_head_not_break suf c t hc⟩, ?_⟩
  · have hs := contentRuns_suf suf
    simp only [lineStep]
    by_cases hp : pre = []
    · have h0 := h1 hp
      subst hp
      simp only [List.nil_append] at hin
      subst hin
      unfold expectedLineCount
      rw [h0, hs]
      by_cases hl : lineOf input = []
      · rw [if_pos hl, if_pos ((lineOf_eq_nil_iff input hne).mp hl)]
        omega
      · have : ¬ isBreak (input.headD 0) = true := fun e =>
          hl ((lineOf_eq_nil_iff input hne).mpr e)
        rw [if_neg hl, if_neg this]
        omega
    · obtain ⟨h4, h5⟩ := h2 hp
      have hl : lineOf suf ≠ [] := by
        cases suf with
        | nil => exact absurd rfl hne
        | cons c t =>
          rw [lineOf_cons_of_not_break c t (h5 c t rfl)]
          simp
      rw [if_neg hl] at hs
      omega
  · simp only [lineStep]
    split <;> omega

theorem trim_count_inv (iswspace : WChar → Bool) (input : List WChar) :
    ∃ s : TrimState, CountInv input input [] s ∧
      trim_lines_preserving_breaks iswspace true (some input) =
        { text := some s.out.cells, length := s.out.writePos,
          whitespaceRemoved := s.whitespaceRemoved, linesTouched := s.linesTouched,
          lineCount := if input.length == 0 then 0 else s.lineCount } := by
  obtain ⟨s, hinv, _, hres⟩ := trim_rule iswspace input (CountInv input)
    ⟨fun _ => rfl, fun h => absurd rfl h, Nat.le_refl _⟩
    (fun pre suf s hin hne _ h => countInv_step iswspace input pre suf s hin hne h)
  exact ⟨s, hinv, hres⟩

theorem trim_lineCount_eq_iterations (iswspace : WChar → Bool) (input : List WChar) :
    (trim_lines_preserving_breaks iswspace true (some input)).lineCount
      = if input.length == 0 then 0
        else trimLoopIterations iswspace input input.length input.length TrimState.init := by
  have h := trimLoop_lineCount iswspace input input.length input.length TrimState.init
  show (if input.length == 0 then 0
    else (trimLoop iswspace input input.length input.length TrimState.init).lineCount) = _
  rw [h]
  simp [TrimState.init]

/-! ## The change detector and the log -/

theorem changeInv_step (iswspace : WChar → Bool) (pre suf : List WChar) (s : TrimState)
    (h : ChangeInv pre s) :
    ChangeInv (pre ++ lineOf suf ++ breaksOf suf) (lineStep iswspace suf s) := by
  obtain ⟨h1, h2, h3, h4⟩ := h
  have hk := keptOf_length_le iswspace (lineOf suf)
  refine ⟨?_, ?_, ?_, ?_⟩
  · exact (h1.append (keptOf_sublist iswspace (lineOf suf))).append (List.Sublist.refl _)
  · simp only [lineStep, List.length_append, h2]
  · simp only [lineStep, removedOf, List.length_append]
    omega
  · simp only [lineStep]
    split
    · constructor <;> intro h <;> omega
    · have : removedOf iswspace suf = 0 := by omega
      rw [this, Nat.add_zero]
      exact h4

theorem trim_change_inv (iswspace : WChar → Bool) (input : List WChar) :
    ∃ s : TrimState, ChangeInv input s ∧
      trim_lines_preserving_breaks iswspace true (some input) =
        { text := some s.out.cells, length := s.out.writePos,
          whitespaceRemoved := s.whitespaceRemoved, linesTouched := s.linesTouched,
          lineCount := if input.length == 0 then 0 else s.lineCount } := by
  obtain ⟨s, hinv, _, hres⟩ := trim_rule iswspace input (fun pre _ s => ChangeInv pre s)
    ⟨List.Sublist.refl _, rfl, rfl, Iff.rfl⟩
    (fun pre suf s _ _ _ h => changeInv_step iswspace pre suf s h)
  exact ⟨s, hinv, hres⟩

/-- The change detector on the result of the engine. -/
theorem textChanged_iff (iswspace : WChar → Bool) (x : List WChar) :
    (textChanged (trim_lines_preserving_breaks iswspace true (some x)) ⟨some x, x.length⟩ = true
      ↔ 0 < (trim_lines_preserving_breaks iswspace true (some x)).whitespaceRemoved) ∧
    (0 < (trim_lines_preserving_breaks iswspace true (some x)).whitespaceRemoved
      ↔ 0 < (trim_lines_preserving_breaks iswspace true (some x)).linesTouched) ∧
    ((trim_lines_preserving_breaks iswspace true (some x)).text = some x
      ↔ (trim_lines_preserving_breaks iswspace true (some x)).whitespaceRemoved = 0) := by
  obtain ⟨s, ⟨h1, h2, h3, h4⟩, hres⟩ := trim_change_inv iswspace x
  rw [hres]
  simp only
  have hcells : s.whitespaceRemoved = 0 → s.out.cells = x := by
    intro h0
    exact h1.eq_of_length (by omega)
  refine ⟨?_, ?_, ?_⟩
  · constructor
    · intro hch
      by_contra hz
      have h0 : s.whitespaceRemoved = 0 := by omega
      have hc := hcells h0
      have hw : s.out.writePos = x.length := by omega
      simp [textChanged, hw, hc, wcsncmp_self] at hch
    · intro hpos
      have hw : s.out.writePos ≠ x.length := by omega
      simp [textChanged, hw]
  · constructor <;> intro h <;> omega
  · constructor
    · intro ht
      have : s.out.cells = x := by simpa using ht
      rw [this] at h2
      omega
    · intro h0
      rw [hcells h0]

theorem logs_of_eq (P : LogEntry → Prop) (w1 w2 : World) (h : w2.log = w1.log) :
    Logs P w1 w2 :=
  ⟨[], by simp [h], by simp⟩

theorem logs_log_info (P : LogEntry → Prop) (w1 w2 : World) (e : LogEntry)
    (h : w2.log = w1.log) (he : P e) : Logs P w1 (log_info e w2) := by
  refine ⟨[e], ?_, ?_⟩
  · show w2.log ++ [e] = w1.log ++ [e]
    rw [h]
  · intro x hx
    simp only [List.mem_singleton] at hx
    rw [hx]
    exact he

theorem logs_trans (P : LogEntry → Prop) (w1 w2 w3 : World)
    (h12 : Logs P w1 w2) (h23 : Logs P w2 w3) : Logs P w1 w3 := by
  obtain ⟨l1, a1, a2⟩ := h12
  obtain ⟨l2, b1, b2⟩ := h23
  refine ⟨l1 ++ l2, by rw [b1, a1, List.append_assoc], ?_⟩
  intro e he
  rcases List.mem_append.mp he with h | h
  · exact a2 e h
  · exact b2 e h

theorem try_open_clipboard_loop_log (left : Nat) (w : World) :
    (try_open_clipboard_loop left w).2.log = w.log := by
  induction left generalizing w with
  | zero => rfl
  | succ n ih =>
    rw [try_open_clipboard_loop]
    split
    · rfl
    · rw [ih]
      rfl

theorem try_open_clipboard_log (w : World) : (try_open_clipboard w).2.log = w.log :=
  try_open_clipboard_loop_log kRetries w

theorem EmptyClipboard_log (w : World) : (EmptyClipboard w).2.log = w.log := by
  unfold EmptyClipboard
  simp only
  split <;> rfl

theorem SetClipboardData_log (payload : List WChar) (w : World) :
    (SetClipboardData payload w).2.log = w.log := by
  unfold SetClipboardData
  simp only
  split <;> rfl

theorem free_clipboard_buffer_log (b : ClipboardBuffer) (w : World) :
    (free_clipboard_buffer b w).log = w.log := by
  unfold free_clipboard_buffer
  split <;> rfl

theorem record_log (w : World) (c : HostCall) : (w.record c).log = w.log := rfl

theorem CloseClipboard_log (w : World) : (CloseClipboard w).log = w.log := rfl

theorem GlobalUnlock_log (w : World) : (GlobalUnlock w).log = w.log := rfl

theorem GlobalFree_log (w : World) : (GlobalFree w).log = w.log := rfl

theorem malloc_log (w : World) : (malloc w).2.log = w.log := rfl

theorem free_log (w : World) : (free w).log = w.log := rfl

theorem GlobalLock_log (w : World) : (GlobalLock w).2.log = w.log := rfl

theorem GlobalAlloc_log (w : World) : (GlobalAlloc w).2.log = w.log := rfl

theorem GetClipboardDataUnicode_log (w : World) :
    (GetClipboardDataUnicode w).2.log = w.log := rfl

theorem GetClipboardDataAnsi_log (w : World) : (GetClipboardDataAnsi w).2.log = w.log := rfl

theorem logs_fetch_clipboard_text (P : LogEntry → Prop)
    (hP : ∀ e, (∀ a b, e ≠ LogEntry.trimmed a b) → P e)
    (mb : List Nat → Option (List WChar)) (w : World) :
    Logs P w (fetch_clipboard_text mb w).2 := by
  have hO := try_open_clipboard_log w
  unfold fetch_clipboard_text
  simp only
  split
  · exact logs_log_info P w _ _ hO (hP _ (fun _ _ h => LogEntry.noConfusion h))
  · split
    · split
      · exact logs_log_info P w _ _ (by simp only [CloseClipboard_log, GlobalUnlock_log, GlobalFree_log, malloc_log, GlobalLock_log, GlobalAlloc_log,
      GetClipboardDataUnicode_log, GetClipboardDataAnsi_log, record_log, EmptyClipboard_log,
      SetClipboardData_log, hO]) (hP _ (fun _ _ h => LogEntry.noConfusion h))
      · split
        · exact logs_log_info P w _ _ (by simp only [CloseClipboard_log, GlobalUnlock_log, GlobalFree_log, malloc_log, GlobalLock_log, GlobalAlloc_log,
      GetClipboardDataUnicode_log, GetClipboardDataAnsi_log, record_log, EmptyClipboard_log,
      SetClipboardData_log, hO]) (hP _ (fun _ _ h => LogEntry.noConfusion h))
        · exact logs_of_eq P w _ (by simp only [CloseClipboard_log, GlobalUnlock_log, GlobalFree_log, malloc_log, GlobalLock_log, GlobalAlloc_log,
      GetClipboardDataUnicode_log, GetClipboardDataAnsi_log, record_log, EmptyClipboard_log,
      SetClipboardData_log, hO])
    · split
      · exact logs_of_eq P w _ (by simp only [CloseClipboard_log, GlobalUnlock_log, GlobalFree_log, malloc_log, GlobalLock_log, GlobalAlloc_log,
      GetClipboardDataUnicode_log, GetClipboardDataAnsi_log, record_log, EmptyClipboard_log,
      SetClipboardData_log, hO])
      · split
        · exact logs_log_info P w _ _ (by simp only [CloseClipboard_log, GlobalUnlock_log, GlobalFree_log, malloc_log, GlobalLock_log, GlobalAlloc_log,
      GetClipboardDataUnicode_log, GetClipboardDataAnsi_log, record_log, EmptyClipboard_log,
      SetClipboardData_log, hO]) (hP _ (fun _ _ h => LogEntry.noConfusion h))
        · split
          · exact logs_log_info P w _ _ (by simp only [CloseClipboard_log, GlobalUnlock_log, GlobalFree_log, malloc_log, GlobalLock_log, GlobalAlloc_log,
      GetClipboardDataUnicode_log, GetClipboardDataAnsi_log, record_log, EmptyClipboard_log,
      SetClipboardData_log, hO]) (hP _ (fun _ _ h => LogEntry.noConfusion h))
          · split
            · exact logs_log_info P w _ _ (by simp only [CloseClipboard_log, GlobalUnlock_log, GlobalFree_log, malloc_log, GlobalLock_log, GlobalAlloc_log,
      GetClipboardDataUnicode_log, GetClipboardDataAnsi_log, record_log, EmptyClipboard_log,
      SetClipboardData_log, hO]) (hP _ (fun _ _ h => LogEntry.noConfusion h))
            · exact logs_of_eq P w _ (by simp only [CloseClipboard_log, GlobalUnlock_log, GlobalFree_log, malloc_log, GlobalLock_log, GlobalAlloc_log,
      GetClipboardDataUnicode_log, GetClipboardDataAnsi_log, record_log, EmptyClipboard_log,
      SetClipboardData_log, hO])

theorem logs_set_clipboard_text (P : LogEntry → Prop)
    (hP : ∀ e, (∀ a b, e ≠ LogEntry.trimmed a b) → P e)
    (text : Option (List WChar)) (length : Nat) (w : World) :
    Logs P w (set_clipboard_text text length w).2 := by
  have hO : (try_open_clipboard w.enterSet).2.log = w.log := try_open_clipboard_log w.enterSet
  have hbody : Logs P w (set_clipboard_text_body text length w.enterSet).2 := by
    unfold set_clipboard_text_body
    split
    · exact logs_of_eq P w _ rfl
    · simp only
      split
      · exact logs_log_info P w _ _ hO (hP _ (fun _ _ h => LogEntry.noConfusion h))
      · split
        · exact logs_log_info P w _ _ (by simp only [CloseClipboard_log, GlobalUnlock_log, GlobalFree_log, malloc_log, GlobalLock_log, GlobalAlloc_log,
      GetClipboardDataUnicode_log, GetClipboardDataAnsi_log, record_log, EmptyClipboard_log,
      SetClipboardData_log, hO]) (hP _ (fun _ _ h => LogEntry.noConfusion h))
        · split
          · exact logs_log_info P w _ _ (by simp only [CloseClipboard_log, GlobalUnlock_log, GlobalFree_log, malloc_log, GlobalLock_log, GlobalAlloc_log,
      GetClipboardDataUnicode_log, GetClipboardDataAnsi_log, record_log, EmptyClipboard_log,
      SetClipboardData_log, hO]) (hP _ (fun _ _ h => LogEntry.noConfusion h))
          · split
            · exact logs_log_info P w _ _ (by simp only [CloseClipboard_log, GlobalUnlock_log, GlobalFree_log, malloc_log, GlobalLock_log, GlobalAlloc_log,
      GetClipboardDataUnicode_log, GetClipboardDataAnsi_log, record_log, EmptyClipboard_log,
      SetClipboardData_log, hO]) (hP _ (fun _ _ h => LogEntry.noConfusion h))
            · split
              · exact logs_log_info P w _ _ (by simp only [CloseClipboard_log, GlobalUnlock_log, GlobalFree_log, malloc_log, GlobalLock_log, GlobalAlloc_log,
      GetClipboardDataUnicode_log, GetClipboardDataAnsi_log, record_log, EmptyClipboard_log,
      SetClipboardData_log, hO]) (hP _ (fun _ _ h => LogEntry.noConfusion h))
              · exact logs_of_eq P w _ (by simp only [CloseClipboard_log, GlobalUnlock_log, GlobalFree_log, malloc_log, GlobalLock_log, GlobalAlloc_log,
      GetClipboardDataUnicode_log, GetClipboardDataAnsi_log, record_log, EmptyClipboard_log,
      SetClipboardData_log, hO])
  obtain ⟨l, h1, h2⟩ := hbody
  exact ⟨l, h1, h2⟩

theorem logs_write_back (trimmed : TrimmedBuffer) (original : ClipboardBuffer) (w : World)
    (hpos : 0 < trimmed.whitespaceRemoved ∧ 0 < trimmed.linesTouched) :
    Logs TrimmedPositive w (write_back trimmed original w) := by
  have hnt : ∀ e, (∀ a b, e ≠ LogEntry.trimmed a b) → TrimmedPositive e :=
    fun e h a b he => absurd he (h a b)
  obtain ⟨w1, hw1⟩ : ∃ w1 : World, w1 = { w with g_isUpdatingClipboard := true } := ⟨_, rfl⟩
  have hS := logs_set_clipboard_text TrimmedPositive hnt trimmed.text trimmed.length w1
  obtain ⟨sc, hsc⟩ : ∃ sc, sc = set_clipboard_text trimmed.text trimmed.length w1 := ⟨_, rfl⟩
  rw [← hsc] at hS
  have hS2 : Logs TrimmedPositive w sc.2 := by
    obtain ⟨l, h1, h2⟩ := hS
    exact ⟨l, by rw [h1, hw1], h2⟩
  obtain ⟨w2, hw2⟩ : ∃ w2 : World, w2 =
      (if sc.1 = true then
        log_info (LogEntry.trimmed trimmed.whitespaceRemoved trimmed.linesTouched) sc.2
      else log_info LogEntry.failedToSetBack sc.2) := ⟨_, rfl⟩
  have h2 : Logs TrimmedPositive sc.2 w2 := by
    rw [hw2]
    split
    · refine logs_log_info _ _ _ _ rfl ?_
      intro a b he
      injection he with ha hb
      rw [← ha, ← hb]
      exact hpos
    · exact logs_log_info _ _ _ _ rfl (hnt _ (fun _ _ h => LogEntry.noConfusion h))
  have e : (write_back trimmed original w).log = w2.log := by
    have : write_back trimmed original w
        = free_clipboard_buffer original (free { w2 with g_isUpdatingClipboard := false }) := by
      rw [hw2, hsc, hw1]; rfl
    rw [this, free_clipboard_buffer_log]
    rfl
  obtain ⟨l, h3, h4⟩ := logs_trans _ _ _ _ hS2 h2
  exact ⟨l, by rw [e, h3], h4⟩

theorem fetch_clipboard_text_ok_buffer (mb : List Nat → Option (List WChar)) (w : World) :
    (fetch_clipboard_text mb w).1.ok = true →
      ∃ u, (fetch_clipboard_text mb w).1.outBuffer = ⟨some u, u.length⟩ := by
  unfold fetch_clipboard_text
  simp only
  repeat' split
  all_goals first
    | (intro _; exact ⟨_, rfl⟩)
    | (intro h; exact absurd h (by simp))

theorem logs_handle_clipboard_update (iswspace : WChar → Bool)
    (mb : List Nat → Option (List WChar)) (w : World) :
    Logs TrimmedPositive w (handle_clipboard_update iswspace mb w) := by
  have hnt : ∀ e, (∀ a b, e ≠ LogEntry.trimmed a b) → TrimmedPositive e :=
    fun e h a b he => absurd he (h a b)
  have hF := logs_fetch_clipboard_text TrimmedPositive hnt mb w
  unfold handle_clipboard_update
  split
  · exact logs_of_eq _ _ _ rfl
  · simp only
    split
    · exact logs_trans _ _ _ _ hF (logs_log_info _ _ _ _ rfl (hnt _ (fun _ _ h => LogEntry.noConfusion h)))
    · rename_i hok
      have hok2 : (fetch_clipboard_text mb w).1.ok = true := by simpa using hok
      obtain ⟨u, hbuf⟩ := fetch_clipboard_text_ok_buffer mb w hok2
      split
      · refine logs_trans _ _ _ _ hF ?_
        refine ⟨[LogEntry.failedToAllocateTrimming], ?_, ?_⟩
        · rw [free_clipboard_buffer_log]; rfl
        · intro e he
          simp only [List.mem_singleton] at he
          rw [he]
          exact hnt _ (fun _ _ h => LogEntry.noConfusion h)
      · rename_i hsome
        split
        · refine logs_trans _ _ _ _ hF ?_
          refine ⟨[LogEntry.alreadyTrimmed (trim_lines_preserving_breaks iswspace
            (malloc (fetch_clipboard_text mb w).2).1
            (fetch_clipboard_text mb w).1.outBuffer.text).lineCount], ?_, ?_⟩
          · rw [free_clipboard_buffer_log]; rfl
          · intro e he
            simp only [List.mem_singleton] at he
            rw [he]
            exact hnt _ (fun _ _ h => LogEntry.noConfusion h)
        · rename_i hch
          refine logs_trans _ _ _ _ hF ?_
          have hpos : 0 < (trim_lines_preserving_breaks iswspace
                (malloc (fetch_clipboard_text mb w).2).1
                (fetch_clipboard_text mb w).1.outBuffer.text).whitespaceRemoved ∧
              0 < (trim_lines_preserving_breaks iswspace
                (malloc (fetch_clipboard_text mb w).2).1
                (fetch_clipboard_text mb w).1.outBuffer.text).linesTouched := by
            rw [hbuf] at hsome hch ⊢
            simp only at hsome hch ⊢
            cases hm : (malloc (fetch_clipboard_text mb w).2).1 with
            | false =>
              rw [hm] at hsome
              exact absurd rfl hsome
            | true =>
              rw [hm] at hch
              have h := textChanged_iff iswspace u
              have h1 := h.1.mp (by simpa using hch)
              exact ⟨h1, h.2.1.mp h1⟩
          obtain ⟨l, h1, h2⟩ := logs_write_back _ (fetch_clipboard_text mb w).1.outBuffer
            (malloc (fetch_clipboard_text mb w).2).2 hpos
          exact ⟨l, h1, h2⟩

/-! ## Bounded retry, release of the clipboard and the order of the write -/

theorem getD_succ_eq_tail (outs : List Bool) (i : Nat) :
    outs.getD (i + 1) false = outs.tail.getD i false := by
  cases outs with
  | nil => simp
  | cons b r => simp

theorem failedAttempts_succ (left : Nat) (outs : List Bool) :
    failedAttempts (left + 1) outs
      = if outs.headD false then 0 else failedAttempts left outs.tail + 1 := by
  unfold failedAttempts
  rw [List.range_succ_eq_map]
  have h0 : outs.getD 0 false = outs.headD false := by cases outs <;> rfl
  cases hb : outs.headD false with
  | true =>
    rw [List.takeWhile_cons_of_neg (by show ¬ (!(outs.getD 0 false)) = true; rw [h0, hb]; decide)]
    simp
  | false =>
    rw [List.takeWhile_cons_of_pos (by show (!(outs.getD 0 false)) = true; rw [h0, hb]; rfl),
      List.takeWhile_map]
    simp only [List.length_cons, List.length_map, Bool.false_eq_true, if_false]
    congr 3
    funext i
    simp only [Function.comp, Nat.succ_eq_add_one, getD_succ_eq_tail]

theorem failedAttempts_le (retries : Nat) (outs : List Bool) :
    failedAttempts retries outs ≤ retries := by
  unfold failedAttempts
  have := (List.takeWhile_sublist (fun i => !(outs.getD i false)) (l := List.range retries)).length_le
  simpa using this

theorem failedAttempts_eq_iff (retries : Nat) (outs : List Bool) :
    failedAttempts retries outs = retries ↔ ∀ i, i < retries → outs.getD i false = false := by
  unfold failedAttempts
  constructor
  · intro h i hi
    have hsub := List.takeWhile_sublist (fun i => !(outs.getD i false)) (l := List.range retries)
    have heq := hsub.eq_of_length (by simpa using h)
    have := List.takeWhile_eq_self_iff.mp heq i (by simpa using hi)
    simpa using this
  · intro h
    have : (List.range retries).takeWhile (fun i => !(outs.getD i false)) = List.range retries := by
      rw [List.takeWhile_eq_self_iff]
      intro i hi
      show (!(outs.getD i false)) = true
      rw [h i (by simpa using hi)]
      rfl
    rw [this]
    simp

theorem try_open_clipboard_loop_spec (left : Nat) (w : World) :
    (try_open_clipboard_loop left w).1 = decide (failedAttempts left w.outcomes < left) ∧
    ∃ t, (try_open_clipboard_loop left w).2.trace = w.trace ++ t ∧
      t.map TraceEntry.call = openCalls left (failedAttempts left w.outcomes) := by
  induction left generalizing w with
  | zero =>
    refine ⟨by simp [try_open_clipboard_loop], [], by simp [try_open_clipboard_loop], ?_⟩
    simp [openCalls, failedAttempts, failedOpenCalls]
  | succ n ih =>
    rw [try_open_clipboard_loop, failedAttempts_succ]
    have hr1 : (OpenClipboard w).1 = w.outcomes.headD false := rfl
    cases hb : w.outcomes.headD false with
    | true =>
      rw [hr1, hb]
      simp only [if_true]
      refine ⟨by simp, [⟨w.g_isUpdatingClipboard, w.inSetClipboardText,
        HostCall.OpenClipboard true⟩], ?_, ?_⟩
      · show w.trace ++ [⟨w.g_isUpdatingClipboard, w.inSetClipboardText,
          HostCall.OpenClipboard (w.outcomes.headD false)⟩] = _
        rw [hb]
      · simp [openCalls, failedOpenCalls]
    | false =>
      rw [hr1, hb]
      simp only [Bool.false_eq_true, if_false]
      obtain ⟨h1, t, h2, h3⟩ := ih (Sleep 10 (OpenClipboard w).2)
      have hout : (Sleep 10 (OpenClipboard w).2).outcomes = w.outcomes.tail := rfl
      rw [hout] at h1 h3
      refine ⟨?_, ⟨w.g_isUpdatingClipboard, w.inSetClipboardText, HostCall.OpenClipboard false⟩
        :: ⟨w.g_isUpdatingClipboard, w.inSetClipboardText, HostCall.Sleep 10⟩ :: t, ?_, ?_⟩
      · rw [h1]
        simp
      · rw [h2]
        show (w.trace ++ [⟨w.g_isUpdatingClipboard, w.inSetClipboardText,
          HostCall.OpenClipboard (w.outcomes.headD false)⟩] ++ [_]) ++ t = _
        rw [hb]
        simp
        exact ⟨rfl, rfl⟩
      · simp only [List.map_cons, h3, openCalls, failedOpenCalls, List.cons_append]
        simp

theorem try_open_clipboard_spec (w : World) :
    (try_open_clipboard w).1 = decide (failedAttempts kRetries w.outcomes < kRetries) ∧
    ∃ t, (try_open_clipboard w).2.trace = w.trace ++ t ∧
      t.map TraceEntry.call = openCalls kRetries (failedAttempts kRetries w.outcomes) :=
  try_open_clipboard_loop_spec kRetries w

theorem mem_failedOpenCalls (k : Nat) (c : HostCall) (h : c ∈ failedOpenCalls k) :
    c = HostCall.OpenClipboard false ∨ c = HostCall.Sleep 10 := by
  induction k with
  | zero => simp [failedOpenCalls] at h
  | succ n ih =>
    simp only [failedOpenCalls, List.mem_cons] at h
    rcases h with h | h | h
    · exact Or.inl h
    · exact Or.inr h
    · exact ih h

theorem failedOpenCalls_attempts (k : Nat) :
    ((failedOpenCalls k).filter HostCall.isOpenAttempt).length = k := by
  induction k with
  | zero => rfl
  | succ n ih => simp [failedOpenCalls, HostCall.isOpenAttempt, ih]

theorem openCalls_attempts_le (retries k : Nat) (hk : k ≤ retries) :
    ((openCalls retries k).filter HostCall.isOpenAttempt).length ≤ retries := by
  unfold openCalls
  rw [List.filter_append, List.length_append, failedOpenCalls_attempts]
  split
  · simp [HostCall.isOpenAttempt]
    omega
  · simp
    exact hk

theorem openCalls_of_not_lt (retries k : Nat) (h : ¬ k < retries) :
    openCalls retries k = failedOpenCalls k := by
  simp [openCalls, h]

theorem openCalls_of_lt (retries k : Nat) (h : k < retries) :
    openCalls retries k = failedOpenCalls k ++ [HostCall.OpenClipboard true] := by
  simp [openCalls, h]

theorem try_open_clipboard_false_iff (w : World) :
    (try_open_clipboard w).1 = false ↔ failedAttempts kRetries w.outcomes = kRetries := by
  have h := (try_open_clipboard_spec w).1
  have hle := failedAttempts_le kRetries w.outcomes
  rw [h]
  simp only [decide_eq_false_iff_not]
  omega

theorem fetch_clipboard_text_open_failed (mb : List Nat → Option (List WChar)) (w : World)
    (h : (try_open_clipboard w).1 = false) :
    (fetch_clipboard_text mb w).1.ok = false ∧
      (fetch_clipboard_text mb w).2.trace = (try_open_clipboard w).2.trace := by
  unfold fetch_clipboard_text
  simp only
  rw [if_pos (by simp [h])]
  exact ⟨rfl, rfl⟩

theorem set_clipboard_text_open_failed (text : List WChar) (length : Nat) (w : World)
    (h : (try_open_clipboard w.enterSet).1 = false) :
    (set_clipboard_text (some text) length w).1 = false ∧
      (set_clipboard_text (some text) length w).2.trace
        = (try_open_clipboard w.enterSet).2.trace := by
  unfold set_clipboard_text set_clipboard_text_body
  simp only
  rw [if_pos (by simp [h])]
  exact ⟨rfl, rfl⟩

theorem handle_clipboard_update_open_failed (iswspace : WChar → Bool)
    (mb : List Nat → Option (List WChar)) (w : World)
    (hflag : w.g_isUpdatingClipboard = false) (h : (try_open_clipboard w).1 = false) :
    (handle_clipboard_update iswspace mb w).trace = (try_open_clipboard w).2.trace ∧
      (handle_clipboard_update iswspace mb w).setClipboardTextCalls
        = w.setClipboardTextCalls := by
  obtain ⟨h1, h2⟩ := fetch_clipboard_text_open_failed mb w h
  have hc := (calls_fetch_clipboard_text mb w).2.2.1
  unfold handle_clipboard_update
  rw [if_neg (by simp [hflag])]
  simp only
  rw [if_pos (by simp [h1])]
  exact ⟨h2, hc⟩

theorem log_info_trace (e : LogEntry) (w : World) : (log_info e w).trace = w.trace := rfl

theorem log_info_clipboardOpen (e : LogEntry) (w : World) :
    (log_info e w).clipboardOpen = w.clipboardOpen := rfl

theorem CloseClipboard_clipboardOpen (w : World) : (CloseClipboard w).clipboardOpen = false :=
  rfl

theorem set_clipboard_text_trace (text : Option (List WChar)) (length : Nat) (w : World) :
    (set_clipboard_text text length w).2.trace
      = (set_clipboard_text_body text length w.enterSet).2.trace := rfl

theorem set_clipboard_text_clipboardOpen (text : Option (List WChar)) (length : Nat)
    (w : World) :
    (set_clipboard_text text length w).2.clipboardOpen
      = (set_clipboard_text_body text length w.enterSet).2.clipboardOpen := rfl

theorem fetch_clipboard_text_held (mb : List Nat → Option (List WChar)) (w : World)
    (h : (try_open_clipboard w).1 = true) :
    ∃ X, Calls HeldCall (try_open_clipboard w).2 X ∧
      (fetch_clipboard_text mb w).2.trace = (CloseClipboard X).trace ∧
      (fetch_clipboard_text mb w).2.clipboardOpen = false := by
  have T := calls_trans HeldCall
  have R := fun w c (h : HeldCall c) => calls_record HeldCall w c h
  have K := fun w => calls_GlobalLock HeldCall w (fun _ => rfl)
  have M := fun w => calls_malloc HeldCall w (fun _ => rfl)
  have U : ∀ w, Calls HeldCall w (GlobalUnlock w) :=
    fun w => calls_record HeldCall w HostCall.GlobalUnlock rfl
  unfold fetch_clipboard_text
  simp only
  generalize try_open_clipboard w = o at h ⊢
  have hU : Calls HeldCall o.2 (GetClipboardDataUnicode o.2).2 := R _ _ rfl
  have hA : Calls HeldCall o.2 (GetClipboardDataAnsi (GetClipboardDataUnicode o.2).2).2 :=
    T _ _ _ hU (R _ _ rfl)
  rw [if_neg (by simp [h])]
  split
  · split
    · refine ⟨_, T _ _ _ hU (K _), ?_, ?_⟩
        <;> simp only [log_info_trace, log_info_clipboardOpen, CloseClipboard_clipboardOpen]
    · split
      · refine ⟨_, T _ _ _ hU (T _ _ _ (K _) (T _ _ _ (M _) (U _))), ?_, ?_⟩
          <;> simp only [log_info_trace, log_info_clipboardOpen, CloseClipboard_clipboardOpen]
      · refine ⟨_, T _ _ _ hU (T _ _ _ (K _) (T _ _ _ (M _) (U _))), ?_, ?_⟩
          <;> simp only [log_info_trace, log_info_clipboardOpen, CloseClipboard_clipboardOpen]
  · split
    · refine ⟨_, hA, ?_, ?_⟩
        <;> simp only [log_info_trace, log_info_clipboardOpen, CloseClipboard_clipboardOpen]
    · split
      · refine ⟨_, T _ _ _ hA (K _), ?_, ?_⟩
          <;> simp only [log_info_trace, log_info_clipboardOpen, CloseClipboard_clipboardOpen]
      · rename_i _ lockedAnsi _ _
        have hW := fun b => T _ _ _ (T _ _ _ hA (K _)) (R _ (HostCall.MultiByteToWideChar b) rfl)
        split
        · refine ⟨_, T _ _ _ (hW (mb lockedAnsi).isSome) (U _), ?_, ?_⟩
            <;> simp only [log_info_trace, log_info_clipboardOpen, CloseClipboard_clipboardOpen]
        · split
          · refine ⟨_, T _ _ _ (hW (mb lockedAnsi).isSome) (T _ _ _ (M _) (U _)), ?_, ?_⟩
              <;> simp only [log_info_trace, log_info_clipboardOpen, CloseClipboard_clipboardOpen]
          · refine ⟨_, T _ _ _ (hW (mb lockedAnsi).isSome) (T _ _ _ (M _)
            (T _ _ _ (R _ (HostCall.MultiByteToWideChar true) rfl) (U _))), ?_, ?_⟩
              <;> simp only [log_info_trace, log_info_clipboardOpen, CloseClipboard_clipboardOpen]

theorem set_clipboard_text_held (text : List WChar) (length : Nat) (w : World)
    (h : (try_open_clipboard w.enterSet).1 = true) :
    ∃ X, Calls HeldCall (try_open_clipboard w.enterSet).2 X ∧
      (set_clipboard_text (some text) length w).2.trace = (CloseClipboard X).trace ∧
      (set_clipboard_text (some text) length w).2.clipboardOpen = false := by
  have T := calls_trans HeldCall
  have K := fun w => calls_GlobalLock HeldCall w (fun _ => rfl)
  have A := fun w => calls_GlobalAlloc HeldCall w (fun _ => rfl)
  have E := fun w => calls_EmptyClipboard HeldCall w (fun _ => rfl)
  have S := fun p w => calls_SetClipboardData HeldCall p w (fun _ => rfl)
  have U : ∀ w, Calls HeldCall w (GlobalUnlock w) :=
    fun w => calls_record HeldCall w HostCall.GlobalUnlock rfl
  have F : ∀ w, Calls HeldCall w (GlobalFree w) :=
    fun w => calls_record HeldCall w HostCall.GlobalFree rfl
  rw [set_clipboard_text_trace, set_clipboard_text_clipboardOpen]
  unfold set_clipboard_text_body
  simp only
  generalize try_open_clipboard w.enterSet = o at h ⊢
  have hE := E o.2
  rw [if_neg (by simp [h])]
  split
  · refine ⟨_, hE, ?_, ?_⟩
      <;> simp only [log_info_trace, log_info_clipboardOpen, CloseClipboard_clipboardOpen]
  · split
    · refine ⟨_, T _ _ _ hE (A _), ?_, ?_⟩
        <;> simp only [log_info_trace, log_info_clipboardOpen, CloseClipboard_clipboardOpen]
    · split
      · refine ⟨_, T _ _ _ hE (T _ _ _ (A _) (T _ _ _ (K _) (F _))), ?_, ?_⟩
          <;> simp only [log_info_trace, log_info_clipboardOpen, CloseClipboard_clipboardOpen]
      · have hS := fun p => T _ _ _ hE (T _ _ _ (A _) (T _ _ _ (K _) (T _ _ _ (U _) (S p _))))
        split
        · refine ⟨_, T _ _ _ (hS (text.take length)) (F _), ?_, ?_⟩
            <;> simp only [log_info_trace, log_info_clipboardOpen, CloseClipboard_clipboardOpen]
        · refine ⟨_, hS (text.take length), ?_, ?_⟩
            <;> simp only [log_info_trace, log_info_clipboardOpen, CloseClipboard_clipboardOpen]

theorem CloseClipboard_trace (w : World) :
    (CloseClipboard w).trace
      = w.trace ++ [⟨w.g_isUpdatingClipboard, w.inSetClipboardText, HostCall.CloseClipboard⟩] :=
  rfl

theorem not_mem_failedOpenCalls (k : Nat) (c : HostCall)
    (h1 : c ≠ HostCall.OpenClipboard false) (h2 : c ≠ HostCall.Sleep 10) :
    c ∉ failedOpenCalls k := by
  intro h
  rcases mem_failedOpenCalls k c h with e | e
  · exact h1 e
  · exact h2 e

theorem releasesAccess_of_open (w w0 w2 : World) (hw0 : w0.trace = w.trace)
    (hopened : (try_open_clipboard w0).1 = true →
      ∃ X, Calls HeldCall (try_open_clipboard w0).2 X ∧
        w2.trace = (CloseClipboard X).trace ∧ w2.clipboardOpen = false)
    (hfailed : (try_open_clipboard w0).1 = false → w2.trace = (try_open_clipboard w0).2.trace) :
    ReleasesAccess w w2 := by
  obtain ⟨hres, t0, ht0, hcalls⟩ := try_open_clipboard_spec w0
  have hnoOpen : HostCall.OpenClipboard true ∉ failedOpenCalls
      (failedAttempts kRetries w0.outcomes) :=
    not_mem_failedOpenCalls _ _ (by decide) (by decide)
  have hnoClose : HostCall.CloseClipboard ∉ failedOpenCalls
      (failedAttempts kRetries w0.outcomes) :=
    not_mem_failedOpenCalls _ _ (by decide) (by decide)
  cases ho : (try_open_clipboard w0).1 with
  | false =>
    rw [ho] at hres
    have hk : ¬ failedAttempts kRetries w0.outcomes < kRetries := by
      intro h
      rw [decide_eq_true h] at hres
      exact Bool.noConfusion hres
    rw [openCalls_of_not_lt _ _ hk] at hcalls
    refine ⟨t0, by rw [hfailed ho, ht0, hw0], ?_, ?_⟩
    · intro h
      rw [hcalls] at h
      exact absurd h hnoOpen
    · intro _
      rw [hcalls]
      exact ⟨hnoClose, fun c hc => mem_failedOpenCalls _ c hc⟩
  | true =>
    rw [ho] at hres
    have hk : failedAttempts kRetries w0.outcomes < kRetries := by
      by_contra h
      rw [decide_eq_false h] at hres
      exact Bool.noConfusion hres
    rw [openCalls_of_lt _ _ hk] at hcalls
    obtain ⟨X, ⟨_, _, _, _, tm, hX, hm⟩, htr, hclosed⟩ := hopened ho
    have hmid : HostCall.CloseClipboard ∉ tm.map TraceEntry.call := by
      intro h
      obtain ⟨e, he, hec⟩ := List.mem_map.mp h
      have := (hm e he).2.2
      rw [hec] at this
      exact Bool.noConfusion this
    refine ⟨t0 ++ tm ++ [⟨X.g_isUpdatingClipboard, X.inSetClipboardText,
      HostCall.CloseClipboard⟩], ?_, ?_, ?_⟩
    · rw [htr, CloseClipboard_trace, hX, ht0, hw0]
      simp
    · intro _
      refine ⟨by simp, ?_, hclosed⟩
      simp only [List.map_append, hcalls, List.count_append, List.map_cons, List.map_nil]
      rw [List.count_eq_zero.mpr hnoClose, List.count_eq_zero.mpr hmid]
      decide
    · intro h
      exact absurd (by simp [hcalls]) h


theorem entriesOf_calls (v : World) (cs : List HostCall) :
    (entriesOf v cs).map TraceEntry.call = cs := by
  induction cs with
  | nil => rfl
  | cons c cs ih =>
    simp only [entriesOf, List.map_cons, List.map_map] at ih ⊢
    rw [ih]

theorem set_clipboard_text_body_after_open (text : List WChar) (length : Nat) (w0 : World) :
    ∃ tail, (set_clipboard_text_body (some text) length w0).2.trace
        = (try_open_clipboard w0).2.trace ++ entriesOf (try_open_clipboard w0).2 tail ∧
      SetOutcome (text.take length) (try_open_clipboard w0).2.unicodeText
        (try_open_clipboard w0).2.ansiText tail
        (set_clipboard_text_body (some text) length w0).1
        (set_clipboard_text_body (some text) length w0).2 := by
  unfold set_clipboard_text_body
  simp only
  generalize try_open_clipboard w0 = o
  obtain ⟨b, v⟩ := o
  cases b with
  | false =>
    refine ⟨[], ?_, Or.inl ⟨rfl, ?_, ?_, ?_⟩⟩ <;> simp [log_info, entriesOf]
  | true =>
    simp only [EmptyClipboard, GlobalAlloc, GlobalLock, GlobalUnlock, GlobalFree, SetClipboardData,
      CloseClipboard, log_info, World.nextOutcome, World.record, Bool.not_true, Bool.not_false,
      Bool.false_eq_true, if_true, if_false]
    generalize v.outcomes.headD false = b1
    cases b1 with
    | false =>
      refine ⟨_, ?_, Or.inr (Or.inl ⟨rfl, ?_, ?_, ?_⟩)⟩ <;> simp [entriesOf]
    | true =>
      simp only [EmptyClipboard, GlobalAlloc, GlobalLock, GlobalUnlock, GlobalFree, SetClipboardData,
      CloseClipboard, log_info, World.nextOutcome, World.record, Bool.not_true, Bool.not_false,
      Bool.false_eq_true, if_true, if_false]
      generalize v.outcomes.tail.headD false = b2
      cases b2 with
      | false =>
        refine ⟨_, ?_, Or.inr (Or.inr (Or.inl ⟨rfl, ?_, ?_, ?_⟩))⟩ <;> simp [entriesOf]
      | true =>
        simp only [EmptyClipboard, GlobalAlloc, GlobalLock, GlobalUnlock, GlobalFree, SetClipboardData,
      CloseClipboard, log_info, World.nextOutcome, World.record, Bool.not_true, Bool.not_false,
      Bool.false_eq_true, if_true, if_false]
        generalize v.outcomes.tail.tail.headD false = b3
        cases b3 with
        | false =>
          refine ⟨_, ?_, Or.inr (Or.inr (Or.inr (Or.inl ⟨rfl, ?_, ?_, ?_⟩)))⟩ <;>
            simp [entriesOf]
        | true =>
          simp only [EmptyClipboard, GlobalAlloc, GlobalLock, GlobalUnlock, GlobalFree, SetClipboardData,
      CloseClipboard, log_info, World.nextOutcome, World.record, Bool.not_true, Bool.not_false,
      Bool.false_eq_true, if_true, if_false]
          generalize v.outcomes.tail.tail.tail.headD false = b4
          cases b4 with
          | false =>
            refine ⟨_, ?_, Or.inr (Or.inr (Or.inr (Or.inr (Or.inl ⟨rfl, ?_, ?_, ?_⟩))))⟩ <;>
              simp [entriesOf]
          | true =>
            refine ⟨_, ?_, Or.inr (Or.inr (Or.inr (Or.inr (Or.inr ⟨rfl, ?_, ?_, ?_⟩))))⟩ <;>
              simp [entriesOf]

/-! ## The returned text line by line -/

theorem trimText_nil (iswspace : WChar → Bool) (fuel : Nat) : trimText iswspace fuel [] = [] := by
  cases fuel <;> simp [trimText]

theorem trimText_fuel (iswspace : WChar → Bool) (n : Nat) :
    ∀ (m : Nat) (suf : List WChar), suf.length ≤ n → suf.length ≤ m →
      trimText iswspace n suf = trimText iswspace m suf := by
  induction n with
  | zero =>
    intro m suf h _
    have : suf = [] := List.length_eq_zero.mp (Nat.le_zero.mp h)
    subst this
    rw [trimText_nil, trimText_nil]
  | succ n ih =>
    intro m suf hn hm
    by_cases hne : suf = []
    · subst hne; rw [trimText_nil, trimText_nil]
    · cases m with
      | zero => exact absurd (List.length_eq_zero.mp (Nat.le_zero.mp hm)) hne
      | succ m =>
        have h1 := line_breaks_ne_nil suf hne
        have h2 := nextSuf_length suf
        rw [trimText, trimText, if_neg hne, if_neg hne, ih m (nextSuf suf) (by omega) (by omega)]

theorem trimText_step (iswspace : WChar → Bool) (suf : List WChar) (hne : suf ≠ []) :
    trimText iswspace suf.length suf =
      keptOf iswspace (lineOf suf) ++ breaksOf suf
        ++ trimText iswspace (nextSuf suf).length (nextSuf suf) := by
  have h1 := line_breaks_ne_nil suf hne
  have h2 := nextSuf_length suf
  obtain ⟨k, hk⟩ : ∃ k, suf.length = k + 1 := ⟨suf.length - 1, by
    have := List.length_pos.mpr hne; omega⟩
  rw [hk, trimText, if_neg hne,
    trimText_fuel iswspace k (nextSuf suf).length (nextSuf suf) (by omega) (Nat.le_refl _)]

theorem trim_text_inv (iswspace : WChar → Bool) (input : List WChar) :
    ∃ s : TrimState, (s.out.cells = trimText iswspace input.length input) ∧
      s.readPos = input.length ∧
      trim_lines_preserving_breaks iswspace true (some input) =
        { text := some s.out.cells, length := s.out.writePos,
          whitespaceRemoved := s.whitespaceRemoved, linesTouched := s.linesTouched,
          lineCount := if input.length == 0 then 0 else s.lineCount } := by
  obtain ⟨s, h, hr, hres⟩ := trim_rule iswspace input
    (fun _ suf s => s.out.cells ++ trimText iswspace suf.length suf
      = trimText iswspace input.length input)
    (by simp [TrimState.init]) (by
      intro pre suf s _ hne _ h
      rw [← h, trimText_step iswspace suf hne]
      simp only [lineStep, List.append_assoc])
  refine ⟨s, ?_, hr, hres⟩
  simpa [trimText_nil] using h

theorem keptOf_nil (iswspace : WChar → Bool) : keptOf iswspace [] = [] := by
  simp [keptOf, List.rdropWhile]

theorem lineOf_cons_break (b : WChar) (t : List WChar) (hb : isBreak b = true) :
    lineOf (b :: t) = [] := by
  simp [lineOf, hb]

theorem afterLine_cons_break (b : WChar) (t : List WChar) (hb : isBreak b = true) :
    afterLine (b :: t) = b :: t := by
  simp [afterLine, hb]

/-- The text written for a part that starts with terminators: the terminator run, then the
text written for the rest. -/
theorem trimText_runs (iswspace : WChar → Bool) (t : List WChar) :
    trimText iswspace t.length t =
      t.takeWhile isBreak ++ trimText iswspace (t.dropWhile isBreak).length
        (t.dropWhile isBreak) := by
  cases t with
  | nil => simp [trimText_nil]
  | cons c t =>
    cases hc : isBreak c with
    | true =>
      rw [trimText_step iswspace (c :: t) (by simp)]
      simp only [breaksOf, nextSuf, lineOf_cons_break c t hc, afterLine_cons_break c t hc,
        keptOf_nil, List.nil_append]
    | false => simp [hc]

theorem trimText_cons_break (iswspace : WChar → Bool) (b : WChar) (t : List WChar)
    (hb : isBreak b = true) :
    trimText iswspace (b :: t).length (b :: t) = b :: trimText iswspace t.length t := by
  rw [trimText_runs iswspace (b :: t), trimText_runs iswspace t]
  simp [hb]

/-- The text written for a part: its first line without leading and trailing whitespace,
then the text written for what follows that line. -/
theorem trimText_line (iswspace : WChar → Bool) (suf : List WChar) :
    trimText iswspace suf.length suf =
      keptOf iswspace (lineOf suf) ++ trimText iswspace (afterLine suf).length
        (afterLine suf) := by
  by_cases hne : suf = []
  · subst hne; simp [trimText_nil, lineOf, afterLine, keptOf_nil]
  · rw [trimText_step iswspace suf hne, trimText_runs iswspace (afterLine suf),
      List.append_assoc]
    rfl

theorem lineOf_append_of_break (line post : List WChar)
    (hline : ∀ c ∈ line, isBreak c = false)
    (hpost : ∀ n p1, post = n :: p1 → isBreak n = true) :
    lineOf (line ++ post) = line ∧ afterLine (line ++ post) = post := by
  unfold lineOf afterLine
  cases post with
  | nil =>
    simp only [List.append_nil]
    constructor
    · exact List.takeWhile_eq_self_iff.mpr (by intro c hc; simp [hline c hc])
    · exact List.dropWhile_eq_nil_iff.mpr (by intro c hc; simp [hline c hc])
  | cons n p1 =>
    have hn := hpost n p1 rfl
    constructor
    · rw [List.takeWhile_append_of_pos (by intro c hc; simp [hline c hc])]
      simp [hn]
    · rw [List.dropWhile_append_of_pos (by intro c hc; simp [hline c hc])]
      simp [hn]

/-- A whole line followed by the end of the text or by a terminator is written without its
leading and trailing whitespace, then comes the text written for the rest. -/
theorem trimText_append_line (iswspace : WChar → Bool) (line post : List WChar)
    (hline : ∀ c ∈ line, isBreak c = false)
    (hpost : ∀ n p1, post = n :: p1 → isBreak n = true) :
    trimText iswspace (line ++ post).length (line ++ post) =
      keptOf iswspace line ++ trimText iswspace post.length post := by
  obtain ⟨h1, h2⟩ := lineOf_append_of_break line post hline hpost
  rw [trimText_line iswspace (line ++ post), h1, h2]

/-- The text written for a text whose first part ends with a terminator is the text written
for that part followed by the text written for the rest. -/
theorem trimText_append (iswspace : WChar → Bool) (n : Nat) :
    ∀ (pre suf : List WChar), pre.length ≤ n →
      (∀ p1 p, pre = p1 ++ [p] → isBreak p = true) →
      trimText iswspace (pre ++ suf).length (pre ++ suf) =
        trimText iswspace pre.length pre ++ trimText iswspace suf.length suf := by
  induction n with
  | zero =>
    intro pre suf h _
    have : pre = [] := List.length_eq_zero.mp (Nat.le_zero.mp h)
    subst this
    simp [trimText_nil]
  | succ n ih =>
    intro pre suf hlen hlast
    by_cases hne : pre = []
    · subst hne; simp [trimText_nil]
    · -- the first line of `pre` stops inside `pre`
      have hA : afterLine pre ≠ [] := by
        intro h
        obtain ⟨p1, p, hp⟩ : ∃ p1 p, pre = p1 ++ [p] :=
          ⟨pre.dropLast, pre.getLast hne, (List.dropLast_append_getLast hne).symm⟩
        have hb := hlast p1 p hp
        have hall : ∀ c ∈ pre, (!isBreak c) = true :=
          List.dropWhile_eq_nil_iff.mp h
        have := hall p (by rw [hp]; simp)
        simp [hb] at this
      obtain ⟨b, t, hbt⟩ : ∃ b t, afterLine pre = b :: t := by
        cases hh : afterLine pre with
        | nil => exact absurd hh hA
        | cons b t => exact ⟨b, t, rfl⟩
      have hb : isBreak b = true := afterLine_head_break pre b t hbt
      obtain ⟨L, hline, hsplit⟩ : ∃ L : List WChar, (∀ c ∈ L, isBreak c = false) ∧
          pre = L ++ b :: t :=
        ⟨lineOf pre, lineOf_not_break pre, by rw [← hbt, lineOf_append_afterLine]⟩
      subst hsplit
      have htlen : t.length ≤ n := by
        simp at hlen
        omega
      have htlast : ∀ p1 p, t = p1 ++ [p] → isBreak p = true := by
        intro p1 p hp
        exact hlast (L ++ b :: p1) p (by simp [hp])
      have e1 : (L ++ b :: t) ++ suf = L ++ (b :: (t ++ suf)) := by simp
      rw [e1, trimText_append_line iswspace L (b :: (t ++ suf)) hline
        (by intro n p1 h; cases h; exact hb),
        trimText_cons_break iswspace b (t ++ suf) hb, ih t suf htlen htlast,
        trimText_append_line iswspace L (b :: t) hline
        (by intro n p1 h; cases h; exact hb), trimText_cons_break iswspace b t hb]
      simp

/-- A line made of leading whitespace, a middle part that neither starts nor ends with
whitespace, and trailing whitespace is kept as its middle part. -/
theorem keptOf_split (iswspace : WChar → Bool) (lead mid trail : List WChar)
    (hlead : ∀ c ∈ lead, isTrimWs iswspace c = true)
    (htrail : ∀ c ∈ trail, isTrimWs iswspace c = true)
    (hfirst : ∀ c t, mid = c :: t → isTrimWs iswspace c = false)
    (hlast : ∀ t c, mid = t ++ [c] → isTrimWs iswspace c = false) :
    keptOf iswspace (lead ++ mid ++ trail) = mid := by
  unfold keptOf
  rw [List.append_assoc, List.dropWhile_append_of_pos hlead]
  rcases List.eq_nil_or_concat mid with h | ⟨a, c, h⟩
  · subst h
    rw [List.nil_append, List.dropWhile_eq_nil_iff.mpr htrail]
    rfl
  · rw [List.concat_eq_append] at h
    have hd : (mid ++ trail).dropWhile (isTrimWs iswspace) = mid ++ trail := by
      cases hm : mid with
      | nil => rw [hm] at h; simp at h
      | cons x t =>
        rw [List.cons_append, List.dropWhile_cons_of_neg (by simp [hfirst x t hm])]
    rw [hd]
    unfold List.rdropWhile
    rw [List.reverse_append,
      List.dropWhile_append_of_pos (by intro x hx; exact htrail x (List.mem_reverse.mp hx)),
      h, List.reverse_append, List.reverse_singleton, List.singleton_append,
      List.dropWhile_cons_of_neg (by simp [hlast a c h])]
    simp

theorem isTrimWs_iff (iswspace : WChar → Bool) (c : WChar) :
    isTrimWs iswspace c = true ↔ (iswspace c = true ∧ c ≠ CR ∧ c ≠ LF) := by
  simp [isTrimWs, and_assoc]

theorem trim_text_eq (iswspace : WChar → Bool) (input : List WChar) :
    (trim_lines_preserving_breaks iswspace true (some input)).text
      = some (trimText iswspace input.length input) := by
  obtain ⟨s, h, _, hres⟩ := trim_text_inv iswspace input
  rw [hres, h]

/-- The text returned for a text that contains a whole line: the text returned for what
stands before the line, the line from its first to its last non-whitespace character,
the text returned for what stands after the line. -/
theorem trim_text_line (iswspace : WChar → Bool) (pre lead mid trail post : List WChar)
    (hpre : ∀ p1 p, pre = p1 ++ [p] → p = CR ∨ p = LF)
    (hpost : ∀ n p1, post = n :: p1 → n = CR ∨ n = LF)
    (hlead : ∀ c ∈ lead, iswspace c = true ∧ c ≠ CR ∧ c ≠ LF)
    (htrail : ∀ c ∈ trail, iswspace c = true ∧ c ≠ CR ∧ c ≠ LF)
    (hmid : ∀ c ∈ mid, c ≠ CR ∧ c ≠ LF)
    (hfirst : ∀ c t, mid = c :: t → iswspace c = false)
    (hlast : ∀ t c, mid = t ++ [c] → iswspace c = false) :
    trimText iswspace (pre ++ lead ++ mid ++ trail ++ post).length
        (pre ++ lead ++ mid ++ trail ++ post) =
      trimText iswspace pre.length pre ++ mid ++ trimText iswspace post.length post := by
  have hline : ∀ c ∈ lead ++ mid ++ trail, isBreak c = false := by
    intro c hc
    rw [isBreak_false_iff]
    simp only [List.mem_append] at hc
    rcases hc with (hc | hc) | hc
    · exact (hlead c hc).2
    · exact hmid c hc
    · exact (htrail c hc).2
  have e : pre ++ lead ++ mid ++ trail ++ post = pre ++ ((lead ++ mid ++ trail) ++ post) := by
    simp
  rw [e, trimText_append iswspace pre.length pre _ (Nat.le_refl _)
      (fun p1 p h => (isBreak_iff p).mpr (hpre p1 p h)),
    trimText_append_line iswspace (lead ++ mid ++ trail) post hline
      (fun n p1 h => (isBreak_iff n).mpr (hpost n p1 h)),
    keptOf_split iswspace lead mid trail
      (fun c hc => (isTrimWs_iff iswspace c).mpr (hlead c hc))
      (fun c hc => (isTrimWs_iff iswspace c).mpr (htrail c hc))
      (fun c t h => by simp [isTrimWs, hfirst c t h])
      (fun t c h => by simp [isTrimWs, hlast t c h])]
  simp

/-! ## The claims -/

/-- C1: for every classifier and every input buffer, the text that
`trim_lines_preserving_breaks` returns is obtained from the input by deleting characters
only (it is a sublist), and only whitespace other than `\r` and `\n` is deleted: the
characters that are not whitespace or are `\r`/`\n` form the same sequence in the input
and in the output; in particular the `\r` and `\n` of the output are, in order, those of
the input. -/
theorem trim_deletes_only_whitespace (iswspace : WChar → Bool) (input : List WChar) :
    ∃ out, (trim_lines_preserving_breaks iswspace true (some input)).text = some out ∧
      out.Sublist input ∧
      out.filter (keepChar iswspace) = input.filter (keepChar iswspace) ∧
      out.filter isBreak = input.filter isBreak := by
  obtain ⟨s, ⟨h1, h2⟩, _, hres⟩ := trim_keep_inv iswspace input
  refine ⟨s.out.cells, by rw [hres], h1, h2, ?_⟩
  rw [← filter_isBreak_of_keep iswspace s.out.cells, h2, filter_isBreak_of_keep]

/-- C2: no line of the output of `trim_lines_preserving_breaks` begins or ends with
whitespace, and whitespace strictly inside a line's content is kept. First, wherever a
whitespace character `c` other than `\r` and `\n` stands in the output, `out = a ++ c :: b`,
there is a character before it and a character after it, and neither of the two is `\r` or
`\n`. Second, for every whole line of the input (`pre` before it is empty or ends with a
terminator, `post` after it is empty or starts with one), written as leading whitespace
`lead`, a part `mid` that neither starts nor ends with whitespace, and trailing whitespace
`trail`, the output is the output for `pre`, then `mid` unchanged (every whitespace
character inside it included), then the output for `post`. -/
theorem trim_no_edge_whitespace (iswspace : WChar → Bool) (input : List WChar) :
    ∃ out, (trim_lines_preserving_breaks iswspace true (some input)).text = some out ∧
      (∀ a c b, out = a ++ c :: b → iswspace c = true → c ≠ CR → c ≠ LF →
        (∃ a1 p, a = a1 ++ [p] ∧ p ≠ CR ∧ p ≠ LF) ∧
        (∃ n b1, b = n :: b1 ∧ n ≠ CR ∧ n ≠ LF)) ∧
      (∀ pre lead mid trail post, input = pre ++ lead ++ mid ++ trail ++ post →
        (∀ p1 p, pre = p1 ++ [p] → p = CR ∨ p = LF) →
        (∀ n p1, post = n :: p1 → n = CR ∨ n = LF) →
        (∀ c ∈ lead, iswspace c = true ∧ c ≠ CR ∧ c ≠ LF) →
        (∀ c ∈ trail, iswspace c = true ∧ c ≠ CR ∧ c ≠ LF) →
        (∀ c ∈ mid, c ≠ CR ∧ c ≠ LF) →
        (∀ c t, mid = c :: t → iswspace c = false) →
        (∀ t c, mid = t ++ [c] → iswspace c = false) →
        ∃ o1 o2, (trim_lines_preserving_breaks iswspace true (some pre)).text = some o1 ∧
          (trim_lines_preserving_breaks iswspace true (some post)).text = some o2 ∧
          out = o1 ++ mid ++ o2) := by
  obtain ⟨s, ⟨h, _⟩, _, hres⟩ := trim_noEdge_inv iswspace input
  have htext := trim_text_eq iswspace input
  rw [hres] at htext
  refine ⟨s.out.cells, by rw [hres], ?_, ?_⟩
  · intro a c b hout hws hcr hlf
    have hc : isTrimWs iswspace c = true := by simp [isTrimWs, hws, hcr, hlf]
    obtain ⟨⟨a1, p, hp, hpb⟩, ⟨n, b1, hn, hnb⟩⟩ := h a c b hout hc
    exact ⟨⟨a1, p, hp, (isBreak_false_iff p).mp hpb⟩,
      ⟨n, b1, hn, (isBreak_false_iff n).mp hnb⟩⟩
  · intro pre lead mid trail post hin hpre hpost hlead htrail hmid hfirst hlast
    refine ⟨_, _, trim_text_eq iswspace pre, trim_text_eq iswspace post, ?_⟩
    rw [Option.some.inj htext, hin]
    exact trim_text_line iswspace pre lead mid trail post hpre hpost hlead htrail hmid
      hfirst hlast

/-- Witness of `trim_no_edge_whitespace`: in the output "a b\n" of " a b \n" the space stands
between `a` and `b`, and the line " a b " is written as its middle part "a b". -/
theorem trim_no_edge_whitespace_witness :
    (trim_lines_preserving_breaks iswspaceAscii true (some [32, 97, 32, 98, 32, 10])).text
        = some ([97] ++ 32 :: [98, 10]) ∧
      ((∃ a1 p, [97] = a1 ++ [p] ∧ p ≠ CR ∧ p ≠ LF) ∧
        (∃ n b1, [98, 10] = n :: b1 ∧ n ≠ CR ∧ n ≠ LF)) ∧
      (∃ o1 o2, (trim_lines_preserving_breaks iswspaceAscii true (some [])).text = some o1 ∧
        (trim_lines_preserving_breaks iswspaceAscii true (some [10])).text = some o2 ∧
        [97] ++ 32 :: [98, 10] = o1 ++ [97, 32, 98] ++ o2) := by
  obtain ⟨out, h1, h2, h4⟩ := trim_no_edge_whitespace iswspaceAscii [32, 97, 32, 98, 32, 10]
  have h3 : (trim_lines_preserving_breaks iswspaceAscii true
      (some [32, 97, 32, 98, 32, 10])).text = some ([97] ++ 32 :: [98, 10]) := by decide
  rw [h3] at h1
  have ho : out = [97] ++ 32 :: [98, 10] := (Option.some.inj h1).symm
  subst ho
  exact ⟨h3, h2 [97] 32 [98, 10] rfl (by decide) (by decide) (by decide),
    h4 [] [32] [97, 32, 98] [32] [10] rfl (by simp) (by simp [LF]) (by simp [CR, LF]; decide)
      (by simp [CR, LF]; decide) (by simp [CR, LF]) (by
        intro c t h; cases h; decide) (by
        intro t c h
        have : c = 98 := by
          have := congrArg List.getLast? h
          simp at this
          exact this.symm
        subst this; decide)⟩

/-- C3: idempotence. Applying `trim_lines_preserving_breaks` to the text returned by a first
application (whatever its input and the outcome of its allocation) returns the same text
and the same length, with `whitespaceRemoved = 0` and `linesTouched = 0`. -/
theorem trim_idempotent (iswspace : WChar → Bool) (mallocOk : Bool)
    (x : Option (List WChar)) :
    (trim_lines_preserving_breaks iswspace true
        (trim_lines_preserving_breaks iswspace mallocOk x).text).text
      = (trim_lines_preserving_breaks iswspace mallocOk x).text ∧
    (trim_lines_preserving_breaks iswspace true
        (trim_lines_preserving_breaks iswspace mallocOk x).text).length
      = (trim_lines_preserving_breaks iswspace mallocOk x).length ∧
    (trim_lines_preserving_breaks iswspace true
        (trim_lines_preserving_breaks iswspace mallocOk x).text).whitespaceRemoved = 0 ∧
    (trim_lines_preserving_breaks iswspace true
        (trim_lines_preserving_breaks iswspace mallocOk x).text).linesTouched = 0 := by
  have hz : trim_lines_preserving_breaks iswspace true none = TrimmedBuffer.zero := rfl
  cases x with
  | none =>
    have : trim_lines_preserving_breaks iswspace mallocOk none = TrimmedBuffer.zero := rfl
    rw [this]
    exact ⟨rfl, rfl, rfl, rfl⟩
  | some input =>
    cases mallocOk with
    | false =>
      have : trim_lines_preserving_breaks iswspace false (some input) = TrimmedBuffer.zero :=
        rfl
      rw [this]
      exact ⟨rfl, rfl, rfl, rfl⟩
    | true =>
      obtain ⟨s, ⟨hclean, hlen⟩, _, hres⟩ := trim_noEdge_inv iswspace input
      obtain ⟨lc, hfix⟩ := trim_fixed_point iswspace s.out.cells hclean
      rw [hres]
      simp only
      rw [hfix]
      exact ⟨rfl, hlen.symm, rfl, rfl⟩

/-- C4 (as stated, refuted): with space as whitespace, the input `\r`, space, `\n` has the
two lone terminators `\r` and `\n`, and the trimmed output is `\r\n` whose only terminator
is one `\r\n`. -/
theorem trim_terminators_counterexample :
    (trim_lines_preserving_breaks iswspaceAscii true (some [CR, 32, LF])).text = some [CR, LF] ∧
      terminators [CR, 32, LF] = [Terminator.cr, Terminator.lf] ∧
      terminators [CR, LF] = [Terminator.crlf] ∧
      (trim_lines_preserving_breaks iswspaceAscii true (some [CR, 32, LF])).text.map terminators
        ≠ some (terminators [CR, 32, LF]) := by
  decide

/-- C4 (amended): for every input in which no `\r` is separated from a following `\n` by one
or more characters that are all whitespace other than `\r` and `\n`, the terminators of the
trimmed output, in order and by kind, are those of the input. -/
theorem trim_preserves_terminators (iswspace : WChar → Bool) (input : List WChar)
    (h : crWsLf iswspace input = false) :
    ∃ out, (trim_lines_preserving_breaks iswspace true (some input)).text = some out ∧
      terminators out = terminators input := by
  obtain ⟨s, hterm, hres⟩ := trim_terminators_inv iswspace input h
  exact ⟨s.out.cells, by rw [hres], hterm⟩

/-- Witness of `trim_preserves_terminators`: the text "  foo \r\nbar\t\n". -/
theorem trim_preserves_terminators_witness :
    crWsLf iswspaceAscii [32, 32, 102, 111, 111, 32, 13, 10, 98, 97, 114, 9, 10] = false ∧
    ∃ out, (trim_lines_preserving_breaks iswspaceAscii true
        (some [32, 32, 102, 111, 111, 32, 13, 10, 98, 97, 114, 9, 10])).text = some out ∧
      terminators out = terminators [32, 32, 102, 111, 111, 32, 13, 10, 98, 97, 114, 9, 10] :=
  ⟨by decide, trim_preserves_terminators iswspaceAscii _ (by decide)⟩

/-- C5 (the code at the examples of the claim): the line counts of `""`, `"a"`, `"a\n"` and
`"a\nb"` are 0, 1, 1 and 2, and the line count of `"a\n\n"` is 1, where the claim says 2:
the terminator loop consumes both `\n` in the first iteration, so the empty second line is
never counted. -/
theorem trim_lineCount_examples :
    (trim_lines_preserving_breaks iswspaceAscii true (some [])).lineCount = 0 ∧
    (trim_lines_preserving_breaks iswspaceAscii true (some [97])).lineCount = 1 ∧
    (trim_lines_preserving_breaks iswspaceAscii true (some [97, LF])).lineCount = 1 ∧
    (trim_lines_preserving_breaks iswspaceAscii true (some [97, LF, 98])).lineCount = 2 ∧
    (trim_lines_preserving_breaks iswspaceAscii true (some [97, LF, LF])).lineCount = 1 := by
  decide

/-- C6 (as stated, refuted): on "  foo \r\nbar\t\n" with space and tab as whitespace, four
characters are removed, not three. -/
theorem trim_example_counterexample :
    (trim_lines_preserving_breaks iswspaceAscii true
        (some [32, 32, 102, 111, 111, 32, 13, 10, 98, 97, 114, 9, 10])).whitespaceRemoved = 4 ∧
    (trim_lines_preserving_breaks iswspaceAscii true
        (some [32, 32, 102, 111, 111, 32, 13, 10, 98, 97, 114, 9, 10])).whitespaceRemoved ≠ 3 := by
  decide

/-- C6 (amended): with space and tab classified as whitespace (and `f`, `o`, `b`, `r` not), the
13-character input "  foo \r\nbar\t\n" gives the text "foo\r\nbar\n" of length 9 with
`whitespaceRemoved = 4`, `linesTouched = 2` and `lineCount = 2`. -/
theorem trim_example (iswspace : WChar → Bool)
    (hsp : iswspace 32 = true) (htab : iswspace 9 = true)
    (hf : iswspace 102 = false) (ho : iswspace 111 = false)
    (hb : iswspace 98 = false) (hr : iswspace 114 = false) :
    trim_lines_preserving_breaks iswspace true
        (some [32, 32, 102, 111, 111, 32, 13, 10, 98, 97, 114, 9, 10])
      = { text := some [102, 111, 111, 13, 10, 98, 97, 114, 10], length := 9,
          whitespaceRemoved := 4, linesTouched := 2, lineCount := 2 } := by
  simp [trim_lines_preserving_breaks, trimLoop, trimLine, scanLineEnd, scanTrimStart, scanTrimEnd,
    copyContent, copyTerminators, OutBuf.put, CR, LF, hsp, htab, hf, ho, hb, hr]

/-- Witness of `trim_example`: the C-locale classifier on ASCII. -/
theorem trim_example_witness :
    iswspaceAscii 32 = true ∧ iswspaceAscii 9 = true ∧ iswspaceAscii 102 = false ∧
    iswspaceAscii 111 = false ∧ iswspaceAscii 98 = false ∧ iswspaceAscii 114 = false ∧
    trim_lines_preserving_breaks iswspaceAscii true
        (some [32, 32, 102, 111, 111, 32, 13, 10, 98, 97, 114, 9, 10])
      = { text := some [102, 111, 111, 13, 10, 98, 97, 114, 10], length := 9,
          whitespaceRemoved := 4, linesTouched := 2, lineCount := 2 } :=
  ⟨by decide, by decide, by decide, by decide, by decide, by decide,
    trim_example iswspaceAscii (by decide) (by decide) (by decide) (by decide) (by decide)
      (by decide)⟩

/-- C7: for a non-null input of length `n` whose output buffer is allocated, the returned
`length` and `whitespaceRemoved` add up to `n`, the output is not longer than the input, and
`length` is the number of characters of the returned text (the index of its terminating NUL,
at most `n`). -/
theorem trim_length_accounting (iswspace : WChar → Bool) (input : List WChar) :
    (trim_lines_preserving_breaks iswspace true (some input)).length
      + (trim_lines_preserving_breaks iswspace true (some input)).whitespaceRemoved
        = input.length ∧
    (trim_lines_preserving_breaks iswspace true (some input)).length ≤ input.length ∧
    (trim_lines_preserving_breaks iswspace true (some input)).text.map List.length
      = some (trim_lines_preserving_breaks iswspace true (some input)).length := by
  obtain ⟨s, ⟨h1, h2⟩, _, hres⟩ := trim_accounting_inv iswspace input
  rw [hres]
  simp only [Option.map_some']
  refine ⟨h2, by omega, by rw [h1]⟩

/-- C8: when the wide-character payload of the clipboard is the text returned by
`trim_lines_preserving_breaks` for some `x` and the flag is clear, one run of
`handle_clipboard_update` writes nothing, whatever the outcomes of the host calls:
`set_clipboard_text` is not called, the clipboard content is unchanged, the flag is clear
at every host call and on return, and no host call changes the clipboard content. -/
theorem handle_already_trimmed_no_write (iswspace : WChar → Bool)
    (mb : List Nat → Option (List WChar)) (x : List WChar) (w : World)
    (hpay : w.unicodeText = (trim_lines_preserving_breaks iswspace true (some x)).text)
    (hflag : w.g_isUpdatingClipboard = false) :
    (handle_clipboard_update iswspace mb w).setClipboardTextCalls = w.setClipboardTextCalls ∧
    (handle_clipboard_update iswspace mb w).unicodeText = w.unicodeText ∧
    (handle_clipboard_update iswspace mb w).ansiText = w.ansiText ∧
    (handle_clipboard_update iswspace mb w).g_isUpdatingClipboard = false ∧
    ∃ t, (handle_clipboard_update iswspace mb w).trace = w.trace ++ t ∧
      ∀ e ∈ t, e.flag = false ∧ e.call.isWrite = false := by
  obtain ⟨s, ⟨hclean, _⟩, _, hres⟩ := trim_noEdge_inv iswspace x
  rw [hres] at hpay
  obtain ⟨h1, _, h3, h4, t, h5, h6⟩ :=
    handle_trimmed_calls iswspace mb w s.out.cells hclean hpay hflag
  have hc := h4 (fun _ h => h)
  refine ⟨h3, hc.1, hc.2, h1.trans hflag, t, h5, ?_⟩
  intro e he
  obtain ⟨e1, _, e3⟩ := h6 e he
  exact ⟨e1.trans hflag, e3⟩

/-- Witness of `handle_already_trimmed_no_write`: the clipboard holds "foo\r\nbar\n", the
trimmed form of "  foo \r\nbar\t\n". -/
theorem handle_already_trimmed_no_write_witness :
    exampleTrimmedWorld.unicodeText = (trim_lines_preserving_breaks iswspaceAscii true
        (some [32, 32, 102, 111, 111, 32, 13, 10, 98, 97, 114, 9, 10])).text ∧
    exampleTrimmedWorld.g_isUpdatingClipboard = false ∧
    (handle_clipboard_update iswspaceAscii (fun _ => none)
        exampleTrimmedWorld).setClipboardTextCalls
      = exampleTrimmedWorld.setClipboardTextCalls ∧
    (handle_clipboard_update iswspaceAscii (fun _ => none) exampleTrimmedWorld).unicodeText
      = exampleTrimmedWorld.unicodeText ∧
    (handle_clipboard_update iswspaceAscii (fun _ => none) exampleTrimmedWorld).ansiText
      = exampleTrimmedWorld.ansiText ∧
    (handle_clipboard_update iswspaceAscii (fun _ => none)
        exampleTrimmedWorld).g_isUpdatingClipboard = false ∧
    ∃ t, (handle_clipboard_update iswspaceAscii (fun _ => none) exampleTrimmedWorld).trace
        = exampleTrimmedWorld.trace ++ t ∧
      ∀ e ∈ t, e.flag = false ∧ e.call.isWrite = false :=
  ⟨by decide, rfl,
    handle_already_trimmed_no_write iswspaceAscii (fun _ => none)
      [32, 32, 102, 111, 111, 32, 13, 10, 98, 97, 114, 9, 10] exampleTrimmedWorld
      (by decide) rfl⟩

/-- C9: reentrancy guard. Invoked while `g_isUpdatingClipboard` is set,
`handle_clipboard_update` returns at once and leaves the whole state as it is: no host call
is recorded, no log entry is written, the clipboard content and the flag are unchanged. -/
theorem handle_reentrancy_guard (iswspace : WChar → Bool)
    (mb : List Nat → Option (List WChar)) (w : World)
    (hflag : w.g_isUpdatingClipboard = true) :
    handle_clipboard_update iswspace mb w = w := by
  unfold handle_clipboard_update
  rw [if_pos hflag]

/-- Witness of `handle_reentrancy_guard`. -/
theorem handle_reentrancy_guard_witness :
    exampleBusyWorld.g_isUpdatingClipboard = true ∧
    handle_clipboard_update iswspaceAscii (fun _ => none) exampleBusyWorld
      = exampleBusyWorld :=
  ⟨rfl, handle_reentrancy_guard iswspaceAscii (fun _ => none) exampleBusyWorld rfl⟩

/-- C10: guard lifecycle. A run of `handle_clipboard_update` started with
`g_isUpdatingClipboard` clear (and not inside `set_clipboard_text`) returns with the flag
clear, whatever the outcomes of the host calls; and at every host call of the run the flag
is set exactly when the call is made inside `set_clipboard_text`, so that a call that
changes the clipboard content is made with the flag set and a call that reads it with
the flag clear. -/
theorem handle_guard_flag_lifecycle (iswspace : WChar → Bool)
    (mb : List Nat → Option (List WChar)) (w : World)
    (hflag : w.g_isUpdatingClipboard = false) (hin : w.inSetClipboardText = false) :
    (handle_clipboard_update iswspace mb w).g_isUpdatingClipboard = false ∧
    ∃ t, (handle_clipboard_update iswspace mb w).trace = w.trace ++ t ∧
      ∀ e ∈ t, e.flag = e.inSet ∧ (e.call.isWrite = true → e.flag = true) ∧
        (e.call.isRead = true → e.flag = false) := by
  obtain ⟨h1, t, h2, h3⟩ := handle_guard_lifecycle iswspace mb w hflag hin
  exact ⟨h1, t, h2, h3⟩

/-- Witness of `handle_guard_flag_lifecycle`: a run that writes the trimmed text back. -/
theorem handle_guard_flag_lifecycle_witness :
    exampleUntrimmedWorld.g_isUpdatingClipboard = false ∧
    exampleUntrimmedWorld.inSetClipboardText = false ∧
    (handle_clipboard_update iswspaceAscii (fun _ => none)
        exampleUntrimmedWorld).g_isUpdatingClipboard = false ∧
    ∃ t, (handle_clipboard_update iswspaceAscii (fun _ => none) exampleUntrimmedWorld).trace
        = exampleUntrimmedWorld.trace ++ t ∧
      ∀ e ∈ t, e.flag = e.inSet ∧ (e.call.isWrite = true → e.flag = true) ∧
        (e.call.isRead = true → e.flag = false) :=
  ⟨rfl, rfl,
    handle_guard_flag_lifecycle iswspaceAscii (fun _ => none) exampleUntrimmedWorld rfl rfl⟩

/-- C11 (as stated, refuted): when the clipboard holds a text and the allocation of the shared
memory fails, `set_clipboard_text` has already called `EmptyClipboard`: it returns false and
the clipboard no longer holds its prior content. -/
theorem set_clipboard_text_alloc_failure_counterexample :
    (set_clipboard_text (some [102, 111, 111]) 3 exampleAllocFailWorld).1 = false ∧
    (set_clipboard_text (some [102, 111, 111]) 3 exampleAllocFailWorld).2.trace.map
        TraceEntry.call
      = [HostCall.OpenClipboard true, HostCall.EmptyClipboard true, HostCall.GlobalAlloc false,
          HostCall.CloseClipboard] ∧
    exampleAllocFailWorld.unicodeText
      = some [32, 32, 102, 111, 111, 32, 13, 10, 98, 97, 114, 9, 10] ∧
    (set_clipboard_text (some [102, 111, 111]) 3 exampleAllocFailWorld).2.unicodeText = none ∧
    (set_clipboard_text (some [102, 111, 111]) 3 exampleAllocFailWorld).2.unicodeText
      ≠ exampleAllocFailWorld.unicodeText := by
  decide

/-- C11 (amended): `set_clipboard_text` clears the clipboard before it prepares the payload.
Its host calls are those of `try_open_clipboard` followed by one of six sequences: nothing
(the open failed); a failed `EmptyClipboard`; or a successful `EmptyClipboard` followed by the
allocation, the lock, the fill and the installation, as far as they succeed. When it fails
at the open or at `EmptyClipboard` the clipboard holds its prior content; when it fails at
`GlobalAlloc`, `GlobalLock` or `SetClipboardData` the clipboard is left empty; when it
succeeds the clipboard holds the new text. -/
theorem set_clipboard_text_clears_before_preparing (text : List WChar) (length : Nat)
    (w : World) :
    ∃ t tail, (set_clipboard_text (some text) length w).2.trace = w.trace ++ t ∧
      t.map TraceEntry.call = openCalls kRetries (failedAttempts kRetries w.outcomes) ++ tail ∧
      SetOutcome (text.take length) w.unicodeText w.ansiText tail
        (set_clipboard_text (some text) length w).1
        (set_clipboard_text (some text) length w).2 := by
  obtain ⟨tail, htr, hout⟩ := set_clipboard_text_body_after_open text length w.enterSet
  obtain ⟨_, t0, ht0, hcalls⟩ := try_open_clipboard_spec w.enterSet
  have hc := (calls_try_open_clipboard NotWrite (fun _ => rfl) (fun _ => rfl) w.enterSet).2.2.2.1
    (fun _ h => h)
  have hu : (try_open_clipboard w.enterSet).2.unicodeText = w.unicodeText := hc.1
  have ha : (try_open_clipboard w.enterSet).2.ansiText = w.ansiText := hc.2
  rw [hu, ha] at hout
  refine ⟨t0 ++ entriesOf (try_open_clipboard w.enterSet).2 tail, tail, ?_, ?_, ?_⟩
  · rw [set_clipboard_text_trace, htr, ht0]
    show w.trace ++ t0 ++ _ = _
    rw [List.append_assoc]
  · rw [List.map_append, entriesOf_calls, hcalls]
    rfl
  · exact hout

/-- C12: for every combination of outcomes of the host calls, `fetch_clipboard_text` and
`set_clipboard_text` release the clipboard before returning: when the clipboard was opened,
the last host call is `CloseClipboard`, it is the only `CloseClipboard` of the call, and the
clipboard is closed on return; when the open failed (or, for a null text, was not
attempted), no `CloseClipboard` is made and the only host calls are the failed attempts to
open and the waits between them. -/
theorem clipboard_access_released (mb : List Nat → Option (List WChar))
    (text : Option (List WChar)) (length : Nat) (w : World) :
    ReleasesAccess w (fetch_clipboard_text mb w).2 ∧
      ReleasesAccess w (set_clipboard_text text length w).2 := by
  constructor
  · exact releasesAccess_of_open w w _ rfl (fetch_clipboard_text_held mb w)
      (fun h => (fetch_clipboard_text_open_failed mb w h).2)
  · cases text with
    | none => exact ⟨[], by simp [set_clipboard_text_trace, set_clipboard_text_body,
        World.enterSet], by simp, by simp⟩
    | some text =>
      exact releasesAccess_of_open w w.enterSet _ rfl (set_clipboard_text_held text length w)
        (fun h => (set_clipboard_text_open_failed text length w h).2)

/-- C13: bounded retry. `try_open_clipboard` makes the failed attempts that precede the first
success among five attempts, each followed by `Sleep(10)`, and then the successful attempt
when there is one: at most five attempts in all, none after a success. It returns true
exactly when one of the five attempts succeeds and false exactly when all five fail. When it
returns false, `fetch_clipboard_text` and `set_clipboard_text` return false without a
further host call, and a run of `handle_clipboard_update` makes no further host call and
does not call `set_clipboard_text`. -/
theorem try_open_clipboard_bounded_retry (iswspace : WChar → Bool)
    (mb : List Nat → Option (List WChar)) (text : List WChar) (length : Nat) (w : World) :
    kRetries = 5 ∧
    (∃ t, (try_open_clipboard w).2.trace = w.trace ++ t ∧
      t.map TraceEntry.call = openCalls kRetries (failedAttempts kRetries w.outcomes) ∧
      ((t.map TraceEntry.call).filter HostCall.isOpenAttempt).length ≤ kRetries) ∧
    ((try_open_clipboard w).1 = true ↔ failedAttempts kRetries w.outcomes < kRetries) ∧
    ((try_open_clipboard w).1 = false ↔ ∀ i, i < kRetries → w.outcomes.getD i false = false) ∧
    ((try_open_clipboard w).1 = false →
      (fetch_clipboard_text mb w).1.ok = false ∧
      (fetch_clipboard_text mb w).2.trace = (try_open_clipboard w).2.trace) ∧
    ((try_open_clipboard w).1 = false →
      (set_clipboard_text (some text) length w).1 = false ∧
      ∃ t, (set_clipboard_text (some text) length w).2.trace = w.trace ++ t ∧
        t.map TraceEntry.call = failedOpenCalls kRetries) ∧
    (w.g_isUpdatingClipboard = false → (try_open_clipboard w).1 = false →
      (handle_clipboard_update iswspace mb w).trace = (try_open_clipboard w).2.trace ∧
      (handle_clipboard_update iswspace mb w).setClipboardTextCalls
        = w.setClipboardTextCalls) := by
  obtain ⟨hres, t, ht, hcalls⟩ := try_open_clipboard_spec w
  have hle := failedAttempts_le kRetries w.outcomes
  refine ⟨rfl, ⟨t, ht, hcalls, ?_⟩, ?_, ?_, ?_, ?_, ?_⟩
  · rw [hcalls]
    exact openCalls_attempts_le kRetries _ hle
  · rw [hres]
    simp
  · rw [try_open_clipboard_false_iff, failedAttempts_eq_iff]
  · exact fetch_clipboard_text_open_failed mb w
  · intro h
    have hset : (try_open_clipboard w.enterSet).1 = false := by
      rw [(try_open_clipboard_spec w.enterSet).1]
      rw [hres] at h
      exact h
    obtain ⟨h1, h2⟩ := set_clipboard_text_open_failed text length w hset
    obtain ⟨_, t2, ht2, hc2⟩ := try_open_clipboard_spec w.enterSet
    have hk : ¬ failedAttempts kRetries w.enterSet.outcomes < kRetries := by
      have := (try_open_clipboard_false_iff w.enterSet).mp hset
      omega
    rw [openCalls_of_not_lt _ _ hk, (try_open_clipboard_false_iff w.enterSet).mp hset] at hc2
    exact ⟨h1, t2, by rw [h2, ht2]; rfl, hc2⟩
  · exact handle_clipboard_update_open_failed iswspace mb w

/-- Witness of `try_open_clipboard_bounded_retry`: five failed attempts; the sixth outcome is
never asked for. -/
theorem try_open_clipboard_bounded_retry_witness :
    (try_open_clipboard exampleContendedWorld).1 = false ∧
    (try_open_clipboard exampleContendedWorld).2.outcomes = [true] ∧
    (fetch_clipboard_text (fun _ => none) exampleContendedWorld).1.ok = false ∧
    (fetch_clipboard_text (fun _ => none) exampleContendedWorld).2.trace
      = (try_open_clipboard exampleContendedWorld).2.trace :=
  ⟨by decide, by decide,
    (try_open_clipboard_bounded_retry iswspaceAscii (fun _ => none) [] 0
      exampleContendedWorld).2.2.2.2.1 (by decide)⟩


/-- C14: for every input `x`, the change detector of `handle_clipboard_update` reports a
change on the result of `trim_lines_preserving_breaks` exactly when `whitespaceRemoved > 0`,
which holds exactly when `linesTouched > 0`; the trimmed text is `x` exactly when
`whitespaceRemoved = 0`; and every write-back entry that a run of `handle_clipboard_update`
adds to the log reports at least one character removed and at least one line touched. -/
theorem change_detector_iff_whitespace_removed (iswspace : WChar → Bool)
    (mb : List Nat → Option (List WChar)) (x : List WChar) (w : World) :
    (textChanged (trim_lines_preserving_breaks iswspace true (some x)) ⟨some x, x.length⟩ = true
      ↔ 0 < (trim_lines_preserving_breaks iswspace true (some x)).whitespaceRemoved) ∧
    (0 < (trim_lines_preserving_breaks iswspace true (some x)).whitespaceRemoved
      ↔ 0 < (trim_lines_preserving_breaks iswspace true (some x)).linesTouched) ∧
    ((trim_lines_preserving_breaks iswspace true (some x)).text = some x
      ↔ (trim_lines_preserving_breaks iswspace true (some x)).whitespaceRemoved = 0) ∧
    (∀ a b, LogEntry.trimmed a b ∈ (handle_clipboard_update iswspace mb w).log →
      LogEntry.trimmed a b ∈ w.log ∨ (0 < a ∧ 0 < b)) := by
  obtain ⟨h1, h2, h3⟩ := textChanged_iff iswspace x
  refine ⟨h1, h2, h3, ?_⟩
  intro a b hmem
  obtain ⟨l, hl, hP⟩ := logs_handle_clipboard_update iswspace mb w
  rw [hl] at hmem
  rcases List.mem_append.mp hmem with h | h
  · exact Or.inl h
  · exact Or.inr (hP _ h a b rfl)

/-- C15: for every non-empty input the `lineCount` returned by
`trim_lines_preserving_breaks` is the number of iterations of its outer loop, and it is the
number of maximal runs of non-terminator characters plus one when the input begins with
`\r` or `\n` (a run of consecutive `\r`/`\n` is one line break: the empty lines inside it
are not counted); and `linesTouched <= lineCount` holds for every input. -/
theorem trim_lineCount_counts_iterations (iswspace : WChar → Bool) (input : List WChar) :
    (input ≠ [] →
      (trim_lines_preserving_breaks iswspace true (some input)).lineCount
        = trimLoopIterations iswspace input input.length input.length TrimState.init ∧
      (trim_lines_preserving_breaks iswspace true (some input)).lineCount
        = contentRuns true input + (if isBreak (input.headD 0) then 1 else 0)) ∧
    (trim_lines_preserving_breaks iswspace true (some input)).linesTouched
      ≤ (trim_lines_preserving_breaks iswspace true (some input)).lineCount := by
  obtain ⟨s, ⟨h1, h2, h3⟩, hres⟩ := trim_count_inv iswspace input
  have hit := trim_lineCount_eq_iterations iswspace input
  constructor
  · intro hne
    have hlen : ¬ (input.length == 0) = true := by
      simp [hne]
    constructor
    · rw [hit, if_neg hlen]
    · rw [hres]
      simp only [if_neg hlen]
      have := (h2 hne).1
      simp only [contentRuns, Nat.add_zero, expectedLineCount] at this
      exact this
  · rw [hres]
    simp only
    split
    · rename_i h0
      have : input = [] := by simpa using h0
      have := h1 this
      omega
    · exact h3

/-- Witness of `trim_lineCount_counts_iterations`: the text "a\n\n\nb" has two runs of
non-terminator characters; its line count is 2. -/
theorem trim_lineCount_counts_iterations_witness :
    [97, 10, 10, 10, 98] ≠ [] ∧
    (trim_lines_preserving_breaks iswspaceAscii true (some [97, 10, 10, 10, 98])).lineCount
      = trimLoopIterations iswspaceAscii [97, 10, 10, 10, 98] 5 5 TrimState.init ∧
    (trim_lines_preserving_breaks iswspaceAscii true (some [97, 10, 10, 10, 98])).lineCount
      = contentRuns true [97, 10, 10, 10, 98]
        + (if isBreak ([97, 10, 10, 10, 98].headD 0) then 1 else 0) ∧
    contentRuns true [97, 10, 10, 10, 98]
        + (if isBreak ([97, 10, 10, 10, 98].headD 0) then 1 else 0) = 2 :=
  ⟨by decide,
    ((trim_lineCount_counts_iterations iswspaceAscii [97, 10, 10, 10, 98]).1 (by decide)).1,
    ((trim_lineCount_counts_iterations iswspaceAscii [97, 10, 10, 10, 98]).1 (by decide)).2,
    by decide⟩

end ClipTrim
